import Mathlib

/-!
# Verification of the Snow Canyon ward-page scraping scripts

A shallow embedding, in Lean 4, of the pure computational core of the two
Python scripts in this repository:

* `scripts/build_cfm_weekly.py` — fetches the weekly Come-Follow-Me manual
  page and writes a JSON summary;
* `scripts/unit_history_sync.py` — drives a browser through a photo-story
  gallery, downloads images and writes a manifest.

Python strings are modelled as `List Char` (a Python `str` is a sequence of
Unicode code points); machine-independent integers as `Nat`/`Int`.  The
stateful parts of the scripts (file writes, download attempts, debug-artifact
capture) are modelled by explicit state passing; external effects (HTTP
responses, DOM query results, download outcomes) are inputs to the model.

Library routines from CPython 3.11 (`urllib.parse`, `datetime`, `re` as used
with the concrete patterns appearing in the scripts) are translated from
their CPython sources, since the scripts' behaviour is defined by them.
Where noted in the doc comments, the model restricts the success domain of
`urlsplit` (bracketed IPv6 hosts and non-ASCII netlocs are modelled as parse
failures; CPython additionally validates them) and treats Python's
Unicode-aware classifications (`\s`, `\d`, `str.lower`) at the ASCII level,
which is exact for every character these scripts compare against.
-/

/-! ## Python character classes and basic string helpers (ASCII model) -/

/-- Python's whitespace class `\s` restricted to ASCII:
space, tab, newline, carriage return, vertical tab, form feed. -/
def pyIsSpace (c : Char) : Bool :=
  c == ' ' || c == '\t' || c == '\n' || c == '\r' || c == Char.ofNat 11 || c == Char.ofNat 12

/-- Python's `\d` (ASCII decimal digits). -/
def pyIsDigit (c : Char) : Bool :=
  decide (48 ≤ c.toNat ∧ c.toNat ≤ 57)

/-- ASCII lowercase conversion of one character (`str.lower` on ASCII). -/
def pyLowerChar (c : Char) : Char :=
  if 65 ≤ c.toNat ∧ c.toNat ≤ 90 then Char.ofNat (c.toNat + 32) else c

/-- `str.lower` (ASCII model). -/
def pyLower (l : List Char) : List Char := l.map pyLowerChar

/-- Python `str.strip()` (strip whitespace from both ends). -/
def pyStrip (l : List Char) : List Char :=
  ((l.dropWhile pyIsSpace).reverse.dropWhile pyIsSpace).reverse

/-- Python `str.rstrip()` (strip trailing whitespace). -/
def pyRstrip (l : List Char) : List Char :=
  (l.reverse.dropWhile pyIsSpace).reverse

/-- Python `str.split(sep)` for a one-character separator: splits on every
occurrence, keeping empty pieces (`"".split(",") == [""]`). -/
def splitOnChar (sep : Char) (l : List Char) : List (List Char) :=
  l.foldr
    (fun x acc =>
      match acc with
      | [] => [[x]]
      | a :: as => if x = sep then [] :: a :: as else (x :: a) :: as)
    [[]]

/-- Python `str.split()` with no argument: split on whitespace runs,
discarding empty tokens. -/
def pySplitWSWords (l : List Char) : List (List Char) :=
  (l.foldr
    (fun c acc =>
      if pyIsSpace c then [] :: acc
      else
        match acc with
        | [] => [[c]]
        | w :: ws => (c :: w) :: ws)
    []).filter (fun w => !w.isEmpty)

/-- Value of a list of ASCII digits read as a decimal numeral (`int(...)`). -/
def natOfDigits (l : List Char) : Nat :=
  l.foldl (fun n c => n * 10 + (c.toNat - 48)) 0

/-! ## The srcset candidate pattern

Both scripts run `re.match(r"(\S+)\s+(\d+)w", part)` on each comma-separated
part of a `srcset` attribute.  Because `\S`, `\s` and `\d` are pairwise
disjoint character classes, the backtracking search collapses: the match
succeeds exactly when the maximal non-whitespace prefix is non-empty, is
followed by a non-empty whitespace run, then a non-empty digit run, then a
literal `w`; each group is the corresponding maximal run. -/

/-- `re.match(r"(\S+)\s+(\d+)w", part)`: on success, the URL group and the
numeric value of the width group. -/
def srcsetMatch (l : List Char) : Option (List Char × Nat) :=
  let a := l.takeWhile (fun c => !(pyIsSpace c))
  let r1 := l.drop a.length
  let b := r1.takeWhile pyIsSpace
  let r2 := r1.drop b.length
  let d := r2.takeWhile pyIsDigit
  if a.isEmpty || b.isEmpty || d.isEmpty then none
  else
    match r2.drop d.length with
    | 'w' :: _ => some (a, natOfDigits d)
    | _ => none

/-- The `(width, url)` candidate list accumulated by
`_largest_from_srcset` in `build_cfm_weekly.py`: parts split on `,`,
stripped, kept only when the regex matches. -/
def srcsetCandidatesOf (srcset : String) : List (Nat × List Char) :=
  ((splitOnChar ',' srcset.data).map pyStrip).filterMap
    (fun p => (srcsetMatch p).map (fun m => (m.2, m.1)))

/-- The `(width, url)` candidate list accumulated by
`pick_largest_from_srcset` in `unit_history_sync.py`: stripped non-empty
parts; regex matches keep their width, any other part contributes its first
whitespace-separated token with width 0. -/
def srcsetExtCandidatesOf (srcset : String) : List (Nat × List Char) :=
  (((splitOnChar ',' srcset.data).map pyStrip).filter (fun p => !p.isEmpty)).filterMap
    (fun p =>
      match srcsetMatch p with
      | some m => some (m.2, m.1)
      | none =>
        match pySplitWSWords p with
        | [] => none
        | t :: _ => some (0, t))

/-- The comparison used by `candidates.sort(key=lambda x: x[0])`. -/
def wLe (x y : Nat × List Char) : Prop := x.1 ≤ y.1

instance : DecidableRel wLe := fun x y => Nat.decLe x.1 y.1

instance : IsTotal (Nat × List Char) wLe := ⟨fun a b => Nat.le_total a.1 b.1⟩

instance : IsTrans (Nat × List Char) wLe := ⟨fun _ _ _ h1 h2 => Nat.le_trans h1 h2⟩

/-- `_largest_from_srcset` (`build_cfm_weekly.py`): sort candidates by width
and return the URL of the last one.  Python's `list.sort` is a stable sort by
the width key; a stable sort's output is uniquely determined, so it is
modelled by the (stable) insertion sort. -/
def largest_from_srcset (srcset : String) : String :=
  if srcset.data.isEmpty then ""
  else if (srcsetCandidatesOf srcset).isEmpty then ""
  else
    String.mk (((srcsetCandidatesOf srcset).insertionSort wLe).getLastD (0, [])).2

/-- `pick_largest_from_srcset` (`unit_history_sync.py`). -/
def pick_largest_from_srcset (srcset : String) : String :=
  if srcset.data.isEmpty then ""
  else if (srcsetExtCandidatesOf srcset).isEmpty then ""
  else
    String.mk (((srcsetExtCandidatesOf srcset).insertionSort wLe).getLastD (0, [])).2

/-! ### The last element of a width-sorted candidate list is a maximum -/

theorem getLastD_mem {α : Type} :
    ∀ (l : List α) (d : α), l ≠ [] → l.getLastD d ∈ l := by
  intro l
  induction l with
  | nil => intro d h; exact absurd rfl h
  | cons a t ih =>
    intro d _
    cases t with
    | nil => simp [List.getLastD]
    | cons b u =>
      have := ih a (by simp)
      rw [List.getLastD_cons]
      exact List.mem_cons_of_mem a this

theorem pairwise_key_le_getLastD :
    ∀ (l : List (Nat × List Char)) (d : Nat × List Char),
      l.Pairwise wLe → ∀ x ∈ l, x.1 ≤ (l.getLastD d).1 := by
  intro l
  induction l with
  | nil => intro d _ x hx; cases hx
  | cons a t ih =>
    intro d hp x hx
    rcases List.pairwise_cons.mp hp with ⟨ha, ht⟩
    cases t with
    | nil =>
      rcases List.mem_cons.mp hx with hx | hx
      · subst hx; simp [List.getLastD]
      · cases hx
    | cons b u =>
      rw [List.getLastD_cons]
      rcases List.mem_cons.mp hx with hx | hx
      · have hlast := getLastD_mem (b :: u) a (by simp)
        rw [hx]
        exact ha _ hlast
      · exact ih a ht x hx

theorem insertionSort_getLastD_max (l : List (Nat × List Char)) (hl : l ≠ [])
    (d : Nat × List Char) :
    (l.insertionSort wLe).getLastD d ∈ l ∧
      ∀ c ∈ l, c.1 ≤ ((l.insertionSort wLe).getLastD d).1 := by
  have hperm := List.perm_insertionSort wLe l
  have hmem : ∀ x, x ∈ l.insertionSort wLe ↔ x ∈ l := fun x => hperm.mem_iff
  have hne : l.insertionSort wLe ≠ [] := by
    intro h
    rw [h] at hperm
    exact hl hperm.nil_eq.symm
  have hsorted : (l.insertionSort wLe).Pairwise wLe := List.sorted_insertionSort wLe l
  constructor
  · exact (hmem _).mp (getLastD_mem _ d hne)
  · intro c hc
    exact pairwise_key_le_getLastD _ d hsorted c ((hmem c).mpr hc)

/-! ### Claim C1 -/

/-- C1, counterexample.  In the srcset `"a 0w, b"` the only candidate of the
form `URL Nw` is `a 0w` (URL `a`, declared width `0`, the largest declared
width in the srcset), yet `pick_largest_from_srcset` returns `"b"`: the part
`b` matches no width pattern, is taken up as a width-`0` fallback candidate,
and the stable sort leaves it last among the width-`0` ties.  So the claim
that both helpers return the URL of the candidate with the largest declared
width is false for `pick_largest_from_srcset`. -/
theorem claim_C1_counterexample :
    srcsetCandidatesOf "a 0w, b" = [(0, ['a'])] ∧
      pick_largest_from_srcset "a 0w, b" = "b" ∧
      pick_largest_from_srcset "a 0w, b" ≠ String.mk ['a'] := by
  refine ⟨by decide, by decide, by decide⟩

/-- C1, as amended.  `_largest_from_srcset` behaves as the claim states: it
returns `""` when no part matches the `URL Nw` pattern (in particular for the
empty srcset), and otherwise the URL of a matching candidate of maximal
declared width.  `pick_largest_from_srcset` returns the URL of a candidate of
maximal width in its *extended* candidate list, in which every non-matching
non-blank part also appears, as its first whitespace-separated token with
width `0`; only when the largest declared width is `0` and such a fallback
candidate is sorted after the last width-`0` match can its answer differ from
the claimed one. -/
theorem claim_C1 (s : String) :
    (srcsetCandidatesOf s = [] → largest_from_srcset s = "") ∧
      (srcsetCandidatesOf s ≠ [] →
        ∃ c ∈ srcsetCandidatesOf s,
          largest_from_srcset s = String.mk c.2 ∧
            ∀ c' ∈ srcsetCandidatesOf s, c'.1 ≤ c.1) ∧
      (srcsetExtCandidatesOf s ≠ [] →
        ∃ c ∈ srcsetExtCandidatesOf s,
          pick_largest_from_srcset s = String.mk c.2 ∧
            ∀ c' ∈ srcsetExtCandidatesOf s, c'.1 ≤ c.1) := by
  refine ⟨?_, ?_, ?_⟩
  · intro h
    unfold largest_from_srcset
    by_cases hd : s.data.isEmpty
    · simp [hd]
    · simp [hd, h]
  · intro h
    have hd : s.data.isEmpty = false := by
      cases s with
      | mk data =>
        cases data with
        | nil => exact absurd (by decide : srcsetCandidatesOf ⟨[]⟩ = []) h
        | cons a t => rfl
    obtain ⟨hmem, hmax⟩ := insertionSort_getLastD_max (srcsetCandidatesOf s) h (0, [])
    refine ⟨_, hmem, ?_, hmax⟩
    unfold largest_from_srcset
    rw [hd]
    simp only [Bool.false_eq_true, if_false]
    rw [if_neg (by simpa [List.isEmpty_iff] using h)]
  · intro h
    have hd : s.data.isEmpty = false := by
      cases s with
      | mk data =>
        cases data with
        | nil => exact absurd (by decide : srcsetExtCandidatesOf ⟨[]⟩ = []) h
        | cons a t => rfl
    obtain ⟨hmem, hmax⟩ := insertionSort_getLastD_max (srcsetExtCandidatesOf s) h (0, [])
    refine ⟨_, hmem, ?_, hmax⟩
    unfold pick_largest_from_srcset
    rw [hd]
    simp only [Bool.false_eq_true, if_false]
    rw [if_neg (by simpa [List.isEmpty_iff] using h)]

/-- C1, witness: the amended theorem applied to a well-behaved srcset. -/
theorem claim_C1_witness :
    ∃ c ∈ srcsetCandidatesOf "u1 60w, u2 100w",
      largest_from_srcset "u1 60w, u2 100w" = String.mk c.2 ∧
        ∀ c' ∈ srcsetCandidatesOf "u1 60w, u2 100w", c'.1 ≤ c.1 :=
  (claim_C1 "u1 60w, u2 100w").2.1 (by decide)

/-! ## `safe_name` (`unit_history_sync.py`)

```
def safe_name(name, max_len=90):
    name = (name or "").strip()
    name = re.sub(r"\s+", " ", name)
    name = re.sub(r'[\\/:*?"<>|]+', "-", name)
    name = name.strip(" .")
    if not name: name = "Untitled"
    if len(name) > max_len: name = name[:max_len].rstrip()
    return name
```
-/

/-- The Windows-unsafe filename characters of the class in
`re.sub(r'[\\/:*?"<>|]+', "-", name)`. -/
def pyIsBannedFileChar (c : Char) : Bool :=
  ['\\', '/', ':', '*', '?', '"', '<', '>', '|'].contains c

/-- The character set of Python `str.strip(" .")`. -/
def isSpaceDot (c : Char) : Bool := c == ' ' || c == '.'

/-- `re.sub` with a pattern that is a single character class iterated with
`+`: every maximal run of class characters is replaced by the single
replacement character `r`.  The Boolean argument records whether the previous
character was in the class (i.e. whether a run is in progress). -/
def subRunsAux (p : Char → Bool) (r : Char) : Bool → List Char → List Char
  | _, [] => []
  | true, c :: t =>
    if p c then subRunsAux p r true t else c :: subRunsAux p r false t
  | false, c :: t =>
    if p c then r :: subRunsAux p r true t else c :: subRunsAux p r false t

/-- `re.sub(<class>+, r, l)`. -/
def subRuns (p : Char → Bool) (r : Char) (l : List Char) : List Char :=
  subRunsAux p r false l

/-- Python `str.strip(" .")`. -/
def stripSpaceDot (l : List Char) : List Char :=
  ((l.dropWhile isSpaceDot).reverse.dropWhile isSpaceDot).reverse

/-- The first four cleaning steps of `safe_name`: strip, collapse whitespace
runs to single spaces, replace runs of Windows-unsafe characters by `-`,
strip spaces and periods from both ends. -/
def safeNameCore (name : String) : List Char :=
  stripSpaceDot (subRuns pyIsBannedFileChar '-' (subRuns pyIsSpace ' ' (pyStrip name.data)))

/-- `safe_name` from `unit_history_sync.py`: the cleaned name, `"Untitled"`
when cleaning leaves nothing, truncated to `max_len` characters (and then
right-stripped) when too long. -/
def safe_name (name : String) (max_len : Nat := 90) : String :=
  let n5 := if safeNameCore name = [] then "Untitled".data else safeNameCore name
  String.mk (if max_len < n5.length then pyRstrip (n5.take max_len) else n5)


/-! ### Properties of `safe_name` -/

/-- Two adjacent characters are never both whitespace. -/
def noTwoWS (a b : Char) : Prop := ¬(pyIsSpace a = true ∧ pyIsSpace b = true)

instance : DecidableRel noTwoWS := fun a b =>
  inferInstanceAs (Decidable ¬(pyIsSpace a = true ∧ pyIsSpace b = true))

theorem subRunsAux_true_pos (p : Char → Bool) (r a : Char) (t : List Char)
    (hp : p a = true) : subRunsAux p r true (a :: t) = subRunsAux p r true t := by
  simp [subRunsAux, hp]

theorem subRunsAux_false_pos (p : Char → Bool) (r a : Char) (t : List Char)
    (hp : p a = true) :
    subRunsAux p r false (a :: t) = r :: subRunsAux p r true t := by
  simp [subRunsAux, hp]

theorem subRunsAux_neg (p : Char → Bool) (r a : Char) (t : List Char) (b : Bool)
    (hp : ¬p a = true) :
    subRunsAux p r b (a :: t) = a :: subRunsAux p r false t := by
  cases b <;> simp [subRunsAux, hp]

theorem subRunsAux_mem (p : Char → Bool) (r : Char) :
    ∀ (l : List Char) (b : Bool), ∀ c ∈ subRunsAux p r b l,
      c = r ∨ (p c = false ∧ c ∈ l) := by
  intro l
  induction l with
  | nil => intro b c hc; cases b <;> cases hc
  | cons a t ih =>
    intro b c hc
    by_cases hp : p a = true
    · cases b with
      | true =>
        rw [subRunsAux_true_pos p r a t hp] at hc
        rcases ih true c hc with h | ⟨h1, h2⟩
        · exact Or.inl h
        · exact Or.inr ⟨h1, List.mem_cons_of_mem a h2⟩
      | false =>
        rw [subRunsAux_false_pos p r a t hp] at hc
        rcases List.mem_cons.mp hc with h | h
        · exact Or.inl h
        · rcases ih true c h with h' | ⟨h1, h2⟩
          · exact Or.inl h'
          · exact Or.inr ⟨h1, List.mem_cons_of_mem a h2⟩
    · rw [subRunsAux_neg p r a t b hp] at hc
      rcases List.mem_cons.mp hc with h | h
      · subst h
        exact Or.inr ⟨Bool.eq_false_iff.mpr hp, List.mem_cons_self _ _⟩
      · rcases ih false c h with h' | ⟨h1, h2⟩
        · exact Or.inl h'
        · exact Or.inr ⟨h1, List.mem_cons_of_mem a h2⟩

theorem subRunsAux_head_true (p : Char → Bool) (r : Char) :
    ∀ (l : List Char) (y : Char), (subRunsAux p r true l).head? = some y →
      p y = false := by
  intro l
  induction l with
  | nil => intro y h; cases h
  | cons a t ih =>
    intro y h
    by_cases hp : p a = true
    · rw [subRunsAux_true_pos p r a t hp] at h
      exact ih y h
    · rw [subRunsAux_neg p r a t true hp] at h
      injection h with h
      rw [← h]
      exact Bool.eq_false_iff.mpr hp

theorem subRunsAux_head_false (p : Char → Bool) (r : Char) :
    ∀ (l : List Char) (y : Char), (subRunsAux p r false l).head? = some y →
      y = r ∨ ∃ t, l = y :: t := by
  intro l y h
  cases l with
  | nil => cases h
  | cons a t =>
    by_cases hp : p a = true
    · rw [subRunsAux_false_pos p r a t hp] at h
      injection h with h
      exact Or.inl h.symm
    · rw [subRunsAux_neg p r a t false hp] at h
      injection h with h
      exact Or.inr ⟨t, by rw [h]⟩

theorem subRunsAux_space_chain :
    ∀ (l : List Char) (b : Bool), (subRunsAux pyIsSpace ' ' b l).Chain' noTwoWS := by
  intro l
  induction l with
  | nil => intro b; cases b <;> exact List.chain'_nil
  | cons a t ih =>
    intro b
    by_cases hp : pyIsSpace a = true
    · cases b with
      | true =>
        rw [subRunsAux_true_pos pyIsSpace ' ' a t hp]
        exact ih true
      | false =>
        rw [subRunsAux_false_pos pyIsSpace ' ' a t hp]
        refine List.chain'_cons'.mpr ⟨?_, ih true⟩
        intro y hy hand
        exact absurd hand.2 (by simp [subRunsAux_head_true pyIsSpace ' ' t y hy])
    · rw [subRunsAux_neg pyIsSpace ' ' a t b hp]
      refine List.chain'_cons'.mpr ⟨?_, ih false⟩
      intro y _ hand
      exact hp hand.1

theorem subRunsAux_banned_chain :
    ∀ (l : List Char) (b : Bool), l.Chain' noTwoWS →
      (subRunsAux pyIsBannedFileChar '-' b l).Chain' noTwoWS := by
  intro l
  induction l with
  | nil => intro b _; cases b <;> exact List.chain'_nil
  | cons a t ih =>
    intro b hc
    by_cases hp : pyIsBannedFileChar a = true
    · cases b with
      | true =>
        rw [subRunsAux_true_pos pyIsBannedFileChar '-' a t hp]
        exact ih true hc.tail
      | false =>
        rw [subRunsAux_false_pos pyIsBannedFileChar '-' a t hp]
        refine List.chain'_cons'.mpr ⟨?_, ih true hc.tail⟩
        intro y _ hand
        exact absurd hand.1 (by decide)
    · rw [subRunsAux_neg pyIsBannedFileChar '-' a t b hp]
      refine List.chain'_cons'.mpr ⟨?_, ih false hc.tail⟩
      intro y hy
      rcases subRunsAux_head_false pyIsBannedFileChar '-' t y hy with h | ⟨t', ht'⟩
      · subst h
        intro hand
        exact absurd hand.2 (by decide)
      · subst ht'
        exact (List.chain'_cons.mp hc).1

/-- The right-strip by any character class yields a prefix of the original. -/
theorem reverseDrop_prefix (q : Char → Bool) (l : List Char) :
    (l.reverse.dropWhile q).reverse <+: l := by
  have h := (List.dropWhile_suffix (l := l.reverse) q).reverse
  simpa using h

theorem prefix_head?_eq {l₁ l₂ : List Char} (h : l₁ <+: l₂) (hne : l₁ ≠ []) :
    l₁.head? = l₂.head? := by
  obtain ⟨t, rfl⟩ := h
  cases l₁ with
  | nil => exact absurd rfl hne
  | cons a u => rfl

theorem head?_dropWhile_false (q : Char → Bool) :
    ∀ (l : List Char) (y : Char), (l.dropWhile q).head? = some y → q y = false := by
  intro l
  induction l with
  | nil => intro y h; cases h
  | cons a t ih =>
    intro y h
    by_cases hq : q a = true
    · rw [List.dropWhile_cons_of_pos hq] at h
      exact ih y h
    · rw [List.dropWhile_cons_of_neg hq] at h
      injection h with h
      rw [← h]
      exact Bool.eq_false_iff.mpr hq

theorem mem_of_getLast? {l : List Char} {y : Char} (h : l.getLast? = some y) : y ∈ l := by
  induction l with
  | nil => cases h
  | cons a t ih =>
    cases t with
    | nil =>
      simp only [List.getLast?_singleton, Option.some.injEq] at h
      simp [h]
    | cons b u =>
      rw [List.getLast?_cons_cons] at h
      exact List.mem_cons_of_mem a (ih h)

/-- Core facts about the result list `n5` fed into the truncation step of
`safe_name`, preserved by that step. -/
theorem truncate_props (n5 : List Char) (max_len : Nat) (hml : 1 ≤ max_len)
    (h5ne : n5 ≠ [])
    (hban : ∀ c ∈ n5, pyIsBannedFileChar c = false)
    (hws : ∀ c ∈ n5, pyIsSpace c = true → c = ' ')
    (hch : n5.Chain' noTwoWS)
    (hhead : ∀ y, n5.head? = some y → isSpaceDot y = false)
    (hlast : ∀ y, n5.getLast? = some y → pyIsSpace y = false) :
    (if max_len < n5.length then pyRstrip (n5.take max_len) else n5) ≠ [] ∧
    (if max_len < n5.length then pyRstrip (n5.take max_len) else n5).length ≤ max_len ∧
    (∀ c ∈ (if max_len < n5.length then pyRstrip (n5.take max_len) else n5),
      pyIsBannedFileChar c = false) ∧
    (∀ c ∈ (if max_len < n5.length then pyRstrip (n5.take max_len) else n5),
      pyIsSpace c = true → c = ' ') ∧
    (if max_len < n5.length then pyRstrip (n5.take max_len) else n5).Chain' noTwoWS ∧
    (∀ y, (if max_len < n5.length then pyRstrip (n5.take max_len) else n5).head? = some y →
      y ≠ ' ' ∧ y ≠ '.') ∧
    (∀ y, (if max_len < n5.length then pyRstrip (n5.take max_len) else n5).getLast? = some y →
      pyIsSpace y = false) := by
  -- the head of `n5` is not whitespace
  obtain ⟨y0, t0, rfl⟩ : ∃ y0 t0, n5 = y0 :: t0 := by
    cases n5 with
    | nil => exact absurd rfl h5ne
    | cons a t => exact ⟨a, t, rfl⟩
  have hy0sd : isSpaceDot y0 = false := hhead y0 rfl
  have hy0ws : pyIsSpace y0 = false := by
    by_cases hw : pyIsSpace y0 = true
    · have := hws y0 (List.mem_cons_self _ _) hw
      subst this
      exact absurd hy0sd (by decide)
    · exact Bool.eq_false_iff.mpr hw
  by_cases htr : max_len < (y0 :: t0).length
  · -- truncated branch
    rw [if_pos htr]
    have htk : (y0 :: t0).take max_len = y0 :: t0.take (max_len - 1) := by
      obtain ⟨m, rfl⟩ : ∃ m, max_len = m + 1 := ⟨max_len - 1, (Nat.succ_pred_eq_of_pos hml).symm⟩
      simp [List.take_cons]
    have htkpre : (y0 :: t0).take max_len <+: y0 :: t0 := List.take_prefix _ _
    have hres_pre : pyRstrip ((y0 :: t0).take max_len) <+: (y0 :: t0).take max_len :=
      reverseDrop_prefix pyIsSpace _
    have hresne : pyRstrip ((y0 :: t0).take max_len) ≠ [] := by
      intro hnil
      unfold pyRstrip at hnil
      have h2 : ((y0 :: t0).take max_len).reverse.dropWhile pyIsSpace = [] := by
        have := congrArg List.reverse hnil
        simpa using this
      have hall := List.dropWhile_eq_nil_iff.mp h2
      have : pyIsSpace y0 = true := by
        refine hall y0 ?_
        rw [htk]
        simp
      rw [hy0ws] at this
      cases this
    refine ⟨hresne, ?_, ?_, ?_, ?_, ?_, ?_⟩
    · -- length
      unfold pyRstrip
      have h1 : (((y0 :: t0).take max_len).reverse.dropWhile pyIsSpace).length ≤
          ((y0 :: t0).take max_len).reverse.length :=
        (List.dropWhile_suffix pyIsSpace).length_le
      simp only [List.length_reverse] at h1 ⊢
      calc (((y0 :: t0).take max_len).reverse.dropWhile pyIsSpace).length
          ≤ ((y0 :: t0).take max_len).length := h1
        _ ≤ max_len := List.length_take_le max_len (y0 :: t0)
    · intro c hc
      exact hban c (htkpre.subset (hres_pre.subset hc))
    · intro c hc
      exact hws c (htkpre.subset (hres_pre.subset hc))
    · exact hch.infix (List.IsPrefix.isInfix (hres_pre.trans htkpre))
    · intro y hy
      have h1 : (pyRstrip ((y0 :: t0).take max_len)).head? = ((y0 :: t0).take max_len).head? :=
        prefix_head?_eq hres_pre hresne
      rw [h1, htk] at hy
      injection hy with hy
      subst hy
      constructor
      · intro h; rw [h] at hy0sd; exact absurd hy0sd (by decide)
      · intro h; rw [h] at hy0sd; exact absurd hy0sd (by decide)
    · intro y hy
      unfold pyRstrip at hy
      rw [List.getLast?_reverse] at hy
      exact head?_dropWhile_false pyIsSpace _ y hy
  · -- untruncated branch
    rw [if_neg htr]
    refine ⟨h5ne, Nat.le_of_not_lt htr, hban, hws, hch, ?_, ?_⟩
    · intro y hy
      injection hy with hy
      subst hy
      constructor
      · intro h; rw [h] at hy0sd; exact absurd hy0sd (by decide)
      · intro h; rw [h] at hy0sd; exact absurd hy0sd (by decide)
    · exact hlast

theorem safeNameCore_props (name : String) :
    (∀ c ∈ safeNameCore name, pyIsBannedFileChar c = false) ∧
    (∀ c ∈ safeNameCore name, pyIsSpace c = true → c = ' ') ∧
    (safeNameCore name).Chain' noTwoWS ∧
    (∀ y, (safeNameCore name).head? = some y → isSpaceDot y = false) ∧
    (∀ y, (safeNameCore name).getLast? = some y → isSpaceDot y = false) := by
  have hchain2 : (subRuns pyIsSpace ' ' (pyStrip name.data)).Chain' noTwoWS :=
    subRunsAux_space_chain _ false
  have hchain3 :
      (subRuns pyIsBannedFileChar '-' (subRuns pyIsSpace ' ' (pyStrip name.data))).Chain'
        noTwoWS :=
    subRunsAux_banned_chain _ false hchain2
  have hpre : safeNameCore name <+:
      ((subRuns pyIsBannedFileChar '-'
        (subRuns pyIsSpace ' ' (pyStrip name.data))).dropWhile isSpaceDot) :=
    reverseDrop_prefix isSpaceDot _
  have hsuf :
      ((subRuns pyIsBannedFileChar '-'
        (subRuns pyIsSpace ' ' (pyStrip name.data))).dropWhile isSpaceDot) <:+
      (subRuns pyIsBannedFileChar '-' (subRuns pyIsSpace ' ' (pyStrip name.data))) :=
    List.dropWhile_suffix isSpaceDot
  have hsub : ∀ c ∈ safeNameCore name,
      c ∈ subRuns pyIsBannedFileChar '-' (subRuns pyIsSpace ' ' (pyStrip name.data)) :=
    fun c hc => hsuf.subset (hpre.subset hc)
  refine ⟨?_, ?_, ?_, ?_, ?_⟩
  · intro c hc
    rcases subRunsAux_mem pyIsBannedFileChar '-' _ false c (hsub c hc) with h | ⟨h, _⟩
    · subst h; decide
    · exact h
  · intro c hc hw
    rcases subRunsAux_mem pyIsBannedFileChar '-' _ false c (hsub c hc) with h | ⟨_, h2⟩
    · subst h; exact absurd hw (by decide)
    · rcases subRunsAux_mem pyIsSpace ' ' _ false c h2 with h' | ⟨h', _⟩
      · exact h'
      · rw [hw] at h'; cases h'
  · exact hchain3.infix (hpre.isInfix.trans hsuf.isInfix)
  · intro y hy
    have hne : safeNameCore name ≠ [] := by
      intro hnil; rw [hnil] at hy; cases hy
    rw [prefix_head?_eq hpre hne] at hy
    exact head?_dropWhile_false isSpaceDot _ y hy
  · intro y hy
    unfold safeNameCore stripSpaceDot at hy
    rw [List.getLast?_reverse] at hy
    exact head?_dropWhile_false isSpaceDot _ y hy

theorem untitled_props :
    ("Untitled".data ≠ []) ∧
    (∀ c ∈ "Untitled".data, pyIsBannedFileChar c = false) ∧
    (∀ c ∈ "Untitled".data, pyIsSpace c = true → c = ' ') ∧
    ("Untitled".data.Chain' noTwoWS) ∧
    (∀ y, "Untitled".data.head? = some y → isSpaceDot y = false) ∧
    (∀ y, "Untitled".data.getLast? = some y → pyIsSpace y = false) := by
  refine ⟨by decide, by decide, ?_, ?_, ?_, ?_⟩
  · have hall : ∀ c ∈ "Untitled".data, pyIsSpace c = false := by decide
    intro c hc hw
    rw [hall c hc] at hw
    cases hw
  · show List.Chain' noTwoWS ['U', 'n', 't', 'i', 't', 'l', 'e', 'd']
    simp only [List.chain'_cons, List.chain'_singleton, and_true]
    refine ⟨?_, ?_, ?_, ?_, ?_, ?_, ?_⟩ <;> decide
  · intro y hy
    have : y = 'U' := by
      have h : "Untitled".data.head? = some 'U' := rfl
      rw [h] at hy; injection hy with hy; exact hy.symm
    subst this; decide
  · intro y hy
    have : y = 'd' := by
      have h : "Untitled".data.getLast? = some 'd' := rfl
      rw [h] at hy; injection hy with hy; exact hy.symm
    subst this; decide

/-- C9, as amended.  For every input and every `max_len >= 1`, `safe_name`
returns a non-empty string of length at most `max_len` with no
Windows-unsafe character, no newline, every whitespace character a single
plain space with no two adjacent whitespace characters, a head that is
neither a space nor a period, and a last character that is not whitespace;
an input that is empty or reduces to nothing after cleaning yields
`"Untitled"` provided `max_len >= 8` (for smaller `max_len` the fallback
`"Untitled"` is itself truncated, which is what the counterexample forces
the claim to concede). -/
theorem claim_C9 (name : String) (max_len : Nat) (hml : 1 ≤ max_len) :
    (safe_name name max_len).data ≠ [] ∧
    (safe_name name max_len).data.length ≤ max_len ∧
    (∀ c ∈ (safe_name name max_len).data, pyIsBannedFileChar c = false) ∧
    (∀ c ∈ (safe_name name max_len).data, pyIsSpace c = true → c = ' ') ∧
    '\n' ∉ (safe_name name max_len).data ∧
    (safe_name name max_len).data.Chain' noTwoWS ∧
    (∀ y, (safe_name name max_len).data.head? = some y → y ≠ ' ' ∧ y ≠ '.') ∧
    (∀ y, (safe_name name max_len).data.getLast? = some y → pyIsSpace y = false) ∧
    (safeNameCore name = [] → 8 ≤ max_len → safe_name name max_len = "Untitled") := by
  have hdata : (safe_name name max_len).data =
      (if max_len <
          (if safeNameCore name = [] then "Untitled".data else safeNameCore name).length
       then pyRstrip
          ((if safeNameCore name = [] then "Untitled".data else safeNameCore name).take max_len)
       else (if safeNameCore name = [] then "Untitled".data else safeNameCore name)) := rfl
  have h5props :
      (if safeNameCore name = [] then "Untitled".data else safeNameCore name) ≠ [] ∧
      (∀ c ∈ (if safeNameCore name = [] then "Untitled".data else safeNameCore name),
        pyIsBannedFileChar c = false) ∧
      (∀ c ∈ (if safeNameCore name = [] then "Untitled".data else safeNameCore name),
        pyIsSpace c = true → c = ' ') ∧
      ((if safeNameCore name = [] then "Untitled".data else safeNameCore name).Chain' noTwoWS) ∧
      (∀ y, (if safeNameCore name = [] then "Untitled".data
              else safeNameCore name).head? = some y → isSpaceDot y = false) ∧
      (∀ y, (if safeNameCore name = [] then "Untitled".data
              else safeNameCore name).getLast? = some y → pyIsSpace y = false) := by
    by_cases hemp : safeNameCore name = []
    · rw [if_pos hemp]
      obtain ⟨u1, u2, u3, u4, u5, u6⟩ := untitled_props
      exact ⟨u1, u2, u3, u4, u5, u6⟩
    · rw [if_neg hemp]
      obtain ⟨c1, c2, c3, c4, c5⟩ := safeNameCore_props name
      refine ⟨hemp, c1, c2, c3, c4, ?_⟩
      intro y hy
      by_cases hw : pyIsSpace y = true
      · have hmem : y ∈ safeNameCore name := mem_of_getLast? hy
        have := c2 y hmem hw
        subst this
        exact absurd (c5 ' ' hy) (by decide)
      · exact Bool.eq_false_iff.mpr hw
  obtain ⟨h5ne, h5ban, h5ws, h5ch, h5hd, h5ls⟩ := h5props
  obtain ⟨r1, r2, r3, r4, r5, r6, r7⟩ :=
    truncate_props _ max_len hml h5ne h5ban h5ws h5ch h5hd h5ls
  rw [hdata]
  refine ⟨r1, r2, r3, r4, ?_, r5, r6, r7, ?_⟩
  · intro hmem
    have := r4 '\n' hmem (by decide)
    exact absurd this (by decide)
  · intro hemp h8
    have h5 : (if safeNameCore name = [] then "Untitled".data else safeNameCore name) =
        "Untitled".data := if_pos hemp
    have hlen : (if safeNameCore name = [] then "Untitled".data
        else safeNameCore name).length = 8 := by rw [h5]; rfl
    have hnottr : ¬ max_len <
        (if safeNameCore name = [] then "Untitled".data else safeNameCore name).length := by
      rw [hlen]; exact Nat.not_lt.mpr h8
    show String.mk _ = "Untitled"
    rw [if_neg hnottr, h5]

/-- C9, counterexample.  The claim asserts that an empty input yields
`"Untitled"` for every `max_len ≥ 1`; but with `max_len = 1` the fallback
`"Untitled"` is truncated by `name[:max_len].rstrip()` to `"U"`. -/
theorem claim_C9_counterexample :
    safe_name "" 1 = "U" ∧ safe_name "" 1 ≠ "Untitled" :=
  ⟨by decide, by decide⟩

/-- C9, witness: the amended theorem applied at a concrete input. -/
theorem claim_C9_witness :
    (safe_name "a*b" 90).data.length ≤ 90 ∧
      ∀ c ∈ (safe_name "a*b" 90).data, pyIsBannedFileChar c = false :=
  ⟨(claim_C9 "a*b" 90 (by decide)).2.1, (claim_C9 "a*b" 90 (by decide)).2.2.1⟩

/-! ## `iso_week_number` (`build_cfm_weekly.py`)

The script computes `d.isocalendar().week` and clamps it to 52.  The ISO
calendar arithmetic is translated from CPython's `datetime` module
(`_is_leap`, `_days_before_year`, `_DAYS_BEFORE_MONTH`, `_ymd2ord`,
`_isoweek1monday`, `date.isocalendar`), on `Int` with floor division and
modulus exactly as Python's `//` and `%` (for the positive literal divisors
used here, Lean's `Int` `/` and `%` are the Euclidean operations, which agree
with flooring). -/

/-- CPython `_is_leap`. -/
def is_leap (year : Int) : Bool :=
  decide (year % 4 = 0 ∧ (year % 100 ≠ 0 ∨ year % 400 = 0))

/-- CPython `_days_before_year`. -/
def days_before_year (year : Int) : Int :=
  (year - 1) * 365 + (year - 1) / 4 - (year - 1) / 100 + (year - 1) / 400

/-- CPython `_DAYS_BEFORE_MONTH` (index 0 is a `-1` placeholder). -/
def DAYS_BEFORE_MONTH : List Int :=
  [-1, 0, 31, 59, 90, 120, 151, 181, 212, 243, 273, 304, 334]

/-- CPython `_days_before_month`. -/
def days_before_month (year month : Int) : Int :=
  DAYS_BEFORE_MONTH.getD month.toNat 0 + (if 2 < month ∧ is_leap year then 1 else 0)

/-- CPython `_ymd2ord`: day ordinal, with 0001-01-01 as day 1. -/
def ymd2ord (year month day : Int) : Int :=
  days_before_year year + days_before_month year month + day

/-- CPython `_isoweek1monday`: ordinal of the Monday of ISO week 1. -/
def isoweek1monday (year : Int) : Int :=
  if 3 < (ymd2ord year 1 1 + 6) % 7 then
    ymd2ord year 1 1 - (ymd2ord year 1 1 + 6) % 7 + 7
  else
    ymd2ord year 1 1 - (ymd2ord year 1 1 + 6) % 7

/-- The `week` field of CPython `date.isocalendar()`. -/
def isocalendarWeek (year month day : Int) : Int :=
  if (ymd2ord year month day - isoweek1monday year) / 7 < 0 then
    (ymd2ord year month day - isoweek1monday (year - 1)) / 7 + 1
  else if 52 ≤ (ymd2ord year month day - isoweek1monday year) / 7 then
    (if isoweek1monday (year + 1) ≤ ymd2ord year month day then 1
     else (ymd2ord year month day - isoweek1monday year) / 7 + 1)
  else
    (ymd2ord year month day - isoweek1monday year) / 7 + 1

/-- `iso_week_number` from `build_cfm_weekly.py`: the ISO week clamped
to 52. -/
def iso_week_number (year month day : Int) : Int :=
  min (isocalendarWeek year month day) 52

theorem days_before_month_nonneg (year month : Int) (h2 : 1 ≤ month) (h3 : month ≤ 12) :
    0 ≤ days_before_month year month := by
  unfold days_before_month
  have htab : 0 ≤ DAYS_BEFORE_MONTH.getD month.toNat 0 := by
    interval_cases month <;> decide
  split_ifs <;> omega

theorem days_before_month_one (year : Int) : days_before_month year 1 = 0 := by
  unfold days_before_month
  have : ¬(2 < (1 : Int) ∧ is_leap year = true) := by
    intro ⟨h, _⟩; omega
  rw [if_neg this]
  decide

theorem isoweek1monday_le (year : Int) :
    isoweek1monday year ≤ days_before_year year + 4 := by
  unfold isoweek1monday ymd2ord
  rw [days_before_month_one]
  split_ifs <;> omega

theorem days_before_year_succ_diff (year : Int) :
    days_before_year (year - 1) + 364 ≤ days_before_year year := by
  unfold days_before_year
  omega

theorem isocalendarWeek_pos (year month day : Int)
    (h2 : 1 ≤ month) (h3 : month ≤ 12) (h4 : 1 ≤ day) :
    1 ≤ isocalendarWeek year month day := by
  have hdbm := days_before_month_nonneg year month h2 h3
  have hw1 := isoweek1monday_le (year - 1)
  have hdiff := days_before_year_succ_diff year
  unfold isocalendarWeek ymd2ord
  split_ifs <;> omega

/-- C8.  For every valid date, `iso_week_number` equals the ISO calendar week
clamped to 52 by `min`, and its value always lies in `1..52`; in particular
the week number interpolated into the manual URL is never 53. -/
theorem claim_C8 (year month day : Int) (hy : 1 ≤ year)
    (hm1 : 1 ≤ month) (hm2 : month ≤ 12) (hd1 : 1 ≤ day) (hd2 : day ≤ 31) :
    iso_week_number year month day = min (isocalendarWeek year month day) 52 ∧
      1 ≤ iso_week_number year month day ∧
      iso_week_number year month day ≤ 52 := by
  refine ⟨rfl, ?_, ?_⟩
  · have := isocalendarWeek_pos year month day hm1 hm2 hd1
    unfold iso_week_number
    omega
  · unfold iso_week_number
    omega

/-- C8, witness: the date 2027-01-01 falls in ISO week 53 and is clamped
to 52. -/
theorem claim_C8_witness :
    (1 ≤ iso_week_number 2027 1 1 ∧ iso_week_number 2027 1 1 ≤ 52) ∧
      isocalendarWeek 2027 1 1 = 53 ∧ iso_week_number 2027 1 1 = 52 :=
  ⟨⟨(claim_C8 2027 1 1 (by decide) (by decide) (by decide) (by decide)
      (by decide)).2.1,
    (claim_C8 2027 1 1 (by decide) (by decide) (by decide) (by decide)
      (by decide)).2.2⟩,
   by decide, by decide⟩

/-! ## `strip_downscaling_params` (claims C3 and C10)

The model follows CPython 3.11 `urllib.parse`: `urlparse` / `urlunparse`
(`urlsplit`'s WHATWG cleanup, scheme detection, netloc splitting, fragment,
query and params splitting), `parse_qs(..., keep_blank_values=True)`,
`urlencode(..., doseq=True)` with `quote_plus` over UTF-8 bytes, and
`unquote` with `errors="replace"` decoding. Netloc validation is modelled
conservatively: a netloc containing `[`, `]` or a non-ASCII character is
treated as outside the success domain (CPython raises `ValueError` for the
invalid ones among those). -/

def isAsciiAlphaNum (c : Char) : Bool :=
  decide ((65 ≤ c.toNat ∧ c.toNat ≤ 90) ∨ (97 ≤ c.toNat ∧ c.toNat ≤ 122) ∨
    (48 ≤ c.toNat ∧ c.toNat ≤ 57))

/-- `_ALWAYS_SAFE`: letters, digits, `_.-~`. -/
def isAlwaysSafe (c : Char) : Bool :=
  isAsciiAlphaNum c || c == '_' || c == '.' || c == '-' || c == '~'

/-- UTF-8 encoding of one scalar value (`str.encode("utf-8")`, per char). -/
def utf8Bytes (c : Char) : List Nat :=
  if c.toNat < 0x80 then [c.toNat]
  else if c.toNat < 0x800 then [0xC0 + c.toNat / 0x40, 0x80 + c.toNat % 0x40]
  else if c.toNat < 0x10000 then
    [0xE0 + c.toNat / 0x1000, 0x80 + (c.toNat / 0x40) % 0x40, 0x80 + c.toNat % 0x40]
  else
    [0xF0 + c.toNat / 0x40000, 0x80 + (c.toNat / 0x1000) % 0x40,
      0x80 + (c.toNat / 0x40) % 0x40, 0x80 + c.toNat % 0x40]

def hexDigitUpper (n : Nat) : Char :=
  if n < 10 then Char.ofNat (48 + n) else Char.ofNat (55 + n)

def pctEncodeByte (b : Nat) : List Char :=
  ['%', hexDigitUpper (b / 16), hexDigitUpper (b % 16)]

/-- `quote_plus(s, safe='')` on one character: always-safe characters kept,
space becomes `+`, everything else is the `%XX`-encoding of its UTF-8
bytes. -/
def quote_plus_char (c : Char) : List Char :=
  if isAlwaysSafe c then [c]
  else if c = ' ' then ['+']
  else (utf8Bytes c).foldr (fun b acc => pctEncodeByte b ++ acc) []

/-- `urllib.parse.quote_plus(s, safe='')`. -/
def quote_plus (l : List Char) : List Char :=
  l.foldr (fun c acc => quote_plus_char c ++ acc) []

def hexVal (c : Char) : Option Nat :=
  if 48 ≤ c.toNat ∧ c.toNat ≤ 57 then some (c.toNat - 48)
  else if 65 ≤ c.toNat ∧ c.toNat ≤ 70 then some (c.toNat - 55)
  else if 97 ≤ c.toNat ∧ c.toNat ≤ 102 then some (c.toNat - 87)
  else none

def replChar : Char := Char.ofNat 0xFFFD

/-- One step of UTF-8 decoding with `errors='replace'`: from a non-empty
byte list, the next decoded character (U+FFFD for the maximal subpart of an
ill-formed subsequence, as in CPython's decoder) and the remaining bytes. -/
def utf8Step : List Nat → Char × List Nat
  | [] => (replChar, [])
  | b :: t =>
    if b < 0x80 then (Char.ofNat b, t)
    else if 0xC2 ≤ b ∧ b ≤ 0xDF then
      match t with
      | b2 :: t2 =>
        if 0x80 ≤ b2 ∧ b2 ≤ 0xBF then
          (Char.ofNat ((b - 0xC0) * 0x40 + (b2 - 0x80)), t2)
        else (replChar, b2 :: t2)
      | [] => (replChar, [])
    else if 0xE0 ≤ b ∧ b ≤ 0xEF then
      match t with
      | b2 :: t2 =>
        if 0x80 ≤ b2 ∧ b2 ≤ 0xBF ∧ (b = 0xE0 → 0xA0 ≤ b2) ∧ (b = 0xED → b2 ≤ 0x9F) then
          match t2 with
          | b3 :: t3 =>
            if 0x80 ≤ b3 ∧ b3 ≤ 0xBF then
              (Char.ofNat ((b - 0xE0) * 0x1000 + (b2 - 0x80) * 0x40 + (b3 - 0x80)), t3)
            else (replChar, b3 :: t3)
          | [] => (replChar, [])
        else (replChar, b2 :: t2)
      | [] => (replChar, [])
    else if 0xF0 ≤ b ∧ b ≤ 0xF4 then
      match t with
      | b2 :: t2 =>
        if 0x80 ≤ b2 ∧ b2 ≤ 0xBF ∧ (b = 0xF0 → 0x90 ≤ b2) ∧ (b = 0xF4 → b2 ≤ 0x8F) then
          match t2 with
          | b3 :: t3 =>
            if 0x80 ≤ b3 ∧ b3 ≤ 0xBF then
              match t3 with
              | b4 :: t4 =>
                if 0x80 ≤ b4 ∧ b4 ≤ 0xBF then
                  (Char.ofNat ((b - 0xF0) * 0x40000 + (b2 - 0x80) * 0x1000 +
                    (b3 - 0x80) * 0x40 + (b4 - 0x80)), t4)
                else (replChar, b4 :: t4)
              | [] => (replChar, [])
            else (replChar, b3 :: t3)
          | [] => (replChar, [])
        else (replChar, b2 :: t2)
      | [] => (replChar, [])
    else (replChar, t)

/-- The decoding loop, fuelled so that recursion is structural; the wrapper
passes `l.length`, which is enough fuel because every step consumes at least
one byte. -/
def utf8DecodeGo : Nat → List Nat → List Char
  | _, [] => []
  | 0, _ :: _ => []
  | fuel + 1, b :: t =>
    (utf8Step (b :: t)).1 :: utf8DecodeGo fuel (utf8Step (b :: t)).2

/-- `bytes.decode("utf-8", errors="replace")`. -/
def utf8DecodeR (l : List Nat) : List Char := utf8DecodeGo l.length l

/-- `urllib.parse.unquote`: literal characters pass through; each maximal run
of `%XX` escapes is collected into a byte string and UTF-8-decoded with
replacement.  The accumulator holds the pending byte run in reverse. -/
def unquoteAux : List Nat → List Char → List Char
  | pend, [] => utf8DecodeR pend.reverse
  | pend, '%' :: h1 :: h2 :: t =>
    match hexVal h1, hexVal h2 with
    | some a, some b => unquoteAux ((16 * a + b) :: pend) t
    | _, _ => utf8DecodeR pend.reverse ++ '%' :: unquoteAux [] (h1 :: h2 :: t)
  | pend, c :: t => utf8DecodeR pend.reverse ++ c :: unquoteAux [] t

def unquote (l : List Char) : List Char := unquoteAux [] l

/-- `unquote(s.replace('+', ' '))` as done by `parse_qsl`. -/
def unquote_plus (l : List Char) : List Char :=
  unquote (l.map (fun c => if c = '+' then ' ' else c))


theorem utf8Step_consumes : ∀ (b : Nat) (t : List Nat),
    (utf8Step (b :: t)).2.length ≤ t.length := by
  intro b t
  unfold utf8Step
  repeat' split
  all_goals simp_all
  all_goals omega

theorem utf8DecodeGo_eq : ∀ (fuel : Nat) (l : List Nat), l.length ≤ fuel →
    utf8DecodeGo fuel l = utf8DecodeR l := by
  intro fuel
  induction fuel using Nat.strong_induction_on with
  | _ fuel ih =>
    intro l hlen
    cases l with
    | nil => cases fuel <;> rfl
    | cons b t =>
      cases fuel with
      | zero => simp at hlen
      | succ f =>
        have hcons : (utf8Step (b :: t)).2.length ≤ t.length := utf8Step_consumes b t
        have htf : t.length ≤ f := by simpa using hlen
        have h1 : utf8DecodeGo (f + 1) (b :: t) =
            (utf8Step (b :: t)).1 :: utf8DecodeGo f (utf8Step (b :: t)).2 := rfl
        have h2 : utf8DecodeR (b :: t) =
            (utf8Step (b :: t)).1 :: utf8DecodeGo t.length (utf8Step (b :: t)).2 := rfl
        rw [h1, h2]
        congr 1
        rw [ih f (Nat.lt_succ_self f) _ (Nat.le_trans hcons htf)]
        by_cases hf0 : t.length < f + 1
        · rw [ih t.length hf0 _ hcons]
        · omega

theorem char_valid_range (c : Char) :
    c.toNat < 0xD800 ∨ (0xDFFF < c.toNat ∧ c.toNat < 0x110000) := by
  have h := c.valid
  unfold UInt32.isValidChar at h
  unfold Nat.isValidChar at h
  exact h

theorem utf8Step_enc (c : Char) (rest : List Nat) :
    utf8Step (utf8Bytes c ++ rest) = (c, rest) := by
  have hval := char_valid_range c
  by_cases h1 : c.toNat < 0x80
  · have he : utf8Bytes c = [c.toNat] := by unfold utf8Bytes; rw [if_pos h1]
    rw [he]
    show utf8Step (c.toNat :: rest) = (c, rest)
    simp only [utf8Step]
    rw [if_pos h1, Char.ofNat_toNat]
  · by_cases h2 : c.toNat < 0x800
    · have he : utf8Bytes c = [0xC0 + c.toNat / 0x40, 0x80 + c.toNat % 0x40] := by
        unfold utf8Bytes; rw [if_neg h1, if_pos h2]
      rw [he]
      show utf8Step ((0xC0 + c.toNat / 0x40) :: (0x80 + c.toNat % 0x40) :: rest) = (c, rest)
      simp only [utf8Step]
      rw [if_neg (by omega), if_pos (by omega : 0xC2 ≤ 0xC0 + c.toNat / 0x40 ∧
        0xC0 + c.toNat / 0x40 ≤ 0xDF)]
      rw [if_pos (by omega : 0x80 ≤ 0x80 + c.toNat % 0x40 ∧ 0x80 + c.toNat % 0x40 ≤ 0xBF)]
      have hv : (0xC0 + c.toNat / 0x40 - 0xC0) * 0x40 + (0x80 + c.toNat % 0x40 - 0x80) =
          c.toNat := by omega
      rw [hv, Char.ofNat_toNat]
    · by_cases h3 : c.toNat < 0x10000
      · have he : utf8Bytes c = [0xE0 + c.toNat / 0x1000, 0x80 + (c.toNat / 0x40) % 0x40,
            0x80 + c.toNat % 0x40] := by
          unfold utf8Bytes; rw [if_neg h1, if_neg h2, if_pos h3]
        rw [he]
        show utf8Step ((0xE0 + c.toNat / 0x1000) :: (0x80 + (c.toNat / 0x40) % 0x40) ::
          (0x80 + c.toNat % 0x40) :: rest) = (c, rest)
        simp only [utf8Step]
        rw [if_neg (by omega), if_neg (by omega), if_pos (by omega : 0xE0 ≤ 0xE0 +
          c.toNat / 0x1000 ∧ 0xE0 + c.toNat / 0x1000 ≤ 0xEF)]
        rw [if_pos (by omega : 0x80 ≤ 0x80 + (c.toNat / 0x40) % 0x40 ∧
          0x80 + (c.toNat / 0x40) % 0x40 ≤ 0xBF ∧
          (0xE0 + c.toNat / 0x1000 = 0xE0 → 0xA0 ≤ 0x80 + (c.toNat / 0x40) % 0x40) ∧
          (0xE0 + c.toNat / 0x1000 = 0xED → 0x80 + (c.toNat / 0x40) % 0x40 ≤ 0x9F))]
        rw [if_pos (by omega : 0x80 ≤ 0x80 + c.toNat % 0x40 ∧ 0x80 + c.toNat % 0x40 ≤ 0xBF)]
        have hv : (0xE0 + c.toNat / 0x1000 - 0xE0) * 0x1000 +
            (0x80 + (c.toNat / 0x40) % 0x40 - 0x80) * 0x40 +
            (0x80 + c.toNat % 0x40 - 0x80) = c.toNat := by omega
        rw [hv, Char.ofNat_toNat]
      · have he : utf8Bytes c = [0xF0 + c.toNat / 0x40000, 0x80 + (c.toNat / 0x1000) % 0x40,
            0x80 + (c.toNat / 0x40) % 0x40, 0x80 + c.toNat % 0x40] := by
          unfold utf8Bytes; rw [if_neg h1, if_neg h2, if_neg h3]
        rw [he]
        show utf8Step ((0xF0 + c.toNat / 0x40000) :: (0x80 + (c.toNat / 0x1000) % 0x40) ::
          (0x80 + (c.toNat / 0x40) % 0x40) :: (0x80 + c.toNat % 0x40) :: rest) = (c, rest)
        simp only [utf8Step]
        rw [if_neg (by omega), if_neg (by omega), if_neg (by omega),
          if_pos (by omega : 0xF0 ≤ 0xF0 + c.toNat / 0x40000 ∧
            0xF0 + c.toNat / 0x40000 ≤ 0xF4)]
        rw [if_pos (by omega : 0x80 ≤ 0x80 + (c.toNat / 0x1000) % 0x40 ∧
          0x80 + (c.toNat / 0x1000) % 0x40 ≤ 0xBF ∧
          (0xF0 + c.toNat / 0x40000 = 0xF0 → 0x90 ≤ 0x80 + (c.toNat / 0x1000) % 0x40) ∧
          (0xF0 + c.toNat / 0x40000 = 0xF4 → 0x80 + (c.toNat / 0x1000) % 0x40 ≤ 0x8F))]
        rw [if_pos (by omega : 0x80 ≤ 0x80 + (c.toNat / 0x40) % 0x40 ∧
          0x80 + (c.toNat / 0x40) % 0x40 ≤ 0xBF)]
        rw [if_pos (by omega : 0x80 ≤ 0x80 + c.toNat % 0x40 ∧ 0x80 + c.toNat % 0x40 ≤ 0xBF)]
        have hv : (0xF0 + c.toNat / 0x40000 - 0xF0) * 0x40000 +
            (0x80 + (c.toNat / 0x1000) % 0x40 - 0x80) * 0x1000 +
            (0x80 + (c.toNat / 0x40) % 0x40 - 0x80) * 0x40 +
            (0x80 + c.toNat % 0x40 - 0x80) = c.toNat := by omega
        rw [hv, Char.ofNat_toNat]

theorem utf8Bytes_ne_nil (c : Char) : utf8Bytes c ≠ [] := by
  unfold utf8Bytes
  split_ifs <;> simp

theorem utf8Bytes_lt (c : Char) : ∀ b ∈ utf8Bytes c, b < 256 := by
  have hval := char_valid_range c
  unfold utf8Bytes
  split_ifs <;> intro b hb <;> simp at hb <;> omega

theorem utf8DecodeR_enc (c : Char) (rest : List Nat) :
    utf8DecodeR (utf8Bytes c ++ rest) = c :: utf8DecodeR rest := by
  cases henc : utf8Bytes c with
  | nil => exact absurd henc (utf8Bytes_ne_nil c)
  | cons b0 e' =>
    have hstep : utf8Step (b0 :: (e' ++ rest)) = (c, rest) := by
      have h := utf8Step_enc c rest
      rw [henc] at h
      exact h
    show utf8DecodeGo (b0 :: (e' ++ rest)).length (b0 :: (e' ++ rest)) = c :: utf8DecodeR rest
    have hlen : (b0 :: (e' ++ rest)).length = (e' ++ rest).length + 1 := rfl
    rw [hlen]
    show (utf8Step (b0 :: (e' ++ rest))).1 ::
        utf8DecodeGo (e' ++ rest).length (utf8Step (b0 :: (e' ++ rest))).2 =
      c :: utf8DecodeR rest
    rw [hstep]
    show c :: utf8DecodeGo (e' ++ rest).length rest = c :: utf8DecodeR rest
    rw [utf8DecodeGo_eq _ _ (by simp)]

theorem utf8DecodeR_flatten (cs : List Char) :
    utf8DecodeR (cs.map utf8Bytes).flatten = cs := by
  induction cs with
  | nil => rfl
  | cons c cs' ih =>
    show utf8DecodeR (utf8Bytes c ++ (cs'.map utf8Bytes).flatten) = c :: cs'
    rw [utf8DecodeR_enc, ih]

theorem hexVal_hexDigitUpper (n : Nat) (h : n < 16) :
    hexVal (hexDigitUpper n) = some n := by
  interval_cases n <;> decide

/-- The encoding of a byte list used by `quote` for non-safe characters. -/
def hexEnc (bs : List Nat) : List Char :=
  bs.foldr (fun b acc => pctEncodeByte b ++ acc) []

theorem unquoteAux_lit (pend : List Nat) (d : Char) (w : List Char) (hd : d ≠ '%') :
    unquoteAux pend (d :: w) = utf8DecodeR pend.reverse ++ d :: unquoteAux [] w := by
  conv_lhs => unfold unquoteAux
  split
  · rename_i heq
    simp at heq
  · rename_i heq
    injection heq with hda _
    exact absurd hda hd
  · rename_i heq
    injection heq with hda hwa
    rw [hda, hwa]

theorem unquoteAux_pct (pend : List Nat) (h1 h2 : Char) (t : List Char) (a b : Nat)
    (ha : hexVal h1 = some a) (hb : hexVal h2 = some b) :
    unquoteAux pend ('%' :: h1 :: h2 :: t) = unquoteAux ((16 * a + b) :: pend) t := by
  show (match hexVal h1, hexVal h2 with
        | some a, some b => unquoteAux ((16 * a + b) :: pend) t
        | _, _ => utf8DecodeR pend.reverse ++ '%' :: unquoteAux [] (h1 :: h2 :: t)) =
      unquoteAux ((16 * a + b) :: pend) t
  rw [ha, hb]

theorem unquoteAux_hexEnc (bs : List Nat) (hbs : ∀ b ∈ bs, b < 256) :
    ∀ (pend : List Nat) (m : List Char),
      unquoteAux pend (hexEnc bs ++ m) = unquoteAux (bs.reverse ++ pend) m := by
  induction bs with
  | nil => intro pend m; rfl
  | cons b bs' ih =>
    intro pend m
    have hb : b < 256 := hbs b (List.mem_cons_self _ _)
    have h16 : b / 16 < 16 := by omega
    have h16' : b % 16 < 16 := by omega
    have hstep : hexEnc (b :: bs') ++ m =
        '%' :: hexDigitUpper (b / 16) :: hexDigitUpper (b % 16) :: (hexEnc bs' ++ m) := rfl
    rw [hstep, unquoteAux_pct pend _ _ _ (b / 16) (b % 16)
      (hexVal_hexDigitUpper _ h16) (hexVal_hexDigitUpper _ h16')]
    have hbv : 16 * (b / 16) + b % 16 = b := by omega
    rw [hbv, ih (fun x hx => hbs x (List.mem_cons_of_mem b hx))]
    congr 1
    simp

theorem isAlwaysSafe_ne (c : Char) (h : isAlwaysSafe c = true) : c ≠ '%' ∧ c ≠ '+' := by
  constructor <;> rintro rfl <;> exact absurd h (by decide)

theorem hexDigitUpper_ne_plus (n : Nat) (h : n < 16) : hexDigitUpper n ≠ '+' := by
  interval_cases n <;> decide

theorem hexEnc_map_plus (bs : List Nat) (hbs : ∀ b ∈ bs, b < 256) :
    (hexEnc bs).map (fun c => if c = '+' then ' ' else c) = hexEnc bs := by
  induction bs with
  | nil => rfl
  | cons b bs' ih =>
    have hb : b < 256 := hbs b (List.mem_cons_self _ _)
    have hstep : hexEnc (b :: bs') =
        '%' :: hexDigitUpper (b / 16) :: hexDigitUpper (b % 16) :: hexEnc bs' := rfl
    rw [hstep]
    simp only [List.map_cons]
    rw [if_neg (by decide), if_neg (hexDigitUpper_ne_plus _ (by omega)),
      if_neg (hexDigitUpper_ne_plus _ (by omega)),
      ih (fun x hx => hbs x (List.mem_cons_of_mem b hx))]

theorem quote_plus_cons (c : Char) (s : List Char) :
    quote_plus (c :: s) = quote_plus_char c ++ quote_plus s := rfl

/-- Main round trip: `unquote(quote_plus(s).replace('+',' ')) = s`, generalised
over a pending byte run that is a concatenation of UTF-8 encodings. -/
theorem unquoteAux_quote_plus (s : List Char) :
    ∀ (cs : List Char),
      unquoteAux ((cs.map utf8Bytes).flatten).reverse
        ((quote_plus s).map (fun c => if c = '+' then ' ' else c)) = cs ++ s := by
  induction s with
  | nil =>
    intro cs
    show utf8DecodeR ((cs.map utf8Bytes).flatten).reverse.reverse = cs ++ []
    rw [List.reverse_reverse, utf8DecodeR_flatten, List.append_nil]
  | cons c s' ih =>
    intro cs
    rw [quote_plus_cons, List.map_append]
    by_cases hsafe : isAlwaysSafe c = true
    · have hq : quote_plus_char c = [c] := by unfold quote_plus_char; rw [if_pos hsafe]
      obtain ⟨hpc, hplus⟩ := isAlwaysSafe_ne c hsafe
      rw [hq]
      show unquoteAux ((cs.map utf8Bytes).flatten).reverse
        ((if c = '+' then ' ' else c) ::
          (quote_plus s').map (fun c => if c = '+' then ' ' else c)) = cs ++ c :: s'
      rw [if_neg hplus]
      rw [unquoteAux_lit _ _ _ hpc]
      have h0 := ih []
      simp only [List.map_nil, List.flatten_nil, List.reverse_nil, List.nil_append] at h0
      rw [h0, List.reverse_reverse, utf8DecodeR_flatten]
    · by_cases hsp : c = ' '
      · subst hsp
        have hq : quote_plus_char ' ' = ['+'] := by decide
        rw [hq]
        show unquoteAux ((cs.map utf8Bytes).flatten).reverse
          ((if '+' = '+' then ' ' else '+') ::
            (quote_plus s').map (fun c => if c = '+' then ' ' else c)) = cs ++ ' ' :: s'
        rw [if_pos rfl]
        rw [unquoteAux_lit _ _ _ (by decide)]
        have h0 := ih []
        simp only [List.map_nil, List.flatten_nil, List.reverse_nil, List.nil_append] at h0
        rw [h0, List.reverse_reverse, utf8DecodeR_flatten]
      · have hq : quote_plus_char c = hexEnc (utf8Bytes c) := by
          unfold quote_plus_char
          rw [if_neg hsafe, if_neg hsp]
          rfl
        rw [hq, hexEnc_map_plus _ (utf8Bytes_lt c),
          unquoteAux_hexEnc _ (utf8Bytes_lt c)]
        have hpend : (utf8Bytes c).reverse ++ ((cs.map utf8Bytes).flatten).reverse =
            (((cs ++ [c]).map utf8Bytes).flatten).reverse := by
          rw [List.map_append, List.flatten_append]
          simp
        rw [hpend, ih (cs ++ [c])]
        simp

/-- `parse_qsl`'s name/value decoding inverts `urlencode`'s `quote_plus`. -/
theorem unquote_plus_quote_plus (s : List Char) :
    unquote_plus (quote_plus s) = s := by
  have h := unquoteAux_quote_plus s []
  simp only [List.map_nil, List.flatten_nil, List.reverse_nil, List.nil_append] at h
  exact h

/-! ## The `urllib.parse` URL model (CPython 3.11) -/

/-- `_WHATWG_C0_CONTROL_OR_SPACE`: the C0 control characters and space. -/
def isC0orSpace (c : Char) : Bool := decide (c.toNat ≤ 0x20)

/-- `_UNSAFE_URL_BYTES_TO_REMOVE`: tab, carriage return, newline. -/
def isUnsafeURLByte (c : Char) : Bool := c == '\t' || c == '\r' || c == '\n'

def isAsciiAlpha (c : Char) : Bool :=
  decide ((65 ≤ c.toNat ∧ c.toNat ≤ 90) ∨ (97 ≤ c.toNat ∧ c.toNat ≤ 122))

/-- `scheme_chars`: letters, digits, `+`, `-`, `.`. -/
def isSchemeChar (c : Char) : Bool :=
  isAsciiAlphaNum c || c == '+' || c == '-' || c == '.'

/-- The scheme-detection step of `urlsplit`: a scheme is split off exactly
when the first character is an ASCII letter and the maximal `scheme_chars`
prefix is followed by `:` (then the scheme is that prefix, lowercased).
`url.find(':')` together with the `scheme_chars` test of `url[:i]` is
equivalent to this because `:` is not a scheme character. -/
def detectScheme (l : List Char) : Option (List Char × List Char) :=
  match l with
  | [] => none
  | c :: _ =>
    if isAsciiAlpha c then
      match l.dropWhile isSchemeChar with
      | ':' :: r => some (pyLower (l.takeWhile isSchemeChar), r)
      | _ => none
    else none

def isNetlocDelim (c : Char) : Bool := c == '/' || c == '?' || c == '#'

/-- `_splitnetloc(url, 2)` (applied after the leading `//` was removed):
the netloc is everything up to the first `/`, `?` or `#`. -/
def splitnetloc (l : List Char) : List Char × List Char :=
  (l.takeWhile (fun c => !isNetlocDelim c), l.dropWhile (fun c => !isNetlocDelim c))

/-- Split at the first occurrence of `c`: `s.split(c, 1)`; `none` when `c`
does not occur. -/
def splitAtFirst (c : Char) (l : List Char) : List Char × Option (List Char) :=
  match l.dropWhile (fun x => x ≠ c) with
  | _ :: r => (l.takeWhile (fun x => x ≠ c), some r)
  | [] => (l.takeWhile (fun x => x ≠ c), none)

/-- The result of `urlsplit` / `urlparse`. -/
structure UrlParts where
  scheme : List Char
  netloc : List Char
  path : List Char
  params : List Char
  query : List Char
  fragment : List Char
deriving Repr, DecidableEq

/-- `uses_params` (CPython 3.11). -/
def uses_params : List (List Char) :=
  ["", "ftp", "hdl", "prospero", "http", "imap", "https", "shttp", "rtsp",
   "rtsps", "rtspu", "sip", "sips", "mms", "sftp", "tel"].map String.data

/-- `uses_netloc` (CPython 3.11). -/
def uses_netloc : List (List Char) :=
  ["", "ftp", "http", "gopher", "nntp", "telnet", "imap", "wais", "file",
   "mms", "https", "shttp", "snews", "prospero", "rtsp", "rtsps", "rtspu",
   "rsync", "svn", "svn+ssh", "sftp", "nfs", "git", "git+ssh", "ws",
   "wss"].map String.data

/-- The last `/`-free suffix of a path (`url[url.rfind('/') + 1:]`
restricted to the part after the last slash). -/
def afterLastSlash (l : List Char) : List Char :=
  (l.reverse.takeWhile (fun c => c ≠ '/')).reverse

/-- `_splitparams`: split `;params` off the last path segment. -/
def splitparams (l : List Char) : List Char × List Char :=
  if '/' ∈ l then
    match splitAtFirst ';' (afterLastSlash l) with
    | (a, some b) => (l.take (l.length - (afterLastSlash l).length) ++ a, b)
    | (_, none) => (l, [])
  else
    match splitAtFirst ';' l with
    | (a, some b) => (a, b)
    | (_, none) => (l, [])

/-- `url.lstrip(_WHATWG_C0_CONTROL_OR_SPACE)` followed by removal of
`_UNSAFE_URL_BYTES_TO_REMOVE`, the first two steps of `urlsplit`. -/
def cleanUrl (url0 : List Char) : List Char :=
  (url0.dropWhile isC0orSpace).filter (fun c => !isUnsafeURLByte c)

/-- The scheme step of `urlsplit` as a total splitting function. -/
def schemeSplit (l : List Char) : List Char × List Char :=
  match detectScheme l with
  | some sr => sr
  | none => ([], l)

/-- The netloc step of `urlsplit`: applied only when the remainder starts
with `//`. -/
def netlocSplit (l : List Char) : List Char × List Char :=
  if l.take 2 = ['/', '/'] then splitnetloc (l.drop 2) else ([], l)

/-- The netloc validation of `urlsplit`, modelled conservatively: CPython
validates bracketed (IPv6/IPvFuture) hosts and non-ASCII netlocs, raising
`ValueError` for the invalid ones; the model treats any netloc containing a
bracket or a non-ASCII character as outside the success domain. -/
def netlocOK (n : List Char) : Prop :=
  '[' ∉ n ∧ ']' ∉ n ∧ ∀ c ∈ n, c.toNat < 128

instance (n : List Char) : Decidable (netlocOK n) := by
  unfold netlocOK; infer_instance

/-- The fragment step: split at the first `#`, if any. -/
def fragSplit (l : List Char) : List Char × List Char :=
  match splitAtFirst '#' l with
  | (a, some f) => (a, f)
  | (a, none) => (a, [])

/-- The query step: split at the first `?`, if any. -/
def querySplit (l : List Char) : List Char × List Char :=
  match splitAtFirst '?' l with
  | (a, some q) => (a, q)
  | (a, none) => (a, [])

/-- The params step of `urlparse`: split only for schemes in
`uses_params` when a `;` is present. -/
def paramsSplit (scheme l : List Char) : List Char × List Char :=
  if scheme ∈ uses_params ∧ ';' ∈ l then splitparams l else (l, [])

/-- Scheme stage of `urlparse`: `(scheme, rest)`. -/
def stage2 (l : List Char) : List Char × List Char := schemeSplit (cleanUrl l)

/-- Netloc stage of `urlparse`: `(netloc, rest)`. -/
def stage3 (l : List Char) : List Char × List Char := netlocSplit (stage2 l).2

/-- Fragment stage of `urlparse`: `(rest, fragment)`. -/
def stage4 (l : List Char) : List Char × List Char := fragSplit (stage3 l).2

/-- Query stage of `urlparse`: `(rest, query)`. -/
def stage5 (l : List Char) : List Char × List Char := querySplit (stage4 l).1

/-- Params stage of `urlparse`: `(path, params)`. -/
def stage6 (l : List Char) : List Char × List Char := paramsSplit (stage2 l).1 (stage5 l).1

/-- `urlparse` (CPython 3.11) as used by `strip_downscaling_params`
(default `scheme=''`, `allow_fragments=True`); `none` models a raised
`ValueError` (see `netlocOK` for the conservative host validation). -/
def urlparseModel (url0 : List Char) : Option UrlParts :=
  if ¬ netlocOK (stage3 url0).1 then none
  else some ⟨(stage2 url0).1, (stage3 url0).1, (stage6 url0).1, (stage6 url0).2,
    (stage5 url0).2, (stage4 url0).2⟩

/-- The path/params part rebuilt by `urlunparse`. -/
def unparseUrl1 (p : UrlParts) : List Char :=
  p.path ++ (if p.params = [] then [] else ';' :: p.params)

/-- The netloc/path part rebuilt by `urlunsplit`. -/
def unparseNet (p : UrlParts) : List Char :=
  if p.netloc ≠ [] ∨
      (p.scheme ≠ [] ∧ p.scheme ∈ uses_netloc ∧ (unparseUrl1 p).take 2 ≠ ['/', '/'])
  then '/' :: '/' :: (p.netloc ++
    (if unparseUrl1 p ≠ [] ∧ (unparseUrl1 p).take 1 ≠ ['/']
     then '/' :: unparseUrl1 p else unparseUrl1 p))
  else unparseUrl1 p

/-- Everything before the query in the output of `urlunsplit`. -/
def unparseBase (p : UrlParts) : List Char :=
  if p.scheme = [] then unparseNet p else p.scheme ++ ':' :: unparseNet p

/-- `urlunsplit` combined with the params step of `urlunparse`
(CPython 3.11). -/
def urlunparseModel (p : UrlParts) : List Char :=
  let url := unparseBase p
  let url := if p.query = [] then url else url ++ '?' :: p.query
  if p.fragment = [] then url else url ++ '#' :: p.fragment


/-! ## Query strings: `parse_qsl`, `parse_qs`, `urlencode` -/

/-- Split a list on every occurrence of `sep` (Python `str.split(sep)`),
keeping empty pieces. -/
def splitOnCharQ (sep : Char) (l : List Char) : List (List Char) :=
  l.foldr
    (fun x acc =>
      match acc with
      | [] => [[x]]
      | a :: as => if x = sep then [] :: a :: as else (x :: a) :: as)
    [[]]

/-- One `name=value` field of a query string, parsed as `parse_qsl` does. -/
def qslField (nv : List Char) : Option (List Char × List Char) :=
  if nv = [] then none
  else
    match splitAtFirst '=' nv with
    | (n, some v) => some (unquote_plus n, unquote_plus v)
    | (n, none) => some (unquote_plus n, [])

/-- `parse_qsl(qs, keep_blank_values=True)` with the default separator `&`:
empty fields are skipped; a field without `=` becomes a pair with empty
value; names and values have `+` turned into spaces and are unquoted. -/
def parse_qsl (qs : List Char) : List (List Char × List Char) :=
  if qs = [] then [] else (splitOnCharQ '&' qs).filterMap qslField

/-- `parse_qs` builds a dict of lists: values grouped under the first
occurrence of each name, insertion-ordered. -/
def parse_qsGroups (pairs : List (List Char × List Char)) :
    List (List Char × List (List Char)) :=
  pairs.foldl
    (fun acc kv =>
      if acc.any (fun e => e.1 = kv.1) then
        acc.map (fun e => if e.1 = kv.1 then (e.1, e.2 ++ [kv.2]) else e)
      else acc ++ [(kv.1, [kv.2])])
    []

def parse_qs (qs : List Char) : List (List Char × List (List Char)) :=
  parse_qsGroups (parse_qsl qs)

/-- `'&'.join`. -/
def joinAmp (fields : List (List Char)) : List Char :=
  match fields with
  | [] => []
  | [f] => f
  | f :: fs => f ++ '&' :: joinAmp fs

/-- The (name, value) pairs of a grouped query dict, in order (`doseq=True`). -/
def pairsOf (groups : List (List Char × List (List Char))) :
    List (List Char × List Char) :=
  groups.flatMap (fun kv => kv.2.map (fun v => (kv.1, v)))

/-- One encoded `quote_plus(k)=quote_plus(v)` field of `urlencode`. -/
def fieldOf (kv : List Char × List Char) : List Char :=
  quote_plus kv.1 ++ '=' :: quote_plus kv.2

/-- `urlencode(qs, doseq=True)` over the grouped dict: one
`quote_plus(k)=quote_plus(v)` field per value, joined with `&`. -/
def urlencode (groups : List (List Char × List (List Char))) : List Char :=
  joinAmp ((pairsOf groups).map fieldOf)

/-- The downscaling parameter names removed by `strip_downscaling_params`. -/
def remove_keys : List (List Char) :=
  ["w", "h", "width", "height", "fit", "crop", "rect", "q", "quality",
   "auto", "format", "dpr"].map String.data

/-- `strip_downscaling_params` (`unit_history_sync.py`): drop every query
parameter whose lowercased name is one of `remove_keys`; when nothing was
removed, or URL parsing raises, return the URL unchanged. -/
def strip_downscaling_params (url : String) : String :=
  match urlparseModel url.data with
  | none => url
  | some pu =>
    let qs := parse_qs pu.query
    if ¬ qs.any (fun kv => pyLower kv.1 ∈ remove_keys) then url
    else
      String.mk (urlunparseModel
        { pu with query := urlencode (qs.filter (fun kv => pyLower kv.1 ∉ remove_keys)) })


/-! ### Splitting characterizations -/

theorem takeWhile_append_of_ne {p : Char → Bool} {A : List Char} (B : List Char)
    (hA : A.takeWhile p ≠ A) : (A ++ B).takeWhile p = A.takeWhile p := by
  induction A with
  | nil => exact absurd rfl hA
  | cons a t ih =>
    by_cases hp : p a = true
    · rw [List.cons_append, List.takeWhile_cons_of_pos hp, List.takeWhile_cons_of_pos hp]
      rw [List.takeWhile_cons_of_pos hp] at hA
      have ht : t.takeWhile p ≠ t := by
        intro hh; exact hA (by rw [hh])
      rw [ih ht]
    · rw [List.cons_append, List.takeWhile_cons_of_neg hp, List.takeWhile_cons_of_neg hp]

theorem takeWhile_append_of_all {p : Char → Bool} {A : List Char} (B : List Char)
    (hA : ∀ c ∈ A, p c = true) : (A ++ B).takeWhile p = A ++ B.takeWhile p := by
  induction A with
  | nil => rfl
  | cons a t ih =>
    rw [List.cons_append, List.takeWhile_cons_of_pos (hA a (List.mem_cons_self _ _))]
    rw [ih (fun c hc => hA c (List.mem_cons_of_mem a hc))]
    rfl

theorem dropWhile_append_of_stop {p : Char → Bool} {A B : List Char}
    (hB : ∀ b, B.head? = some b → p b = false) :
    (A ++ B).dropWhile p = A.dropWhile p ++ B := by
  induction A with
  | nil =>
    simp only [List.nil_append]
    cases B with
    | nil => rfl
    | cons b t =>
      rw [List.dropWhile_cons_of_neg (by simp [hB b rfl])]
      rfl
  | cons a t ih =>
    by_cases hp : p a = true
    · rw [List.cons_append, List.dropWhile_cons_of_pos hp, List.dropWhile_cons_of_pos hp, ih]
    · rw [List.cons_append, List.dropWhile_cons_of_neg hp, List.dropWhile_cons_of_neg hp]
      rfl

theorem splitAtFirst_no (c : Char) (l : List Char) (h : c ∉ l) :
    splitAtFirst c l = (l, none) := by
  have hall : ∀ x ∈ l, (fun x => decide (x ≠ c)) x = true := by
    intro x hx
    simp only [ne_eq, decide_eq_true_eq]
    intro hxc; exact h (hxc ▸ hx)
  have ht : l.takeWhile (fun x => x ≠ c) = l := List.takeWhile_eq_self_iff.mpr hall
  have hd : l.dropWhile (fun x => x ≠ c) = [] := List.dropWhile_eq_nil_iff.mpr hall
  unfold splitAtFirst
  rw [ht, hd]

theorem splitAtFirst_yes (c : Char) (A B : List Char) (h : c ∉ A) :
    splitAtFirst c (A ++ c :: B) = (A, some B) := by
  have hall : ∀ x ∈ A, (fun x => decide (x ≠ c)) x = true := by
    intro x hx
    simp only [ne_eq, decide_eq_true_eq]
    intro hxc; exact h (hxc ▸ hx)
  have ht : (A ++ c :: B).takeWhile (fun x => x ≠ c) = A := by
    rw [takeWhile_append_of_all _ hall, List.takeWhile_cons_of_neg (by simp)]
    simp
  have hd : (A ++ c :: B).dropWhile (fun x => x ≠ c) = c :: B := by
    rw [dropWhile_append_of_stop (by intro b hb; injection hb with hb; simp [← hb])]
    rw [List.dropWhile_eq_nil_iff.mpr hall, List.nil_append]
  unfold splitAtFirst
  rw [ht, hd]

theorem splitAtFirst_fst_sub (c : Char) (l : List Char) :
    (splitAtFirst c l).1 ⊆ l := by
  unfold splitAtFirst
  split <;> exact (List.takeWhile_prefix _).subset

theorem splitAtFirst_snd_sub (c : Char) (l : List Char) :
    ∀ B, (splitAtFirst c l).2 = some B → B ⊆ l := by
  intro B hB x hx
  unfold splitAtFirst at hB
  cases hd : l.dropWhile (fun x => x ≠ c) with
  | nil => rw [hd] at hB; simp at hB
  | cons y r =>
    rw [hd] at hB
    simp only [Option.some.injEq] at hB
    subst hB
    exact (List.dropWhile_suffix _).subset (hd ▸ List.mem_cons_of_mem y hx)

theorem head?_dropWhile_false' (q : Char → Bool) :
    ∀ (l : List Char) (y : Char), (l.dropWhile q).head? = some y → q y = false := by
  intro l
  induction l with
  | nil => intro y h; cases h
  | cons a t ih =>
    intro y h
    by_cases hq : q a = true
    · rw [List.dropWhile_cons_of_pos hq] at h
      exact ih y h
    · rw [List.dropWhile_cons_of_neg hq] at h
      injection h with h
      rw [← h]
      exact Bool.eq_false_iff.mpr hq

theorem dropWhile_head_eq (c : Char) (l : List Char) (y : Char) (r : List Char)
    (hd : l.dropWhile (fun x => x ≠ c) = y :: r) : y = c := by
  have h1 : (l.dropWhile (fun x => x ≠ c)).head? = some y := by rw [hd]; rfl
  have := head?_dropWhile_false' _ l y h1
  simpa using this

theorem splitAtFirst_recombine (c : Char) (l : List Char) :
    ∀ B, (splitAtFirst c l).2 = some B → l = (splitAtFirst c l).1 ++ c :: B := by
  intro B hB
  have hsplit := List.takeWhile_append_dropWhile (p := fun x => decide (x ≠ c)) (l := l)
  unfold splitAtFirst at hB ⊢
  cases hd : l.dropWhile (fun x => x ≠ c) with
  | nil => rw [hd] at hB; simp at hB
  | cons y r =>
    rw [hd] at hB
    simp only [Option.some.injEq] at hB
    subst hB
    have hy := dropWhile_head_eq c l y _ hd
    subst hy
    rw [hd] at hsplit
    exact hsplit.symm

theorem splitAtFirst_fst_not_mem (c : Char) (l : List Char) :
    c ∉ (splitAtFirst c l).1 := by
  intro hmem
  unfold splitAtFirst at hmem
  have hc : c ∈ l.takeWhile (fun x => x ≠ c) := by
    revert hmem; split <;> exact id
  have := List.mem_takeWhile_imp hc
  simp at this

/-! ### Scheme-detection lemmas -/

theorem isAsciiAlpha_isSchemeChar (c : Char) (h : isAsciiAlpha c = true) :
    isSchemeChar c = true := by
  unfold isAsciiAlpha at h
  unfold isSchemeChar isAsciiAlphaNum
  simp only [decide_eq_true_eq] at h
  simp only [Bool.or_eq_true, decide_eq_true_eq]
  omega

theorem detectScheme_cons (c : Char) (t : List Char) :
    detectScheme (c :: t) =
      if isAsciiAlpha c then
        match (c :: t).dropWhile isSchemeChar with
        | ':' :: r => some (pyLower ((c :: t).takeWhile isSchemeChar), r)
        | _ => none
      else none := rfl

theorem schemeSplit_of_none (l : List Char) (h : detectScheme l = none) :
    schemeSplit l = ([], l) := by
  unfold schemeSplit
  rw [h]

theorem schemeSplit_of_some (l s r : List Char) (h : detectScheme l = some (s, r)) :
    schemeSplit l = (s, r) := by
  unfold schemeSplit
  rw [h]

theorem schemeSplit_spec (l : List Char) :
    (schemeSplit l = ([], l) ∧ detectScheme l = none) ∨
    (∃ S R, l = S ++ ':' :: R ∧ schemeSplit l = (pyLower S, R) ∧ S ≠ [] ∧
      (∀ c, S.head? = some c → isAsciiAlpha c = true) ∧
      (∀ c ∈ S, isSchemeChar c = true)) := by
  cases l with
  | nil => exact Or.inl ⟨rfl, rfl⟩
  | cons c t =>
    by_cases ha : isAsciiAlpha c = true
    · cases hdw : (c :: t).dropWhile isSchemeChar with
      | nil =>
        have hnone : detectScheme (c :: t) = none := by
          rw [detectScheme_cons, if_pos ha, hdw]
        exact Or.inl ⟨schemeSplit_of_none _ hnone, hnone⟩
      | cons d r =>
        by_cases hd : d = ':'
        · subst hd
          right
          have hsome : detectScheme (c :: t) =
              some (pyLower ((c :: t).takeWhile isSchemeChar), r) := by
            rw [detectScheme_cons, if_pos ha, hdw]
            rfl
          refine ⟨(c :: t).takeWhile isSchemeChar, r, ?_, schemeSplit_of_some _ _ _ hsome,
            ?_, ?_, ?_⟩
          · have := List.takeWhile_append_dropWhile (p := isSchemeChar) (l := c :: t)
            rw [hdw] at this
            exact this.symm
          · rw [List.takeWhile_cons_of_pos (isAsciiAlpha_isSchemeChar c ha)]
            simp
          · intro x hx
            rw [List.takeWhile_cons_of_pos (isAsciiAlpha_isSchemeChar c ha)] at hx
            injection hx with hx
            rw [← hx]; exact ha
          · intro x hx
            exact List.mem_takeWhile_imp hx
        · have hnone : detectScheme (c :: t) = none := by
            rw [detectScheme_cons, if_pos ha, hdw]
            cases hde : d == ':' with
            | true => exact absurd (by simpa using hde) hd
            | false => simp [hd]
          exact Or.inl ⟨schemeSplit_of_none _ hnone, hnone⟩
    · have hnone : detectScheme (c :: t) = none := by
        rw [detectScheme_cons, if_neg ha]
      exact Or.inl ⟨schemeSplit_of_none _ hnone, hnone⟩

theorem detectScheme_lit (S R : List Char) (hS : S ≠ [])
    (hhead : ∀ c, S.head? = some c → isAsciiAlpha c = true)
    (hall : ∀ c ∈ S, isSchemeChar c = true) :
    detectScheme (S ++ ':' :: R) = some (pyLower S, R) := by
  cases S with
  | nil => exact absurd rfl hS
  | cons c t =>
    have ha : isAsciiAlpha c = true := hhead c rfl
    have htw : ((c :: t) ++ ':' :: R).takeWhile isSchemeChar = c :: t := by
      rw [takeWhile_append_of_all _ hall, List.takeWhile_cons_of_neg (by decide)]
      simp
    have hdw : ((c :: t) ++ ':' :: R).dropWhile isSchemeChar = ':' :: R := by
      rw [List.dropWhile_append, List.dropWhile_eq_nil_iff.mpr hall]
      simp
      decide
    rw [show (c :: t) ++ ':' :: R = c :: (t ++ ':' :: R) from rfl] at htw hdw ⊢
    rw [detectScheme_cons, if_pos ha, hdw]
    rw [htw]
    rfl

theorem detectScheme_head_not_alpha (l : List Char)
    (h : ∀ c, l.head? = some c → isAsciiAlpha c = false) :
    detectScheme l = none := by
  cases l with
  | nil => rfl
  | cons c t =>
    rw [detectScheme_cons, if_neg (by simp [h c rfl])]

theorem detectScheme_none_transfer (P X Y : List Char)
    (hX : detectScheme (P ++ X) = none)
    (hY : ∀ c, Y.head? = some c → (c = '?' ∨ c = '#')) :
    detectScheme (P ++ Y) = none := by
  cases P with
  | nil =>
    refine detectScheme_head_not_alpha Y ?_
    intro c hc
    rcases hY c hc with rfl | rfl <;> decide
  | cons p P' =>
    by_cases ha : isAsciiAlpha p = true
    · cases hdwP : (p :: P').dropWhile isSchemeChar with
      | nil =>
        have hallP : ∀ c ∈ p :: P', isSchemeChar c = true :=
          List.dropWhile_eq_nil_iff.mp hdwP
        have hdw : ∀ (Z : List Char),
            ((p :: P') ++ Z).dropWhile isSchemeChar = Z.dropWhile isSchemeChar := by
          intro Z
          rw [List.dropWhile_append, hdwP]
          simp
        rw [show (p :: P') ++ Y = p :: (P' ++ Y) from rfl, detectScheme_cons, if_pos ha]
        rw [show p :: (P' ++ Y) = (p :: P') ++ Y from rfl, hdw Y]
        cases hy : Y with
        | nil => rfl
        | cons y Y' =>
          have hyv := hY y (by rw [hy]; rfl)
          rw [List.dropWhile_cons_of_neg (by rcases hyv with rfl | rfl <;> decide)]
          rcases hyv with rfl | rfl <;> rfl
      | cons d D =>
        have happ : ∀ (Z : List Char),
            ((p :: P') ++ Z).dropWhile isSchemeChar = d :: (D ++ Z) := by
          intro Z
          rw [List.dropWhile_append, hdwP]
          simp
        have hd : d ≠ ':' := by
          intro hdc
          subst hdc
          rw [show (p :: P') ++ X = p :: (P' ++ X) from rfl, detectScheme_cons,
            if_pos ha, show p :: (P' ++ X) = (p :: P') ++ X from rfl, happ X] at hX
          cases hX
        rw [show (p :: P') ++ Y = p :: (P' ++ Y) from rfl, detectScheme_cons, if_pos ha,
          show p :: (P' ++ Y) = (p :: P') ++ Y from rfl, happ Y]
        cases hde : d == ':' with
        | true => exact absurd (by simpa using hde) hd
        | false => simp [hd]
    · refine detectScheme_head_not_alpha _ ?_
      intro c hc
      injection hc with hc
      rw [← hc]
      simpa using ha

/-! ### Character-class facts -/

theorem char_eq_of_toNat (c d : Char) (h : c.toNat = d.toNat) : c = d :=
  Char.eq_of_val_eq (UInt32.ext h)

theorem toNat_ofNat_small (n : Nat) (h : n < 0xD800) : (Char.ofNat n).toNat = n := by
  unfold Char.ofNat
  rw [dif_pos (by exact Or.inl h : n.isValidChar)]
  rfl

theorem pyLowerChar_idem (c : Char) : pyLowerChar (pyLowerChar c) = pyLowerChar c := by
  unfold pyLowerChar
  by_cases h : 65 ≤ c.toNat ∧ c.toNat ≤ 90
  · rw [if_pos h]
    rw [if_neg (by rw [toNat_ofNat_small _ (by omega)]; omega)]
  · rw [if_neg h, if_neg h]

theorem pyLowerChar_schemeChar (c : Char) (h : isSchemeChar c = true) :
    isSchemeChar (pyLowerChar c) = true := by
  unfold isSchemeChar isAsciiAlphaNum at h ⊢
  unfold pyLowerChar
  by_cases hc : 65 ≤ c.toNat ∧ c.toNat ≤ 90
  · rw [if_pos hc]
    simp only [Bool.or_eq_true, decide_eq_true_eq, beq_iff_eq] at h ⊢
    left
    rw [toNat_ofNat_small _ (by omega)]
    omega
  · rw [if_neg hc]
    exact h

theorem pyLowerChar_alpha (c : Char) (h : isAsciiAlpha c = true) :
    isAsciiAlpha (pyLowerChar c) = true := by
  unfold isAsciiAlpha at h ⊢
  unfold pyLowerChar
  by_cases hc : 65 ≤ c.toNat ∧ c.toNat ≤ 90
  · rw [if_pos hc]
    simp only [decide_eq_true_eq] at h ⊢
    rw [toNat_ofNat_small _ (by omega)]
    omega
  · rw [if_neg hc]
    exact h

theorem pyLower_idem (l : List Char) : pyLower (pyLower l) = pyLower l := by
  unfold pyLower
  rw [List.map_map]
  exact List.map_congr_left (fun c _ => pyLowerChar_idem c)

theorem unsafe_is_C0 (c : Char) (h : isUnsafeURLByte c = true) : isC0orSpace c = true := by
  unfold isUnsafeURLByte at h
  unfold isC0orSpace
  simp only [Bool.or_eq_true, beq_iff_eq] at h
  rcases h with (rfl | rfl) | rfl <;> decide

theorem notC0_safe (c : Char) (h : isC0orSpace c = false) :
    isUnsafeURLByte c = false := by
  cases hu : isUnsafeURLByte c
  · rfl
  · rw [unsafe_is_C0 c hu] at h
    cases h

theorem schemeChar_facts (c : Char) (h : isSchemeChar c = true) :
    isUnsafeURLByte c = false ∧ isC0orSpace c = false ∧ c ≠ '?' ∧ c ≠ '#' := by
  have hC0 : isC0orSpace c = false := by
    unfold isSchemeChar isAsciiAlphaNum at h
    simp only [Bool.or_eq_true, decide_eq_true_eq, beq_iff_eq] at h
    unfold isC0orSpace
    simp only [decide_eq_false_iff_not, not_le]
    rcases h with (((h | h | h) | rfl) | rfl) | rfl <;> first | omega | decide
  refine ⟨notC0_safe c hC0, hC0, ?_, ?_⟩
  · intro hc
    rw [hc] at h
    exact absurd h (by decide)
  · intro hc
    rw [hc] at h
    exact absurd h (by decide)

theorem alpha_not_C0 (c : Char) (h : isAsciiAlpha c = true) : isC0orSpace c = false := by
  unfold isAsciiAlpha at h
  unfold isC0orSpace
  simp only [decide_eq_true_eq] at h
  simp only [decide_eq_false_iff_not, not_le]
  omega

/-- The characters that can appear in `quote_plus` output. -/
def goodQChar (c : Char) : Bool := isAlwaysSafe c || c == '+' || c == '%'

theorem hexDigitUpper_alwaysSafe (n : Nat) (h : n < 16) :
    isAlwaysSafe (hexDigitUpper n) = true := by
  unfold hexDigitUpper isAlwaysSafe isAsciiAlphaNum
  by_cases h10 : n < 10
  · rw [if_pos h10]
    simp only [Bool.or_eq_true, decide_eq_true_eq, beq_iff_eq]
    left; left
    rw [toNat_ofNat_small _ (by omega)]
    omega
  · rw [if_neg h10]
    simp only [Bool.or_eq_true, decide_eq_true_eq, beq_iff_eq]
    left; left
    rw [toNat_ofNat_small _ (by omega)]
    omega

theorem quote_plus_char_chars (c : Char) :
    ∀ x ∈ quote_plus_char c, goodQChar x = true := by
  intro x hx
  unfold quote_plus_char at hx
  by_cases h1 : isAlwaysSafe c = true
  · rw [if_pos h1] at hx
    rw [List.mem_singleton] at hx
    subst hx
    unfold goodQChar; rw [h1]; rfl
  · rw [if_neg h1] at hx
    by_cases h2 : c = ' '
    · rw [if_pos h2] at hx
      rw [List.mem_singleton] at hx
      subst hx
      decide
    · rw [if_neg h2] at hx
      have hlt := utf8Bytes_lt c
      revert hlt hx
      induction utf8Bytes c with
      | nil => intro hx _; cases hx
      | cons b bs ih =>
        intro hx hlt
        rw [List.foldr_cons] at hx
        rcases List.mem_append.mp hx with hm | hm
        · have hb : b < 256 := hlt b (List.mem_cons_self _ _)
          unfold pctEncodeByte at hm
          simp only [List.mem_cons, List.not_mem_nil, or_false] at hm
          rcases hm with rfl | rfl | rfl
          · decide
          · unfold goodQChar
            rw [hexDigitUpper_alwaysSafe _ (by omega)]
            rfl
          · unfold goodQChar
            rw [hexDigitUpper_alwaysSafe _ (by omega)]
            rfl
        · exact ih hm (fun y hy => hlt y (List.mem_cons_of_mem b hy))

theorem quote_plus_chars (l : List Char) :
    ∀ x ∈ quote_plus l, goodQChar x = true := by
  intro x hx
  induction l with
  | nil => cases hx
  | cons c t ih =>
    unfold quote_plus at hx
    rw [List.foldr_cons] at hx
    rcases List.mem_append.mp hx with h | h
    · exact quote_plus_char_chars c x h
    · exact ih h

theorem goodQChar_ne (c : Char) (h : goodQChar c = true) :
    c ≠ '#' ∧ c ≠ '?' ∧ c ≠ '&' ∧ c ≠ '=' ∧ isUnsafeURLByte c = false ∧
      isC0orSpace c = false := by
  have hC0 : isC0orSpace c = false := by
    unfold goodQChar isAlwaysSafe isAsciiAlphaNum at h
    simp only [Bool.or_eq_true, decide_eq_true_eq, beq_iff_eq] at h
    unfold isC0orSpace
    simp only [decide_eq_false_iff_not, not_le]
    rcases h with ((((((h | h | h) | rfl) | rfl) | rfl) | rfl) | rfl) | rfl <;>
      first | omega | decide
  refine ⟨?_, ?_, ?_, ?_, notC0_safe c hC0, hC0⟩ <;>
    intro hc <;> rw [hc] at h <;> exact absurd h (by decide)

/-! ### Netloc-, fragment-, query- and params-stage characterizations -/

theorem splitnetloc_recombine (l : List Char) :
    (splitnetloc l).1 ++ (splitnetloc l).2 = l := by
  show List.takeWhile (fun c => !isNetlocDelim c) l ++
    List.dropWhile (fun c => !isNetlocDelim c) l = l
  exact List.takeWhile_append_dropWhile _ _

theorem splitnetloc_fst_all (l : List Char) :
    ∀ c ∈ (splitnetloc l).1, isNetlocDelim c = false := by
  intro c hc
  have := List.mem_takeWhile_imp hc
  simpa using this

theorem splitnetloc_snd_head (l : List Char) :
    ∀ b, (splitnetloc l).2.head? = some b → isNetlocDelim b = true := by
  intro b hb
  have := head?_dropWhile_false' (fun c => !isNetlocDelim c) l b hb
  simpa using this

theorem splitnetloc_lit (N B : List Char)
    (hN : ∀ c ∈ N, isNetlocDelim c = false)
    (hB : ∀ b, B.head? = some b → isNetlocDelim b = true) :
    splitnetloc (N ++ B) = (N, B) := by
  have hN' : ∀ c ∈ N, (fun c => !isNetlocDelim c) c = true := by
    intro c hc; simp [hN c hc]
  have h1 : (N ++ B).takeWhile (fun c => !isNetlocDelim c) = N := by
    rw [takeWhile_append_of_all _ hN']
    cases hb : B with
    | nil => simp
    | cons b B' =>
      rw [List.takeWhile_cons_of_neg (by simp [hB b (by rw [hb]; rfl)])]
      simp
  have h2 : (N ++ B).dropWhile (fun c => !isNetlocDelim c) = B := by
    rw [dropWhile_append_of_stop (by intro b hb; simp [hB b hb])]
    rw [List.dropWhile_eq_nil_iff.mpr hN']
    rfl
  unfold splitnetloc
  rw [h1, h2]

theorem netlocSplit_spec (l : List Char) :
    (netlocSplit l = ([], l) ∧ l.take 2 ≠ ['/', '/']) ∨
    (∃ r, l = '/' :: '/' :: r ∧ netlocSplit l = splitnetloc r) := by
  by_cases h : l.take 2 = ['/', '/']
  · right
    refine ⟨l.drop 2, ?_, ?_⟩
    · conv_lhs => rw [← List.take_append_drop 2 l]
      rw [h]
      rfl
    · unfold netlocSplit
      rw [if_pos h]
  · exact Or.inl ⟨by unfold netlocSplit; rw [if_neg h], h⟩

theorem netlocSplit_neg (l : List Char) (h : l.take 2 ≠ ['/', '/']) :
    netlocSplit l = ([], l) := by
  unfold netlocSplit
  rw [if_neg h]

theorem netlocSplit_pos (r : List Char) :
    netlocSplit ('/' :: '/' :: r) = splitnetloc r := by
  unfold netlocSplit
  rw [if_pos (show List.take 2 ('/' :: '/' :: r) = ['/', '/'] from rfl)]
  rfl

theorem splitAtFirst_some_of_mem (c : Char) (l : List Char) (h : c ∈ l) :
    ∃ B, (splitAtFirst c l).2 = some B := by
  unfold splitAtFirst
  cases hd : l.dropWhile (fun x => x ≠ c) with
  | nil =>
    exfalso
    have := List.dropWhile_eq_nil_iff.mp hd c h
    simp at this
  | cons d r => exact ⟨r, rfl⟩

theorem fragSplit_no (l : List Char) (h : '#' ∉ l) : fragSplit l = (l, []) := by
  unfold fragSplit
  rw [splitAtFirst_no _ _ h]

theorem fragSplit_yes (A B : List Char) (h : '#' ∉ A) :
    fragSplit (A ++ '#' :: B) = (A, B) := by
  unfold fragSplit
  rw [splitAtFirst_yes _ _ _ h]

theorem querySplit_no (l : List Char) (h : '?' ∉ l) : querySplit l = (l, []) := by
  unfold querySplit
  rw [splitAtFirst_no _ _ h]

theorem querySplit_yes (A B : List Char) (h : '?' ∉ A) :
    querySplit (A ++ '?' :: B) = (A, B) := by
  unfold querySplit
  rw [splitAtFirst_yes _ _ _ h]

theorem fragSplit_spec (l : List Char) :
    ('#' ∉ l ∧ fragSplit l = (l, [])) ∨
    (∃ A F, l = A ++ '#' :: F ∧ '#' ∉ A ∧ fragSplit l = (A, F)) := by
  by_cases h : '#' ∈ l
  · right
    obtain ⟨B, hB⟩ := splitAtFirst_some_of_mem '#' l h
    have heq : splitAtFirst '#' l = ((splitAtFirst '#' l).1, some B) := by
      rw [← hB]
    refine ⟨(splitAtFirst '#' l).1, B, splitAtFirst_recombine '#' l B hB,
      splitAtFirst_fst_not_mem '#' l, ?_⟩
    unfold fragSplit
    rw [heq]
  · exact Or.inl ⟨h, fragSplit_no l h⟩

theorem querySplit_spec (l : List Char) :
    ('?' ∉ l ∧ querySplit l = (l, [])) ∨
    (∃ A Q, l = A ++ '?' :: Q ∧ '?' ∉ A ∧ querySplit l = (A, Q)) := by
  by_cases h : '?' ∈ l
  · right
    obtain ⟨B, hB⟩ := splitAtFirst_some_of_mem '?' l h
    have heq : splitAtFirst '?' l = ((splitAtFirst '?' l).1, some B) := by
      rw [← hB]
    refine ⟨(splitAtFirst '?' l).1, B, splitAtFirst_recombine '?' l B hB,
      splitAtFirst_fst_not_mem '?' l, ?_⟩
    unfold querySplit
    rw [heq]
  · exact Or.inl ⟨h, querySplit_no l h⟩

/-! ### `afterLastSlash` and `splitparams` -/

theorem afterLastSlash_no_slash (l : List Char) : '/' ∉ afterLastSlash l := by
  intro hx
  unfold afterLastSlash at hx
  rw [List.mem_reverse] at hx
  have := List.mem_takeWhile_imp hx
  simp at this

theorem takeWhile_eq_self_of_all {p : Char → Bool} {l : List Char}
    (h : ∀ c ∈ l, p c = true) : l.takeWhile p = l := by
  have := takeWhile_append_of_all (p := p) (A := l) [] h
  simpa using this

theorem afterLastSlash_of_no_slash (l : List Char) (h : '/' ∉ l) :
    afterLastSlash l = l := by
  unfold afterLastSlash
  rw [takeWhile_eq_self_of_all (by
    intro c hc
    rw [List.mem_reverse] at hc
    simp only [ne_eq, decide_eq_true_eq]
    intro hcc
    exact h (hcc ▸ hc))]
  exact List.reverse_reverse l

theorem afterLastSlash_decomp (l : List Char) (h : '/' ∈ l) :
    ∃ W, l = W ++ '/' :: afterLastSlash l := by
  cases hd : l.reverse.dropWhile (fun c => c ≠ '/') with
  | nil =>
    exfalso
    have := List.dropWhile_eq_nil_iff.mp hd '/' (List.mem_reverse.mpr h)
    simp at this
  | cons d D =>
    have hdeq : d = '/' := by
      have := head?_dropWhile_false' (fun c => decide (c ≠ '/')) l.reverse d
        (by rw [hd]; rfl)
      simpa using this
    subst hdeq
    refine ⟨D.reverse, ?_⟩
    have hsplit := List.takeWhile_append_dropWhile
      (p := fun c => decide (c ≠ '/')) (l := l.reverse)
    rw [hd] at hsplit
    show l = D.reverse ++ '/' :: (l.reverse.takeWhile (fun c => decide (c ≠ '/'))).reverse
    conv_lhs => rw [← List.reverse_reverse l, ← hsplit]
    rw [List.reverse_append, List.reverse_cons, List.append_assoc]
    rfl

theorem afterLastSlash_append (W A : List Char) (hA : '/' ∉ A) :
    afterLastSlash (W ++ '/' :: A) = A := by
  unfold afterLastSlash
  rw [List.reverse_append, List.reverse_cons, List.append_assoc]
  rw [takeWhile_append_of_all _ (by
    intro c hc
    rw [List.mem_reverse] at hc
    simp only [ne_eq, decide_eq_true_eq]
    intro hcc
    exact hA (hcc ▸ hc))]
  rw [List.singleton_append, List.takeWhile_cons_of_neg (by simp)]
  simp

theorem take_sub_of_decomp (W A l : List Char) (h : l = W ++ A) :
    l.take (l.length - A.length) = W := by
  subst h
  rw [List.length_append, Nat.add_sub_cancel]
  exact List.take_left W A

theorem splitparams_no (l : List Char) (h : ';' ∉ afterLastSlash l) :
    splitparams l = (l, []) := by
  unfold splitparams
  by_cases hs : '/' ∈ l
  · rw [if_pos hs, splitAtFirst_no _ _ h]
  · rw [if_neg hs, splitAtFirst_no _ _ (by rwa [afterLastSlash_of_no_slash l hs] at h)]

theorem splitparams_yes (p prm : List Char) (h1 : ';' ∉ afterLastSlash p)
    (h2 : '/' ∉ prm) : splitparams (p ++ ';' :: prm) = (p, prm) := by
  by_cases hs : '/' ∈ p
  · obtain ⟨W, hW⟩ := afterLastSlash_decomp p hs
    have hsl : '/' ∈ p ++ ';' :: prm := List.mem_append_left _ hs
    have hAfree : '/' ∉ afterLastSlash p ++ ';' :: prm := by
      intro hx
      simp only [List.mem_append, List.mem_cons] at hx
      rcases hx with hx | hx | hx
      · exact afterLastSlash_no_slash p hx
      · exact absurd hx (by decide)
      · exact h2 hx
    have hafter : afterLastSlash (p ++ ';' :: prm) = afterLastSlash p ++ ';' :: prm := by
      conv_lhs => rw [hW, List.append_assoc]
      rw [show ('/' :: afterLastSlash p) ++ ';' :: prm =
        '/' :: (afterLastSlash p ++ ';' :: prm) from rfl]
      exact afterLastSlash_append W _ hAfree
    have hpre : (p ++ ';' :: prm).take
        ((p ++ ';' :: prm).length - (afterLastSlash p ++ ';' :: prm).length) ++
        afterLastSlash p = p := by
      have hdec : p ++ ';' :: prm = (W ++ ['/']) ++ (afterLastSlash p ++ ';' :: prm) := by
        conv_lhs => rw [hW]
        simp [List.append_assoc]
      rw [take_sub_of_decomp _ _ _ hdec, List.append_assoc]
      rw [show ['/'] ++ afterLastSlash p = '/' :: afterLastSlash p from rfl]
      exact hW.symm
    unfold splitparams
    rw [if_pos hsl, hafter, splitAtFirst_yes _ _ _ h1]
    dsimp only
    rw [hpre]
  · have hsl : '/' ∉ p ++ ';' :: prm := by
      intro hx
      simp only [List.mem_append, List.mem_cons] at hx
      rcases hx with hx | hx | hx
      · exact hs hx
      · exact absurd hx (by decide)
      · exact h2 hx
    have h1' : ';' ∉ p := by rwa [afterLastSlash_of_no_slash p hs] at h1
    unfold splitparams
    rw [if_neg hsl, splitAtFirst_yes _ _ _ h1']


theorem splitparams_spec (l : List Char) :
    (splitparams l = (l, []) ∧ ';' ∉ afterLastSlash l) ∨
    (l = (splitparams l).1 ++ ';' :: (splitparams l).2 ∧
      ';' ∉ afterLastSlash (splitparams l).1 ∧ '/' ∉ (splitparams l).2) := by
  by_cases hmem : ';' ∈ afterLastSlash l
  · right
    by_cases hs : '/' ∈ l
    · obtain ⟨W, hW⟩ := afterLastSlash_decomp l hs
      obtain ⟨B, hB⟩ := splitAtFirst_some_of_mem ';' (afterLastSlash l) hmem
      set A := afterLastSlash l with hA
      set A₁ := (splitAtFirst ';' A).1 with hA₁
      have heq : splitAtFirst ';' A = (A₁, some B) := by rw [hA₁, ← hB]
      have hcomb : A = A₁ ++ ';' :: B := splitAtFirst_recombine ';' A B hB
      have hA₁m : ';' ∉ A₁ := splitAtFirst_fst_not_mem ';' A
      have hA₁s : '/' ∉ A₁ := by
        intro hx
        exact afterLastSlash_no_slash l (hA ▸ (splitAtFirst_fst_sub ';' A hx))
      have hBs : '/' ∉ B := by
        intro hx
        exact afterLastSlash_no_slash l (hA ▸ (splitAtFirst_snd_sub ';' A B hB hx))
      have hdec : l = (W ++ ['/']) ++ (A ++ []) := by
        rw [List.append_nil, hW, List.append_assoc]
        rfl
      have hval : splitparams l = (l.take (l.length - A.length) ++ A₁, B) := by
        unfold splitparams
        rw [if_pos hs, ← hA, heq]
      have hpre : l.take (l.length - A.length) = W ++ ['/'] := by
        refine take_sub_of_decomp _ _ _ ?_
        rw [hW, List.append_assoc]
        rfl
      rw [hval]
      refine ⟨?_, ?_, hBs⟩
      · rw [hpre, List.append_assoc, List.append_assoc]
        rw [hW, hcomb]
        rfl
      · rw [hpre, List.append_assoc]
        rw [show ['/'] ++ A₁ = '/' :: A₁ from rfl]
        rw [afterLastSlash_append W A₁ hA₁s]
        exact hA₁m
    · have hAeq : afterLastSlash l = l := afterLastSlash_of_no_slash l hs
      rw [hAeq] at hmem
      obtain ⟨B, hB⟩ := splitAtFirst_some_of_mem ';' l hmem
      set A₁ := (splitAtFirst ';' l).1 with hA₁
      have heq : splitAtFirst ';' l = (A₁, some B) := by rw [hA₁, ← hB]
      have hcomb : l = A₁ ++ ';' :: B := splitAtFirst_recombine ';' l B hB
      have hval : splitparams l = (A₁, B) := by
        unfold splitparams
        rw [if_neg hs, heq]
      rw [hval]
      have hA₁s : '/' ∉ A₁ := fun hx => hs (splitAtFirst_fst_sub ';' l hx)
      refine ⟨hcomb, ?_, fun hx => hs (splitAtFirst_snd_sub ';' l B hB hx)⟩
      rw [afterLastSlash_of_no_slash A₁ hA₁s]
      exact splitAtFirst_fst_not_mem ';' l
  · exact Or.inl ⟨splitparams_no l hmem, hmem⟩

/-! ### `cleanUrl` and parse/unparse extraction lemmas -/

theorem cleanUrl_eq_self (l : List Char)
    (h1 : ∀ c, l.head? = some c → isC0orSpace c = false)
    (h2 : ∀ c ∈ l, isUnsafeURLByte c = false) : cleanUrl l = l := by
  unfold cleanUrl
  have hd : l.dropWhile isC0orSpace = l := by
    cases l with
    | nil => rfl
    | cons c t => exact List.dropWhile_cons_of_neg (by simp [h1 c rfl])
  rw [hd]
  refine List.filter_eq_self.mpr ?_
  intro c hc
  simp [h2 c hc]

theorem mem_cleanUrl_not_unsafe (u : List Char) :
    ∀ c ∈ cleanUrl u, isUnsafeURLByte c = false := by
  intro c hc
  unfold cleanUrl at hc
  have := (List.mem_filter.mp hc).2
  simpa using this

theorem cleanUrl_head (u : List Char) :
    ∀ c, (cleanUrl u).head? = some c → isC0orSpace c = false := by
  intro c hc
  unfold cleanUrl at hc
  cases hd : u.dropWhile isC0orSpace with
  | nil =>
    rw [hd] at hc
    cases hc
  | cons d t =>
    have hdC0 : isC0orSpace d = false :=
      head?_dropWhile_false' isC0orSpace u d (by rw [hd]; rfl)
    rw [hd, List.filter_cons_of_pos (by simp [notC0_safe d hdC0])] at hc
    injection hc with hc
    rw [← hc]
    exact hdC0

theorem urlparseModel_some_eq (l : List Char) (pu : UrlParts)
    (h : urlparseModel l = some pu) :
    pu.scheme = (stage2 l).1 ∧ pu.netloc = (stage3 l).1 ∧
    pu.path = (stage6 l).1 ∧ pu.params = (stage6 l).2 ∧
    pu.query = (stage5 l).2 ∧ pu.fragment = (stage4 l).2 := by
  unfold urlparseModel at h
  by_cases hok : netlocOK (stage3 l).1
  · rw [if_neg (not_not_intro hok)] at h
    injection h with h
    subst h
    exact ⟨rfl, rfl, rfl, rfl, rfl, rfl⟩
  · rw [if_pos hok] at h
    cases h

theorem strip_parse_none (u : String) (h : urlparseModel u.data = none) :
    strip_downscaling_params u = u := by
  unfold strip_downscaling_params
  rw [h]

theorem strip_no_removable (u : String) (pu : UrlParts)
    (h : urlparseModel u.data = some pu)
    (h2 : ¬ (parse_qs pu.query).any (fun kv => pyLower kv.1 ∈ remove_keys) = true) :
    strip_downscaling_params u = u := by
  unfold strip_downscaling_params
  rw [h]
  exact if_pos h2

theorem strip_removable (u : String) (pu : UrlParts)
    (h : urlparseModel u.data = some pu)
    (h2 : (parse_qs pu.query).any (fun kv => pyLower kv.1 ∈ remove_keys) = true) :
    strip_downscaling_params u = String.mk (urlunparseModel
      ⟨pu.scheme, pu.netloc, pu.path, pu.params,
        urlencode ((parse_qs pu.query).filter
          (fun kv => pyLower kv.1 ∉ remove_keys)), pu.fragment⟩) := by
  unfold strip_downscaling_params
  rw [h]
  exact if_neg (by simp [h2])

theorem urlunparse_decomp (p : UrlParts) :
    urlunparseModel p = unparseBase p ++
      ((if p.query = [] then [] else '?' :: p.query) ++
        (if p.fragment = [] then [] else '#' :: p.fragment)) := by
  unfold urlunparseModel
  by_cases hq : p.query = [] <;> by_cases hf : p.fragment = [] <;>
    simp [hq, hf, List.append_assoc]

theorem fq_pipeline (H q F : List Char) (hHq : '?' ∉ H) (hHh : '#' ∉ H)
    (hqh : '#' ∉ q) :
    querySplit (fragSplit (H ++
      ((if q = [] then [] else '?' :: q) ++
        (if F = [] then [] else '#' :: F)))).1 = (H, q) := by
  by_cases hq : q = []
  · by_cases hF : F = []
    · rw [if_pos hq, if_pos hF]
      rw [show ([] : List Char) ++ [] = [] from rfl, List.append_nil]
      rw [fragSplit_no H hHh]
      rw [querySplit_no H hHq, hq]
    · rw [if_pos hq, if_neg hF, List.nil_append]
      rw [fragSplit_yes H F hHh]
      rw [querySplit_no H hHq, hq]
  · by_cases hF : F = []
    · rw [if_neg hq, if_pos hF, List.append_nil]
      rw [show H ++ '?' :: q = (H ++ '?' :: q) ++ [] from (List.append_nil _).symm]
      rw [show ((H ++ '?' :: q) ++ [] : List Char) = H ++ '?' :: q from List.append_nil _]
      rw [fragSplit_no (H ++ '?' :: q) (by
        intro hx
        rcases List.mem_append.mp hx with hx | hx
        · exact hHh hx
        · rcases List.mem_cons.mp hx with hx | hx
          · exact absurd hx (by decide)
          · exact hqh hx)]
      rw [querySplit_yes H q hHq]
    · rw [if_neg hq, if_neg hF]
      rw [show H ++ ('?' :: q ++ '#' :: F) = (H ++ '?' :: q) ++ '#' :: F by
        simp [List.append_assoc]]
      rw [fragSplit_yes (H ++ '?' :: q) F (by
        intro hx
        rcases List.mem_append.mp hx with hx | hx
        · exact hHh hx
        · rcases List.mem_cons.mp hx with hx | hx
          · exact absurd hx (by decide)
          · exact hqh hx)]
      rw [querySplit_yes H q hHq]

/-! ### Round trip `parse_qs ∘ urlencode` -/

theorem splitOnCharQ_ne_nil (sep : Char) (l : List Char) : splitOnCharQ sep l ≠ [] := by
  induction l with
  | nil => simp [splitOnCharQ]
  | cons x t ih =>
    unfold splitOnCharQ at ih ⊢
    rw [List.foldr_cons]
    cases h : t.foldr _ [[]] with
    | nil => simp
    | cons a as =>
      show (if x = sep then [] :: a :: as else (x :: a) :: as) ≠ []
      split <;> simp

theorem splitOnCharQ_cons (sep x : Char) (l : List Char) :
    ∃ a as, splitOnCharQ sep l = a :: as ∧
      splitOnCharQ sep (x :: l) =
        if x = sep then [] :: a :: as else (x :: a) :: as := by
  cases h : splitOnCharQ sep l with
  | nil => exact absurd h (splitOnCharQ_ne_nil sep l)
  | cons a as =>
    refine ⟨a, as, rfl, ?_⟩
    unfold splitOnCharQ at h ⊢
    rw [List.foldr_cons, h]

theorem splitOnCharQ_append_free (sep : Char) (f l : List Char) (a : List Char)
    (as : List (List Char)) (hfree : sep ∉ f) (h : splitOnCharQ sep l = a :: as) :
    splitOnCharQ sep (f ++ l) = (f ++ a) :: as := by
  induction f with
  | nil => simpa using h
  | cons c f' ih =>
    have hc : c ≠ sep := by
      intro hc
      exact hfree (hc ▸ List.mem_cons_self _ _)
    have hf' : sep ∉ f' := fun hx => hfree (List.mem_cons_of_mem _ hx)
    obtain ⟨a', as', h1, h2⟩ := splitOnCharQ_cons sep c (f' ++ l)
    rw [ih hf'] at h1
    injection h1 with h1a h1b
    rw [show ((c :: f') ++ l) = c :: (f' ++ l) from rfl, h2, if_neg hc, ← h1a, ← h1b]
    rfl

theorem splitOnCharQ_joinAmp (fields : List (List Char))
    (hne : fields ≠ []) (hfree : ∀ f ∈ fields, '&' ∉ f) :
    splitOnCharQ '&' (joinAmp fields) = fields := by
  induction fields with
  | nil => exact absurd rfl hne
  | cons f fs ih =>
    cases fs with
    | nil =>
      show splitOnCharQ '&' (joinAmp [f]) = [f]
      have : joinAmp [f] = f := rfl
      rw [this]
      have h0 : splitOnCharQ '&' ([] : List Char) = [[]] := rfl
      have := splitOnCharQ_append_free '&' f [] [] []
        (hfree f (List.mem_cons_self _ _)) h0
      simpa using this
    | cons g gs =>
      have hjoin : joinAmp (f :: g :: gs) = f ++ '&' :: joinAmp (g :: gs) := rfl
      rw [hjoin]
      have hrec : splitOnCharQ '&' (joinAmp (g :: gs)) = g :: gs :=
        ih (by simp) (fun x hx => hfree x (List.mem_cons_of_mem _ hx))
      obtain ⟨a, as, h1, h2⟩ := splitOnCharQ_cons '&' '&' (joinAmp (g :: gs))
      rw [hrec] at h1
      injection h1 with h1a h1b
      rw [if_pos rfl] at h2
      have := splitOnCharQ_append_free '&' f ('&' :: joinAmp (g :: gs)) [] (a :: as)
        (hfree f (List.mem_cons_self _ _)) h2
      rw [this, List.append_nil, h1a, h1b]

theorem eq_not_mem_quote_plus (l : List Char) : '=' ∉ quote_plus l := by
  intro hx
  have := (goodQChar_ne _ (quote_plus_chars l _ hx)).2.2.2.1
  exact this rfl

theorem amp_not_mem_fieldOf (kv : List Char × List Char) : '&' ∉ fieldOf kv := by
  intro hx
  unfold fieldOf at hx
  rcases List.mem_append.mp hx with hx | hx
  · exact (goodQChar_ne _ (quote_plus_chars _ _ hx)).2.2.1 rfl
  · rcases List.mem_cons.mp hx with hx | hx
    · exact absurd hx (by decide)
    · exact (goodQChar_ne _ (quote_plus_chars _ _ hx)).2.2.1 rfl

theorem qslField_fieldOf (kv : List Char × List Char) : qslField (fieldOf kv) = some kv := by
  unfold qslField fieldOf
  rw [if_neg (by simp)]
  rw [splitAtFirst_yes '=' _ _ (eq_not_mem_quote_plus kv.1)]
  show some (unquote_plus (quote_plus kv.1), unquote_plus (quote_plus kv.2)) = some kv
  rw [unquote_plus_quote_plus, unquote_plus_quote_plus]

theorem parse_qsl_urlencode (G : List (List Char × List (List Char))) :
    parse_qsl (urlencode G) = pairsOf G := by
  unfold urlencode
  cases hps : pairsOf G with
  | nil => rfl
  | cons p ps =>
    have hne : joinAmp ((p :: ps).map fieldOf) ≠ [] := by
      cases ps with
      | nil =>
        show fieldOf p ≠ []
        unfold fieldOf
        intro hc
        have := congrArg List.length hc
        simp at this
      | cons q qs =>
        show fieldOf p ++ '&' :: _ ≠ []
        intro hc
        have := congrArg List.length hc
        simp at this
    unfold parse_qsl
    rw [if_neg hne]
    rw [splitOnCharQ_joinAmp _ (by simp) (by
      intro f hf
      rw [List.mem_map] at hf
      obtain ⟨kv, _, rfl⟩ := hf
      exact amp_not_mem_fieldOf kv)]
    rw [List.filterMap_map]
    have : (qslField ∘ fieldOf) = some := funext (fun kv => qslField_fieldOf kv)
    rw [this, List.filterMap_some]

theorem parse_qsGroups_keys (ps : List (List Char × List Char)) :
    ∀ e ∈ parse_qsGroups ps, ∃ kv ∈ ps, e.1 = kv.1 := by
  suffices h : ∀ (acc : List (List Char × List (List Char))),
      ∀ e ∈ ps.foldl
        (fun acc kv =>
          if acc.any (fun e => e.1 = kv.1) then
            acc.map (fun e => if e.1 = kv.1 then (e.1, e.2 ++ [kv.2]) else e)
          else acc ++ [(kv.1, [kv.2])]) acc,
        (∃ a ∈ acc, e.1 = a.1) ∨ ∃ kv ∈ ps, e.1 = kv.1 by
    intro e he
    rcases h [] e he with ⟨a, ha, _⟩ | h2
    · cases ha
    · exact h2
  induction ps with
  | nil =>
    intro acc e he
    exact Or.inl ⟨e, he, rfl⟩
  | cons kv ps' ih =>
    intro acc e he
    rw [List.foldl_cons] at he
    rcases ih _ e he with ⟨a, ha, hk⟩ | ⟨kv', hkv', hk⟩
    · by_cases hany : acc.any (fun e => e.1 = kv.1)
      · rw [if_pos hany] at ha
        rw [List.mem_map] at ha
        obtain ⟨a₀, ha₀, rfl⟩ := ha
        by_cases heq : a₀.1 = kv.1
        · rw [if_pos heq] at hk
          exact Or.inl ⟨a₀, ha₀, hk⟩
        · rw [if_neg heq] at hk
          exact Or.inl ⟨a₀, ha₀, hk⟩
      · rw [if_neg hany] at ha
        rcases List.mem_append.mp ha with ha | ha
        · exact Or.inl ⟨a, ha, hk⟩
        · rw [List.mem_singleton] at ha
          subst ha
          exact Or.inr ⟨kv, List.mem_cons_self _ _, hk⟩
    · exact Or.inr ⟨kv', List.mem_cons_of_mem _ hkv', hk⟩

theorem parse_qs_urlencode_keys (G : List (List Char × List (List Char))) :
    ∀ e ∈ parse_qs (urlencode G), ∃ kv ∈ G, e.1 = kv.1 := by
  intro e he
  unfold parse_qs at he
  rw [parse_qsl_urlencode] at he
  obtain ⟨p, hp, hk⟩ := parse_qsGroups_keys _ e he
  unfold pairsOf at hp
  rw [List.mem_flatMap] at hp
  obtain ⟨kv, hkv, hpm⟩ := hp
  rw [List.mem_map] at hpm
  obtain ⟨v, _, rfl⟩ := hpm
  exact ⟨kv, hkv, hk⟩

/-! ### Facts about the components of a successful parse -/

theorem splitAtFirst_fst_prefix (c : Char) (l : List Char) :
    (splitAtFirst c l).1 <+: l := by
  unfold splitAtFirst
  split <;> exact List.takeWhile_prefix _

theorem fragSplit_fst_prefix (l : List Char) : (fragSplit l).1 <+: l := by
  unfold fragSplit
  cases h : splitAtFirst '#' l with
  | mk a o =>
    cases o with
    | none =>
      have : a = (splitAtFirst '#' l).1 := by rw [h]
      rw [this]
      exact splitAtFirst_fst_prefix '#' l
    | some f =>
      have : a = (splitAtFirst '#' l).1 := by rw [h]
      rw [this]
      exact splitAtFirst_fst_prefix '#' l

theorem querySplit_fst_prefix (l : List Char) : (querySplit l).1 <+: l := by
  unfold querySplit
  cases h : splitAtFirst '?' l with
  | mk a o =>
    cases o with
    | none =>
      have : a = (splitAtFirst '?' l).1 := by rw [h]
      rw [this]
      exact splitAtFirst_fst_prefix '?' l
    | some f =>
      have : a = (splitAtFirst '?' l).1 := by rw [h]
      rw [this]
      exact splitAtFirst_fst_prefix '?' l

theorem scheme_facts (u : List Char) (pu : UrlParts) (h : urlparseModel u = some pu) :
    (∀ c ∈ pu.scheme, isSchemeChar c = true) ∧ pyLower pu.scheme = pu.scheme ∧
    (∀ c, pu.scheme.head? = some c → isAsciiAlpha c = true) ∧
    (pu.scheme = [] → detectScheme (cleanUrl u) = none ∧ (stage2 u).2 = cleanUrl u) := by
  have hc := (urlparseModel_some_eq u pu h).1
  rcases schemeSplit_spec (cleanUrl u) with ⟨heq, hnone⟩ | ⟨S₀, R, hu, hsp, hS0, hhead, hall⟩
  · have hsch : pu.scheme = [] := by
      rw [hc]
      show (schemeSplit (cleanUrl u)).1 = []
      rw [heq]
    refine ⟨?_, ?_, ?_, ?_⟩
    · intro c hcm
      rw [hsch] at hcm
      cases hcm
    · rw [hsch]; rfl
    · intro c hcm
      rw [hsch] at hcm
      cases hcm
    · intro _
      refine ⟨hnone, ?_⟩
      show (schemeSplit (cleanUrl u)).2 = cleanUrl u
      rw [heq]
  · have hsch : pu.scheme = pyLower S₀ := by
      rw [hc]
      show (schemeSplit (cleanUrl u)).1 = pyLower S₀
      rw [hsp]
    refine ⟨?_, ?_, ?_, ?_⟩
    · intro c hcm
      rw [hsch] at hcm
      obtain ⟨c₀, hc₀, rfl⟩ := List.mem_map.mp hcm
      exact pyLowerChar_schemeChar c₀ (hall c₀ hc₀)
    · rw [hsch]
      exact pyLower_idem S₀
    · intro c hcm
      rw [hsch] at hcm
      unfold pyLower at hcm
      rw [List.head?_map] at hcm
      cases hh : S₀.head? with
      | none => rw [hh] at hcm; cases hcm
      | some c₀ =>
        rw [hh] at hcm
        injection hcm with hcm
        rw [← hcm]
        exact pyLowerChar_alpha c₀ (hhead c₀ hh)
    · intro hnil
      rw [hsch] at hnil
      unfold pyLower at hnil
      rw [List.map_eq_nil_iff] at hnil
      exact absurd hnil hS0

theorem stage2_snd_sub (u : List Char) : (stage2 u).2 ⊆ cleanUrl u := by
  rcases schemeSplit_spec (cleanUrl u) with ⟨heq, _⟩ | ⟨S₀, R, hu, hsp, _, _, _⟩
  · show (schemeSplit (cleanUrl u)).2 ⊆ cleanUrl u
    rw [heq]
    exact fun x hx => hx
  · show (schemeSplit (cleanUrl u)).2 ⊆ cleanUrl u
    rw [hsp, hu]
    intro x hx
    exact List.mem_append_right _ (List.mem_cons_of_mem _ hx)

theorem netloc_facts (u : List Char) (pu : UrlParts) (h : urlparseModel u = some pu) :
    (∀ c ∈ pu.netloc, isNetlocDelim c = false) ∧ pu.netloc ⊆ cleanUrl u ∧
    (stage3 u).2 ⊆ cleanUrl u ∧
    (((stage3 u).2 = (stage2 u).2 ∧ pu.netloc = [] ∧ (stage2 u).2.take 2 ≠ ['/', '/']) ∨
      (∀ b, (stage3 u).2.head? = some b → isNetlocDelim b = true)) := by
  have hc := (urlparseModel_some_eq u pu h).2.1
  have hsub := stage2_snd_sub u
  rcases netlocSplit_spec (stage2 u).2 with ⟨heq, htake⟩ | ⟨r₀, hr₀, hval⟩
  · have hn : pu.netloc = [] := by
      rw [hc]
      show (netlocSplit (stage2 u).2).1 = []
      rw [heq]
    refine ⟨?_, ?_, ?_, Or.inl ⟨?_, hn, htake⟩⟩
    · intro c hcm; rw [hn] at hcm; cases hcm
    · rw [hn]; intro x hx; cases hx
    · show (netlocSplit (stage2 u).2).2 ⊆ cleanUrl u
      rw [heq]
      exact hsub
    · show (netlocSplit (stage2 u).2).2 = (stage2 u).2
      rw [heq]
  · have hn : pu.netloc = (splitnetloc r₀).1 := by
      rw [hc]
      show (netlocSplit (stage2 u).2).1 = (splitnetloc r₀).1
      rw [hval]
    have hr₀sub : r₀ ⊆ cleanUrl u := by
      intro x hx
      exact hsub (by rw [hr₀]; exact List.mem_cons_of_mem _ (List.mem_cons_of_mem _ hx))
    have hs3 : (stage3 u).2 = (splitnetloc r₀).2 := by
      show (netlocSplit (stage2 u).2).2 = (splitnetloc r₀).2
      rw [hval]
    refine ⟨?_, ?_, ?_, Or.inr ?_⟩
    · rw [hn]; exact splitnetloc_fst_all r₀
    · rw [hn]
      intro x hx
      exact hr₀sub ((List.takeWhile_prefix _).subset hx)
    · rw [hs3]
      intro x hx
      exact hr₀sub ((List.dropWhile_suffix _).subset hx)
    · rw [hs3]
      exact splitnetloc_snd_head r₀

theorem preQ_facts (u : List Char) :
    '?' ∉ (stage5 u).1 ∧ '#' ∉ (stage5 u).1 ∧ (stage5 u).1 <+: (stage3 u).2 := by
  have hA : (stage4 u).1 <+: (stage3 u).2 := fragSplit_fst_prefix (stage3 u).2
  have hpre : (stage5 u).1 <+: (stage4 u).1 := querySplit_fst_prefix (stage4 u).1
  have hAh : '#' ∉ (stage4 u).1 := by
    rcases fragSplit_spec (stage3 u).2 with ⟨hm, heq⟩ | ⟨A, F, hrec, hm, heq⟩
    · show '#' ∉ (fragSplit (stage3 u).2).1
      rw [heq]
      exact hm
    · show '#' ∉ (fragSplit (stage3 u).2).1
      rw [heq]
      exact hm
  have hq1 : '?' ∉ (stage5 u).1 := by
    rcases querySplit_spec (stage4 u).1 with ⟨hm, heq⟩ | ⟨A, Q, hrec, hm, heq⟩
    · show '?' ∉ (querySplit (stage4 u).1).1
      rw [heq]
      exact hm
    · show '?' ∉ (querySplit (stage4 u).1).1
      rw [heq]
      exact hm
  exact ⟨hq1, fun hx => hAh (hpre.subset hx), hpre.trans hA⟩

theorem stage3_snd_sub (u : List Char) : (stage3 u).2 ⊆ cleanUrl u := by
  have hsub := stage2_snd_sub u
  rcases netlocSplit_spec (stage2 u).2 with ⟨heq, _⟩ | ⟨r₀, hr₀, hval⟩
  · show (netlocSplit (stage2 u).2).2 ⊆ cleanUrl u
    rw [heq]
    exact hsub
  · show (netlocSplit (stage2 u).2).2 ⊆ cleanUrl u
    rw [hval]
    intro x hx
    refine hsub ?_
    rw [hr₀]
    exact List.mem_cons_of_mem _ (List.mem_cons_of_mem _
      ((List.dropWhile_suffix _).subset hx))

theorem path_facts (u : List Char) (pu : UrlParts) (h : urlparseModel u = some pu) :
    '?' ∉ unparseUrl1 pu ∧ '#' ∉ unparseUrl1 pu ∧
    unparseUrl1 pu <+: (stage5 u).1 ∧
    paramsSplit pu.scheme (unparseUrl1 pu) = (pu.path, pu.params) := by
  obtain ⟨hc1, hc2, hc3, hc4, hc5, hc6⟩ := urlparseModel_some_eq u pu h
  obtain ⟨hq1, hh1, hpre5⟩ := preQ_facts u
  have hst6 : stage6 u = paramsSplit (stage2 u).1 (stage5 u).1 := rfl
  by_cases hcondP : (stage2 u).1 ∈ uses_params ∧ ';' ∈ (stage5 u).1
  · have hsplit : stage6 u = splitparams (stage5 u).1 := by
      rw [hst6]
      unfold paramsSplit
      rw [if_pos hcondP]
    rcases splitparams_spec (stage5 u).1 with ⟨hval, hinv⟩ | ⟨hrec, hinv1, hinv2⟩
    · have hpath : pu.path = (stage5 u).1 := by rw [hc3, hsplit, hval]
      have hparams : pu.params = [] := by rw [hc4, hsplit, hval]
      have hu₁ : unparseUrl1 pu = pu.path := by
        unfold unparseUrl1
        rw [if_pos hparams, List.append_nil]
      refine ⟨?_, ?_, ?_, ?_⟩
      · rw [hu₁, hpath]; exact hq1
      · rw [hu₁, hpath]; exact hh1
      · rw [hu₁, hpath]
      · rw [hu₁, hparams]
        unfold paramsSplit
        by_cases hcond2 : pu.scheme ∈ uses_params ∧ ';' ∈ pu.path
        · rw [if_pos hcond2]
          rw [hpath]
          rw [← hpath] at hinv ⊢
          rw [hpath] at hinv
          exact splitparams_no _ (by rw [hpath]; exact hinv)
        · rw [if_neg hcond2]
    · rw [← hsplit] at hrec hinv1 hinv2
      rw [← hc3] at hrec hinv1
      rw [← hc4] at hrec hinv2
      by_cases hpr : pu.params = []
      · have hu₁ : unparseUrl1 pu = pu.path := by
          unfold unparseUrl1
          rw [if_pos hpr, List.append_nil]
        refine ⟨?_, ?_, ?_, ?_⟩
        · intro hx
          exact hq1 (by rw [hrec]; exact List.mem_append_left _ (hu₁ ▸ hx))
        · intro hx
          exact hh1 (by rw [hrec]; exact List.mem_append_left _ (hu₁ ▸ hx))
        · rw [hu₁, hrec]
          exact ⟨';' :: pu.params, rfl⟩
        · rw [hu₁]
          unfold paramsSplit
          by_cases hcond2 : pu.scheme ∈ uses_params ∧ ';' ∈ pu.path
          · rw [if_pos hcond2, splitparams_no _ hinv1, hpr]
          · rw [if_neg hcond2, hpr]
      · have hu₁ : unparseUrl1 pu = pu.path ++ ';' :: pu.params := by
          unfold unparseUrl1
          rw [if_neg hpr]
        refine ⟨?_, ?_, ?_, ?_⟩
        · rw [hu₁, ← hrec]; exact hq1
        · rw [hu₁, ← hrec]; exact hh1
        · rw [hu₁, ← hrec]
        · rw [hu₁]
          unfold paramsSplit
          rw [if_pos ⟨(by rw [hc1]; exact hcondP.1),
            List.mem_append_right _ (List.mem_cons_self _ _)⟩]
          exact splitparams_yes pu.path pu.params hinv1 hinv2
  · have hval : stage6 u = ((stage5 u).1, []) := by
      rw [hst6]
      unfold paramsSplit
      rw [if_neg hcondP]
    have hpath : pu.path = (stage5 u).1 := by rw [hc3, hval]
    have hparams : pu.params = [] := by rw [hc4, hval]
    have hu₁ : unparseUrl1 pu = pu.path := by
      unfold unparseUrl1
      rw [if_pos hparams, List.append_nil]
    refine ⟨?_, ?_, ?_, ?_⟩
    · rw [hu₁, hpath]; exact hq1
    · rw [hu₁, hpath]; exact hh1
    · rw [hu₁, hpath]
    · rw [hu₁, hparams]
      unfold paramsSplit
      rw [if_neg (by rw [hc1, hpath]; exact hcondP)]

theorem fragment_sub (u : List Char) (pu : UrlParts) (h : urlparseModel u = some pu) :
    pu.fragment ⊆ cleanUrl u := by
  have hc6 := (urlparseModel_some_eq u pu h).2.2.2.2.2
  rcases fragSplit_spec (stage3 u).2 with ⟨hm, heq⟩ | ⟨A, F, hrec, hm, heq⟩
  · have : pu.fragment = [] := by
      rw [hc6]
      show (fragSplit (stage3 u).2).2 = []
      rw [heq]
    rw [this]
    intro x hx
    cases hx
  · have hF : pu.fragment = F := by
      rw [hc6]
      show (fragSplit (stage3 u).2).2 = F
      rw [heq]
    rw [hF]
    intro x hx
    refine stage3_snd_sub u ?_
    rw [hrec]
    exact List.mem_append_right _ (List.mem_cons_of_mem _ hx)

/-! ### Re-parsing the rebuilt URL -/

theorem head?_append_left (A B : List Char) (h : A ≠ []) :
    (A ++ B).head? = A.head? :=
  (prefix_head?_eq (List.prefix_append A B) h).symm

theorem netlocDelim_cases (b : Char) (h : isNetlocDelim b = true) :
    b = '/' ∨ b = '?' ∨ b = '#' := by
  unfold isNetlocDelim at h
  simp only [Bool.or_eq_true, beq_iff_eq] at h
  tauto

theorem reparse_stage2 (u : List Char) (pu : UrlParts) (h : urlparseModel u = some pu)
    (q' : List Char) (hqsafe : ∀ c ∈ q', isUnsafeURLByte c = false) :
    cleanUrl (urlunparseModel
        ⟨pu.scheme, pu.netloc, pu.path, pu.params, q', pu.fragment⟩) =
      urlunparseModel ⟨pu.scheme, pu.netloc, pu.path, pu.params, q', pu.fragment⟩ ∧
    (stage2 (urlunparseModel
        ⟨pu.scheme, pu.netloc, pu.path, pu.params, q', pu.fragment⟩)).1 = pu.scheme ∧
    (stage2 (urlunparseModel
        ⟨pu.scheme, pu.netloc, pu.path, pu.params, q', pu.fragment⟩)).2 =
      unparseNet ⟨pu.scheme, pu.netloc, pu.path, pu.params, q', pu.fragment⟩ ++
        ((if q' = [] then [] else '?' :: q') ++
          (if pu.fragment = [] then [] else '#' :: pu.fragment)) := by
  obtain ⟨hSall, hSlow, hShead, hSnil⟩ := scheme_facts u pu h
  obtain ⟨hNall, hNsub, hR3sub, hNdisj⟩ := netloc_facts u pu h
  obtain ⟨hPq, hPh, hPpre, hPsplit⟩ := path_facts u pu h
  have hFsub := fragment_sub u pu h
  have hdecomp := urlunparse_decomp
    (⟨pu.scheme, pu.netloc, pu.path, pu.params, q', pu.fragment⟩ : UrlParts)
  dsimp only at hdecomp
  have hBase : unparseBase ⟨pu.scheme, pu.netloc, pu.path, pu.params, q', pu.fragment⟩ =
      if pu.scheme = [] then
        unparseNet ⟨pu.scheme, pu.netloc, pu.path, pu.params, q', pu.fragment⟩
      else pu.scheme ++ ':' ::
        unparseNet ⟨pu.scheme, pu.netloc, pu.path, pu.params, q', pu.fragment⟩ := rfl
  have hNet : unparseNet ⟨pu.scheme, pu.netloc, pu.path, pu.params, q', pu.fragment⟩ =
      if pu.netloc ≠ [] ∨ (pu.scheme ≠ [] ∧ pu.scheme ∈ uses_netloc ∧
          (unparseUrl1 pu).take 2 ≠ ['/', '/'])
      then '/' :: '/' :: (pu.netloc ++
        (if unparseUrl1 pu ≠ [] ∧ (unparseUrl1 pu).take 1 ≠ ['/']
         then '/' :: unparseUrl1 pu else unparseUrl1 pu))
      else unparseUrl1 pu := rfl
  have hThead : ∀ c, ((if q' = [] then [] else '?' :: q') ++
      (if pu.fragment = [] then [] else '#' :: pu.fragment)).head? = some c →
      (c = '?' ∨ c = '#') := by
    intro c hc
    by_cases hq0 : q' = []
    · rw [if_pos hq0, List.nil_append] at hc
      by_cases hf0 : pu.fragment = []
      · rw [if_pos hf0] at hc
        cases hc
      · rw [if_neg hf0] at hc
        injection hc with hc
        exact Or.inr hc.symm
    · rw [if_neg hq0] at hc
      rw [show ('?' :: q') ++ (if pu.fragment = [] then [] else '#' :: pu.fragment) =
        '?' :: (q' ++ (if pu.fragment = [] then [] else '#' :: pu.fragment)) from rfl] at hc
      injection hc with hc
      exact Or.inl hc.symm
  have hTsafe : ∀ c ∈ ((if q' = [] then [] else '?' :: q') ++
      (if pu.fragment = [] then [] else '#' :: pu.fragment)),
      isUnsafeURLByte c = false := by
    intro c hc
    rcases List.mem_append.mp hc with hc | hc
    · by_cases hq0 : q' = []
      · rw [if_pos hq0] at hc
        cases hc
      · rw [if_neg hq0] at hc
        rcases List.mem_cons.mp hc with rfl | hc
        · decide
        · exact hqsafe c hc
    · by_cases hf0 : pu.fragment = []
      · rw [if_pos hf0] at hc
        cases hc
      · rw [if_neg hf0] at hc
        rcases List.mem_cons.mp hc with rfl | hc
        · decide
        · exact mem_cleanUrl_not_unsafe u c (hFsub hc)
  obtain ⟨hq5, hh5, hpre53⟩ := preQ_facts u
  have hu₁sub : unparseUrl1 pu ⊆ cleanUrl u := fun x hx =>
    stage3_snd_sub u (hpre53.subset (hPpre.subset hx))
  have hu₁safe : ∀ c ∈ unparseUrl1 pu, isUnsafeURLByte c = false := fun c hc =>
    mem_cleanUrl_not_unsafe u c (hu₁sub hc)
  have hNsafe : ∀ c ∈ pu.netloc, isUnsafeURLByte c = false := fun c hc =>
    mem_cleanUrl_not_unsafe u c (hNsub hc)
  have hNetsafe : ∀ c ∈ unparseNet ⟨pu.scheme, pu.netloc, pu.path, pu.params, q',
      pu.fragment⟩, isUnsafeURLByte c = false := by
    intro c hc
    rw [hNet] at hc
    by_cases hC : pu.netloc ≠ [] ∨ (pu.scheme ≠ [] ∧ pu.scheme ∈ uses_netloc ∧
        (unparseUrl1 pu).take 2 ≠ ['/', '/'])
    · rw [if_pos hC] at hc
      rcases List.mem_cons.mp hc with rfl | hc
      · decide
      · rcases List.mem_cons.mp hc with rfl | hc
        · decide
        · rcases List.mem_append.mp hc with hc | hc
          · exact hNsafe c hc
          · by_cases hsl : unparseUrl1 pu ≠ [] ∧ (unparseUrl1 pu).take 1 ≠ ['/']
            · rw [if_pos hsl] at hc
              rcases List.mem_cons.mp hc with rfl | hc
              · decide
              · exact hu₁safe c hc
            · rw [if_neg hsl] at hc
              exact hu₁safe c hc
    · rw [if_neg hC] at hc
      exact hu₁safe c hc
  have hBasesafe : ∀ c ∈ unparseBase ⟨pu.scheme, pu.netloc, pu.path, pu.params, q',
      pu.fragment⟩, isUnsafeURLByte c = false := by
    intro c hc
    rw [hBase] at hc
    by_cases hS0 : pu.scheme = []
    · rw [if_pos hS0] at hc
      exact hNetsafe c hc
    · rw [if_neg hS0] at hc
      rcases List.mem_append.mp hc with hc | hc
      · exact (schemeChar_facts c (hSall c hc)).1
      · rcases List.mem_cons.mp hc with rfl | hc
        · decide
        · exact hNetsafe c hc
  have hrsafe : ∀ c ∈ urlunparseModel ⟨pu.scheme, pu.netloc, pu.path, pu.params, q',
      pu.fragment⟩, isUnsafeURLByte c = false := by
    intro c hc
    rw [hdecomp] at hc
    rcases List.mem_append.mp hc with hc | hc
    · exact hBasesafe c hc
    · exact hTsafe c hc
  by_cases hS0 : pu.scheme = []
  · -- no scheme in the original parse
    have hBval : unparseBase ⟨pu.scheme, pu.netloc, pu.path, pu.params, q', pu.fragment⟩ =
        unparseNet ⟨pu.scheme, pu.netloc, pu.path, pu.params, q', pu.fragment⟩ := by
      rw [hBase, if_pos hS0]
    have hrv : urlunparseModel ⟨pu.scheme, pu.netloc, pu.path, pu.params, q', pu.fragment⟩ =
        unparseNet ⟨pu.scheme, pu.netloc, pu.path, pu.params, q', pu.fragment⟩ ++
          ((if q' = [] then [] else '?' :: q') ++
            (if pu.fragment = [] then [] else '#' :: pu.fragment)) := by
      rw [hdecomp, hBval]
    have hkey : detectScheme (urlunparseModel
          ⟨pu.scheme, pu.netloc, pu.path, pu.params, q', pu.fragment⟩) = none ∧
        (∀ c, (urlunparseModel
            ⟨pu.scheme, pu.netloc, pu.path, pu.params, q', pu.fragment⟩).head? = some c →
          isC0orSpace c = false) := by
      by_cases hC : pu.netloc ≠ [] ∨ (pu.scheme ≠ [] ∧ pu.scheme ∈ uses_netloc ∧
          (unparseUrl1 pu).take 2 ≠ ['/', '/'])
      · have hNetv : unparseNet ⟨pu.scheme, pu.netloc, pu.path, pu.params, q', pu.fragment⟩ =
            '/' :: '/' :: (pu.netloc ++
              (if unparseUrl1 pu ≠ [] ∧ (unparseUrl1 pu).take 1 ≠ ['/']
               then '/' :: unparseUrl1 pu else unparseUrl1 pu)) := by
          rw [hNet, if_pos hC]
        rw [hrv, hNetv]
        constructor
        · exact detectScheme_head_not_alpha _ (by
            intro c hc
            injection hc with hc
            rw [← hc]
            decide)
        · intro c hc
          injection hc with hc
          rw [← hc]
          decide
      · have hNetv : unparseNet ⟨pu.scheme, pu.netloc, pu.path, pu.params, q', pu.fragment⟩ =
            unparseUrl1 pu := by
          rw [hNet, if_neg hC]
        rw [hrv, hNetv]
        rcases hNdisj with ⟨h3eq, hNnil, htake⟩ | hdelim
        · -- original URL had no scheme and no netloc split: transfer
          obtain ⟨hdet, h2eq⟩ := hSnil hS0
          have hpr : unparseUrl1 pu <+: cleanUrl u := by
            have h1 : unparseUrl1 pu <+: (stage3 u).2 := hPpre.trans hpre53
            rw [h3eq, h2eq] at h1
            exact h1
          obtain ⟨X, hX⟩ := hpr
          constructor
          · exact detectScheme_none_transfer _ X _ (by rw [hX]; exact hdet) hThead
          · intro c hc
            by_cases hu₁nil : unparseUrl1 pu = []
            · rw [hu₁nil, List.nil_append] at hc
              rcases hThead c hc with rfl | rfl <;> decide
            · rw [head?_append_left _ _ hu₁nil] at hc
              rw [prefix_head?_eq ⟨X, hX⟩ hu₁nil] at hc
              exact cleanUrl_head u c hc
        · -- netloc part came from a `//` split: path starts with a delimiter
          by_cases hu₁nil : unparseUrl1 pu = []
          · rw [hu₁nil, List.nil_append]
            constructor
            · cases hT : (if q' = [] then [] else '?' :: q') ++
                  (if pu.fragment = [] then [] else '#' :: pu.fragment) with
              | nil => rfl
              | cons c T' =>
                refine detectScheme_head_not_alpha _ ?_
                intro d hd
                injection hd with hd
                rcases hThead c (by rw [hT]; rfl) with rfl | rfl <;> rw [← hd] <;> decide
            · intro c hc
              rcases hThead c hc with rfl | rfl <;> decide
          · have hpr : unparseUrl1 pu <+: (stage3 u).2 := hPpre.trans hpre53
            have hh := prefix_head?_eq hpr hu₁nil
            cases hu₁c : unparseUrl1 pu with
            | nil => exact absurd hu₁c hu₁nil
            | cons b tl =>
              have hb : isNetlocDelim b = true := by
                refine hdelim b ?_
                rw [← hh, hu₁c]
                rfl
              have hbmem : b ∈ unparseUrl1 pu := by
                rw [hu₁c]
                exact List.mem_cons_self _ _
              have hbslash : b = '/' := by
                rcases netlocDelim_cases b hb with hb' | hb' | hb'
                · exact hb'
                · exact absurd (hb' ▸ hbmem) hPq
                · exact absurd (hb' ▸ hbmem) hPh
              subst hbslash
              constructor
              · exact detectScheme_head_not_alpha _ (by
                  intro c hc
                  injection hc with hc
                  rw [← hc]
                  decide)
              · intro c hc
                injection hc with hc
                rw [← hc]
                decide
    have hclean : cleanUrl (urlunparseModel
        ⟨pu.scheme, pu.netloc, pu.path, pu.params, q', pu.fragment⟩) =
        urlunparseModel ⟨pu.scheme, pu.netloc, pu.path, pu.params, q', pu.fragment⟩ :=
      cleanUrl_eq_self _ hkey.2 hrsafe
    have hs2 : stage2 (urlunparseModel
        ⟨pu.scheme, pu.netloc, pu.path, pu.params, q', pu.fragment⟩) =
        ([], urlunparseModel ⟨pu.scheme, pu.netloc, pu.path, pu.params, q', pu.fragment⟩) := by
      show schemeSplit (cleanUrl _) = _
      rw [hclean]
      exact schemeSplit_of_none _ hkey.1
    refine ⟨hclean, ?_, ?_⟩
    · rw [hs2, hS0]
    · rw [hs2]
      exact hrv
  · -- the original parse produced a scheme
    have hBval : unparseBase ⟨pu.scheme, pu.netloc, pu.path, pu.params, q', pu.fragment⟩ =
        pu.scheme ++ ':' ::
          unparseNet ⟨pu.scheme, pu.netloc, pu.path, pu.params, q', pu.fragment⟩ := by
      rw [hBase, if_neg hS0]
    have hrv : urlunparseModel ⟨pu.scheme, pu.netloc, pu.path, pu.params, q', pu.fragment⟩ =
        pu.scheme ++ ':' ::
          (unparseNet ⟨pu.scheme, pu.netloc, pu.path, pu.params, q', pu.fragment⟩ ++
            ((if q' = [] then [] else '?' :: q') ++
              (if pu.fragment = [] then [] else '#' :: pu.fragment))) := by
      rw [hdecomp, hBval, List.append_assoc]
      rfl
    have hdet : detectScheme (urlunparseModel
        ⟨pu.scheme, pu.netloc, pu.path, pu.params, q', pu.fragment⟩) =
        some (pyLower pu.scheme,
          unparseNet ⟨pu.scheme, pu.netloc, pu.path, pu.params, q', pu.fragment⟩ ++
            ((if q' = [] then [] else '?' :: q') ++
              (if pu.fragment = [] then [] else '#' :: pu.fragment))) := by
      rw [hrv]
      exact detectScheme_lit _ _ hS0 hShead hSall
    have hrhead : ∀ c, (urlunparseModel
        ⟨pu.scheme, pu.netloc, pu.path, pu.params, q', pu.fragment⟩).head? = some c →
        isC0orSpace c = false := by
      intro c hc
      rw [hrv, head?_append_left _ _ hS0] at hc
      exact alpha_not_C0 c (hShead c hc)
    have hclean : cleanUrl (urlunparseModel
        ⟨pu.scheme, pu.netloc, pu.path, pu.params, q', pu.fragment⟩) =
        urlunparseModel ⟨pu.scheme, pu.netloc, pu.path, pu.params, q', pu.fragment⟩ :=
      cleanUrl_eq_self _ hrhead hrsafe
    have hs2 : stage2 (urlunparseModel
        ⟨pu.scheme, pu.netloc, pu.path, pu.params, q', pu.fragment⟩) =
        (pyLower pu.scheme,
          unparseNet ⟨pu.scheme, pu.netloc, pu.path, pu.params, q', pu.fragment⟩ ++
            ((if q' = [] then [] else '?' :: q') ++
              (if pu.fragment = [] then [] else '#' :: pu.fragment))) := by
      show schemeSplit (cleanUrl _) = _
      rw [hclean]
      exact schemeSplit_of_some _ _ _ hdet
    refine ⟨hclean, ?_, ?_⟩
    · rw [hs2, hSlow]
    · rw [hs2]

theorem reparse_master (u : List Char) (pu : UrlParts) (h : urlparseModel u = some pu)
    (q' : List Char) (hqh : '#' ∉ q')
    (hqsafe : ∀ c ∈ q', isUnsafeURLByte c = false) :
    (stage2 (urlunparseModel
      ⟨pu.scheme, pu.netloc, pu.path, pu.params, q', pu.fragment⟩)).1 = pu.scheme ∧
    (stage5 (urlunparseModel
      ⟨pu.scheme, pu.netloc, pu.path, pu.params, q', pu.fragment⟩)).2 = q' ∧
    (pu.netloc ≠ [] →
      (stage3 (urlunparseModel
        ⟨pu.scheme, pu.netloc, pu.path, pu.params, q', pu.fragment⟩)).1 = pu.netloc ∧
      (pu.path ≠ [] →
        stage6 (urlunparseModel
          ⟨pu.scheme, pu.netloc, pu.path, pu.params, q', pu.fragment⟩) =
          (pu.path, pu.params))) := by
  obtain ⟨hclean, hs2fst, hs2snd⟩ := reparse_stage2 u pu h q' hqsafe
  obtain ⟨hNall, hNsub, hR3sub, hNdisj⟩ := netloc_facts u pu h
  obtain ⟨hPq, hPh, hPpre, hPsplit⟩ := path_facts u pu h
  obtain ⟨hq5, hh5, hpre53⟩ := preQ_facts u
  set R := urlunparseModel ⟨pu.scheme, pu.netloc, pu.path, pu.params, q', pu.fragment⟩
    with hRdef
  set U1 := unparseUrl1 pu with hU1def
  set T := ((if q' = [] then [] else '?' :: q') ++
    (if pu.fragment = [] then [] else '#' :: pu.fragment)) with hTdef
  have hThead : ∀ c, T.head? = some c → (c = '?' ∨ c = '#') := by
    intro c hc
    rw [hTdef] at hc
    by_cases hq0 : q' = []
    · rw [if_pos hq0, List.nil_append] at hc
      by_cases hf0 : pu.fragment = []
      · rw [if_pos hf0] at hc
        cases hc
      · rw [if_neg hf0] at hc
        injection hc with hc
        exact Or.inr hc.symm
    · rw [if_neg hq0] at hc
      rw [show ('?' :: q') ++ (if pu.fragment = [] then [] else '#' :: pu.fragment) =
        '?' :: (q' ++ (if pu.fragment = [] then [] else '#' :: pu.fragment)) from rfl] at hc
      injection hc with hc
      exact Or.inl hc.symm
  have hNet : unparseNet ⟨pu.scheme, pu.netloc, pu.path, pu.params, q', pu.fragment⟩ =
      if pu.netloc ≠ [] ∨ (pu.scheme ≠ [] ∧ pu.scheme ∈ uses_netloc ∧ U1.take 2 ≠ ['/', '/'])
      then '/' :: '/' :: (pu.netloc ++
        (if U1 ≠ [] ∧ U1.take 1 ≠ ['/'] then '/' :: U1 else U1))
      else U1 := rfl
  have hfq : ∀ (H : List Char), '?' ∉ H → '#' ∉ H →
      querySplit (fragSplit (H ++ T)).1 = (H, q') := by
    intro H h1 h2
    rw [hTdef]
    exact fq_pipeline H q' pu.fragment h1 h2 hqh
  by_cases hC : pu.netloc ≠ [] ∨ (pu.scheme ≠ [] ∧ pu.scheme ∈ uses_netloc ∧
      U1.take 2 ≠ ['/', '/'])
  · -- the `//netloc` form is rebuilt
    have hNetv : unparseNet ⟨pu.scheme, pu.netloc, pu.path, pu.params, q', pu.fragment⟩ =
        '/' :: '/' :: (pu.netloc ++
          (if U1 ≠ [] ∧ U1.take 1 ≠ ['/'] then '/' :: U1 else U1)) := by
      rw [hNet, if_pos hC]
    set U1s := (if U1 ≠ [] ∧ U1.take 1 ≠ ['/'] then '/' :: U1 else U1) with hU1sdef
    have hs3 : stage3 R = (pu.netloc, U1s ++ T) := by
      show netlocSplit (stage2 R).2 = _
      rw [hs2snd, hNetv]
      rw [show ('/' :: '/' :: (pu.netloc ++ U1s)) ++ T =
        '/' :: '/' :: ((pu.netloc ++ U1s) ++ T) from rfl]
      rw [netlocSplit_pos, List.append_assoc]
      refine splitnetloc_lit _ _ hNall ?_
      intro b hb
      by_cases hsl : U1 ≠ [] ∧ U1.take 1 ≠ ['/']
      · rw [hU1sdef, if_pos hsl] at hb
        injection hb with hb
        rw [← hb]
        rfl
      · rw [hU1sdef, if_neg hsl] at hb
        push_neg at hsl
        by_cases hu₁nil : U1 = []
        · rw [hu₁nil, List.nil_append] at hb
          rcases hThead b hb with rfl | rfl <;> rfl
        · have htake := hsl hu₁nil
          cases hU1c : U1 with
          | nil => exact absurd hU1c hu₁nil
          | cons c tl =>
            rw [hU1c] at htake
            have hcs : c = '/' := by
              have : List.take 1 (c :: tl) = [c] := rfl
              rw [this] at htake
              injection htake with htake
            rw [hU1c] at hb
            injection hb with hb
            rw [← hb, hcs]
            rfl
    have hU1sq : '?' ∉ U1s := by
      rw [hU1sdef]
      by_cases hsl : U1 ≠ [] ∧ U1.take 1 ≠ ['/']
      · rw [if_pos hsl]
        intro hx
        rcases List.mem_cons.mp hx with hx | hx
        · exact absurd hx (by decide)
        · exact hPq hx
      · rw [if_neg hsl]
        exact hPq
    have hU1sh : '#' ∉ U1s := by
      rw [hU1sdef]
      by_cases hsl : U1 ≠ [] ∧ U1.take 1 ≠ ['/']
      · rw [if_pos hsl]
        intro hx
        rcases List.mem_cons.mp hx with hx | hx
        · exact absurd hx (by decide)
        · exact hPh hx
      · rw [if_neg hsl]
        exact hPh
    have hs5 : stage5 R = (U1s, q') := by
      show querySplit (fragSplit (stage3 R).2).1 = _
      rw [hs3]
      exact hfq U1s hU1sq hU1sh
    refine ⟨hs2fst, by rw [hs5], ?_⟩
    intro hN
    refine ⟨by rw [hs3], ?_⟩
    intro hP
    -- path nonempty: it starts with `/`, so no slash was inserted
    have hu₁nil : U1 ≠ [] := by
      rw [hU1def]
      unfold unparseUrl1
      intro hc
      exact hP (List.append_eq_nil.mp hc).1
    have hdelim : ∀ b, (stage3 u).2.head? = some b → isNetlocDelim b = true := by
      rcases hNdisj with ⟨_, hNnil, _⟩ | hd
      · exact absurd hNnil hN
      · exact hd
    have hpr : U1 <+: (stage3 u).2 := hPpre.trans hpre53
    have hh := prefix_head?_eq hpr hu₁nil
    cases hU1c : U1 with
    | nil => exact absurd hU1c hu₁nil
    | cons b tl =>
      have hb : isNetlocDelim b = true := by
        refine hdelim b ?_
        rw [← hh, hU1c]
        rfl
      have hbmem : b ∈ U1 := by
        rw [hU1c]
        exact List.mem_cons_self _ _
      have hbslash : b = '/' := by
        rcases netlocDelim_cases b hb with hb' | hb' | hb'
        · exact hb'
        · exact absurd (hb' ▸ hbmem) hPq
        · exact absurd (hb' ▸ hbmem) hPh
      have hU1seq : U1s = U1 := by
        rw [hU1sdef, if_neg (by
          intro hsl
          refine hsl.2 ?_
          rw [hU1c, hbslash]
          rfl)]
      have hs6 : stage6 R = (pu.path, pu.params) := by
        show paramsSplit (stage2 R).1 (stage5 R).1 = _
        rw [hs2fst, hs5, hU1seq]
        exact hPsplit
      exact hs6
  · -- no netloc is rebuilt
    have hNnil : pu.netloc = [] := by
      push_neg at hC
      exact hC.1
    have hNetv : unparseNet ⟨pu.scheme, pu.netloc, pu.path, pu.params, q', pu.fragment⟩ =
        U1 := by
      rw [hNet, if_neg hC]
    rw [hNetv] at hs2snd
    by_cases htk : (U1 ++ T).take 2 = ['/', '/']
    · -- the rebuilt path itself starts with `//`
      cases hU1c : U1 with
      | nil =>
        rw [hU1c, List.nil_append] at htk
        cases hT0 : T with
        | nil => rw [hT0] at htk; cases htk
        | cons c T' =>
          rw [hT0] at htk
          have hc : c = '/' := by
            rw [show List.take 2 (c :: T') = c :: List.take 1 T' from rfl] at htk
            injection htk with h1 h2
          rcases hThead c (by rw [hT0]; rfl) with rfl | rfl <;> cases hc
      | cons c1 rest =>
        cases hrest : rest with
        | nil =>
          rw [hU1c, hrest] at htk
          have hc : c1 = '/' ∧ T.take 1 = ['/'] := by
            rw [show ([c1] ++ T).take 2 = c1 :: T.take 1 from rfl] at htk
            injection htk with h1 h2
            exact ⟨h1, h2⟩
          cases hT0 : T with
          | nil => rw [hT0] at hc; cases hc.2
          | cons t0 T' =>
            have : t0 = '/' := by
              have := hc.2
              rw [hT0] at this
              rw [show List.take 1 (t0 :: T') = [t0] from rfl] at this
              injection this with h1
            rcases hThead t0 (by rw [hT0]; rfl) with rfl | rfl <;> cases this
        | cons c2 u₃ =>
          have hc1 : c1 = '/' ∧ c2 = '/' := by
            rw [hU1c, hrest] at htk
            rw [show ((c1 :: c2 :: u₃) ++ T).take 2 = [c1, c2] from rfl] at htk
            injection htk with h1 h2
            injection h2 with h2 h3
            exact ⟨h1, h2⟩
          have hu₃sub : u₃ ⊆ U1 := by
            intro x hx
            rw [hU1c, hrest]
            exact List.mem_cons_of_mem _ (List.mem_cons_of_mem _ hx)
          have hs3v : (stage3 R).2 =
              (u₃.dropWhile (fun c => !isNetlocDelim c)) ++ T := by
            show (netlocSplit (stage2 R).2).2 = _
            rw [hs2snd, hU1c, hrest, hc1.1, hc1.2]
            rw [show (('/' :: '/' :: u₃) ++ T) = '/' :: '/' :: (u₃ ++ T) from rfl]
            rw [netlocSplit_pos]
            show (u₃ ++ T).dropWhile (fun c => !isNetlocDelim c) = _
            rw [List.dropWhile_append]
            by_cases hdw : (u₃.dropWhile (fun c => !isNetlocDelim c)).isEmpty
            · rw [if_pos hdw]
              rw [List.isEmpty_iff] at hdw
              rw [hdw, List.nil_append]
              cases hT0 : T with
              | nil => rfl
              | cons t0 T' =>
                refine List.dropWhile_cons_of_neg ?_
                rcases hThead t0 (by rw [hT0]; rfl) with rfl | rfl <;> decide
            · rw [if_neg hdw]
          have hs5 : stage5 R = (u₃.dropWhile (fun c => !isNetlocDelim c), q') := by
            show querySplit (fragSplit (stage3 R).2).1 = _
            rw [hs3v]
            refine hfq _ ?_ ?_
            · intro hx
              exact hPq (hu₃sub ((List.dropWhile_suffix _).subset hx))
            · intro hx
              exact hPh (hu₃sub ((List.dropWhile_suffix _).subset hx))
          exact ⟨hs2fst, by rw [hs5], fun hN => absurd hNnil hN⟩
    · have hs3 : stage3 R = ([], U1 ++ T) := by
        show netlocSplit (stage2 R).2 = _
        rw [hs2snd]
        exact netlocSplit_neg _ htk
      have hs5 : stage5 R = (U1, q') := by
        show querySplit (fragSplit (stage3 R).2).1 = _
        rw [hs3]
        exact hfq U1 hPq hPh
      exact ⟨hs2fst, by rw [hs5], fun hN => absurd hNnil hN⟩

theorem mem_joinAmp (fs : List (List Char)) :
    ∀ c ∈ joinAmp fs, (∃ f ∈ fs, c ∈ f) ∨ c = '&' := by
  induction fs with
  | nil => intro c hc; cases hc
  | cons f gs ih =>
    cases gs with
    | nil =>
      intro c hc
      exact Or.inl ⟨f, List.mem_cons_self _ _, hc⟩
    | cons g gs' =>
      intro c hc
      rw [show joinAmp (f :: g :: gs') = f ++ '&' :: joinAmp (g :: gs') from rfl] at hc
      rcases List.mem_append.mp hc with hc | hc
      · exact Or.inl ⟨f, List.mem_cons_self _ _, hc⟩
      · rcases List.mem_cons.mp hc with rfl | hc
        · exact Or.inr rfl
        · rcases ih c hc with ⟨f', hf', hcf⟩ | hc
          · exact Or.inl ⟨f', List.mem_cons_of_mem _ hf', hcf⟩
          · exact Or.inr hc

theorem urlencode_chars (G : List (List Char × List (List Char))) :
    ∀ c ∈ urlencode G, goodQChar c = true ∨ c = '=' ∨ c = '&' := by
  intro c hc
  unfold urlencode at hc
  rcases mem_joinAmp _ c hc with ⟨f, hf, hcf⟩ | rfl
  · rw [List.mem_map] at hf
    obtain ⟨kv, _, rfl⟩ := hf
    unfold fieldOf at hcf
    rcases List.mem_append.mp hcf with hcf | hcf
    · exact Or.inl (quote_plus_chars _ c hcf)
    · rcases List.mem_cons.mp hcf with rfl | hcf
      · exact Or.inr (Or.inl rfl)
      · exact Or.inl (quote_plus_chars _ c hcf)
  · exact Or.inr (Or.inr rfl)

theorem urlencode_no_hash (G : List (List Char × List (List Char))) :
    '#' ∉ urlencode G := by
  intro hx
  rcases urlencode_chars G '#' hx with hg | hg | hg
  · exact (goodQChar_ne '#' hg).1 rfl
  · cases hg
  · cases hg

theorem urlencode_safe (G : List (List Char × List (List Char))) :
    ∀ c ∈ urlencode G, isUnsafeURLByte c = false := by
  intro c hc
  rcases urlencode_chars G c hc with hg | rfl | rfl
  · exact (goodQChar_ne c hg).2.2.2.2.1
  · decide
  · decide

theorem kept_keys_clean (qs : List Char) :
    ∀ e ∈ parse_qs (urlencode ((parse_qs qs).filter
      (fun kv => pyLower kv.1 ∉ remove_keys))),
      pyLower e.1 ∉ remove_keys := by
  intro e he
  obtain ⟨kv, hkv, hk⟩ := parse_qs_urlencode_keys _ e he
  have := (List.mem_filter.mp hkv).2
  rw [hk]
  simpa using this

/-- C10: `strip_downscaling_params` is idempotent. -/
theorem claim_C10 (u : String) :
    strip_downscaling_params (strip_downscaling_params u) = strip_downscaling_params u := by
  cases hp : urlparseModel u.data with
  | none => rw [strip_parse_none u hp, strip_parse_none u hp]
  | some pu =>
    by_cases h2 : (parse_qs pu.query).any (fun kv => pyLower kv.1 ∈ remove_keys) = true
    · have hstrip := strip_removable u pu hp h2
      rw [hstrip]
      cases hp2 : urlparseModel (String.mk (urlunparseModel
          ⟨pu.scheme, pu.netloc, pu.path, pu.params,
            urlencode ((parse_qs pu.query).filter
              (fun kv => pyLower kv.1 ∉ remove_keys)), pu.fragment⟩)).data with
      | none => exact strip_parse_none _ hp2
      | some pu2 =>
        have hq2 := (urlparseModel_some_eq _ _ hp2).2.2.2.2.1
        obtain ⟨_, hs5, _⟩ := reparse_master u.data pu hp
          (urlencode ((parse_qs pu.query).filter
            (fun kv => pyLower kv.1 ∉ remove_keys)))
          (urlencode_no_hash _) (urlencode_safe _)
        have hq2' : pu2.query = urlencode ((parse_qs pu.query).filter
            (fun kv => pyLower kv.1 ∉ remove_keys)) := hq2.trans hs5
        refine strip_no_removable _ pu2 hp2 ?_
        intro hany
        rw [List.any_eq_true] at hany
        obtain ⟨e, he, hrem⟩ := hany
        rw [hq2'] at he
        exact (kept_keys_clean pu.query e he) (by simpa using hrem)
    · rw [strip_no_removable u pu hp h2, strip_no_removable u pu hp h2]

/-- C3 (amended): properties of `strip_downscaling_params`. -/
theorem claim_C3 :
    (∀ (u : String) (pu : UrlParts), urlparseModel u.data = some pu →
      (parse_qs pu.query).any (fun kv => pyLower kv.1 ∈ remove_keys) = false →
      strip_downscaling_params u = u) ∧
    (∀ (u : String) (pu pu2 : UrlParts), urlparseModel u.data = some pu →
      urlparseModel (strip_downscaling_params u).data = some pu2 →
      (∀ e ∈ parse_qs pu2.query, pyLower e.1 ∉ remove_keys) ∧
      pu2.scheme = pu.scheme ∧
      (pu.netloc ≠ [] → pu2.netloc = pu.netloc ∧
        (pu.path ≠ [] → pu2.path = pu.path ∧ pu2.params = pu.params))) := by
  constructor
  · intro u pu hp h2
    exact strip_no_removable u pu hp (by rw [h2]; exact Bool.false_ne_true)
  · intro u pu pu2 hp hp2
    by_cases h2 : (parse_qs pu.query).any (fun kv => pyLower kv.1 ∈ remove_keys) = true
    · have hstrip := strip_removable u pu hp h2
      rw [hstrip] at hp2
      obtain ⟨hc1, hc2, hc3, hc4, hc5, hc6⟩ := urlparseModel_some_eq _ _ hp2
      obtain ⟨hs2fst, hs5, hrest⟩ := reparse_master u.data pu hp
        (urlencode ((parse_qs pu.query).filter
          (fun kv => pyLower kv.1 ∉ remove_keys)))
        (urlencode_no_hash _) (urlencode_safe _)
      refine ⟨?_, ?_, ?_⟩
      · intro e he
        rw [hc5] at he
        rw [show (stage5 (String.mk (urlunparseModel
            ⟨pu.scheme, pu.netloc, pu.path, pu.params,
              urlencode ((parse_qs pu.query).filter
                (fun kv => pyLower kv.1 ∉ remove_keys)), pu.fragment⟩)).data).2 =
          urlencode ((parse_qs pu.query).filter
            (fun kv => pyLower kv.1 ∉ remove_keys)) from hs5] at he
        exact kept_keys_clean pu.query e he
      · rw [hc1]
        exact hs2fst
      · intro hN
        obtain ⟨hs3, hpp⟩ := hrest hN
        refine ⟨by rw [hc2]; exact hs3, ?_⟩
        intro hP
        have hs6 := hpp hP
        constructor
        · rw [hc3]
          rw [show (stage6 (String.mk (urlunparseModel
              ⟨pu.scheme, pu.netloc, pu.path, pu.params,
                urlencode ((parse_qs pu.query).filter
                  (fun kv => pyLower kv.1 ∉ remove_keys)), pu.fragment⟩)).data) =
            (pu.path, pu.params) from hs6]
        · rw [hc4]
          rw [show (stage6 (String.mk (urlunparseModel
              ⟨pu.scheme, pu.netloc, pu.path, pu.params,
                urlencode ((parse_qs pu.query).filter
                  (fun kv => pyLower kv.1 ∉ remove_keys)), pu.fragment⟩)).data) =
            (pu.path, pu.params) from hs6]
    · have hstrip := strip_no_removable u pu hp h2
      rw [hstrip] at hp2
      rw [hp] at hp2
      injection hp2 with hp2
      subst hp2
      refine ⟨?_, rfl, fun _ => ⟨rfl, fun _ => ⟨rfl, rfl⟩⟩⟩
      intro e he hmem
      refine h2 ?_
      rw [List.any_eq_true]
      exact ⟨e, he, by simpa using hmem⟩

/-- C3 counterexample: input `"////w?w=1"` parses with empty host and path
`//w`; the stripped result `"//w"` re-parses with host `w` and empty path, so
host and path are not preserved. -/
theorem claim_C3_counterexample :
    urlparseModel ("////w?w=1" : String).data =
      some ⟨[], [], ['/', '/', 'w'], [], ['w', '=', '1'], []⟩ ∧
    strip_downscaling_params "////w?w=1" = "//w" ∧
    urlparseModel (strip_downscaling_params "////w?w=1").data =
      some ⟨[], ['w'], [], [], [], []⟩ ∧
    (['w'] : List Char) ≠ ([] : List Char) ∧
    ([] : List Char) ≠ (['/', '/', 'w'] : List Char) := by
  decide

/-- C3 witness at a concrete URL. -/
theorem claim_C3_witness :
    strip_downscaling_params "http://h/p?w=1&a=b" = "http://h/p?a=b" ∧
    ∀ e ∈ parse_qs (['a', '=', 'b'] : List Char), pyLower e.1 ∉ remove_keys := by
  refine ⟨by decide, ?_⟩
  exact (claim_C3.2 "http://h/p?w=1&a=b"
    ⟨['h', 't', 't', 'p'], ['h'], ['/', 'p'], [],
      ['w', '=', '1', '&', 'a', '=', 'b'], []⟩
    ⟨['h', 't', 't', 'p'], ['h'], ['/', 'p'], [], ['a', '=', 'b'], []⟩
    (by decide) (by decide)).1

/-! ## Effect models for the two scripts (claims C2, C4, C5, C6, C7)

External effects are modelled as oracles: the outcome of the n-th HTTP
request of a run is `att n`; DOM/selector lookups and page URLs are fields
of small record types; the filesystem is an association list of JSON
documents plus a list of existing folders. JSON values are the inductive
`JVal`. The `file` field of each image record and the downloaded image
bytes are not modelled (no claim mentions them); text extraction,
`urljoin` and the wall clock are abstract parameters. -/

/-- A JSON value. -/
inductive JVal where
  | jnull : JVal
  | jbool : Bool → JVal
  | jnum : Int → JVal
  | jstr : String → JVal
  | jarr : List JVal → JVal
  | jobj : List (String × JVal) → JVal

/-- A scalar JSON value: not an array and not an object. -/
def isScalar : JVal → Bool
  | .jarr _ => false
  | .jobj _ => false
  | _ => true

/-- The top-level fields of a JSON object (empty for non-objects). -/
def jobjFields : JVal → List (String × JVal)
  | .jobj fs => fs
  | _ => []

/-- The filesystem: existing folders and JSON files by path. -/
structure FS where
  folders : List String
  files : List (String × JVal)

/-- `json.dump(v, open(path, "w"))`: create or overwrite. -/
def fsWrite (fs : FS) (path : String) (v : JVal) : FS :=
  ⟨fs.folders, (path, v) :: fs.files.filter (fun kv => kv.1 ≠ path)⟩

/-- Contents of the JSON file at `path`, if present. -/
def fsGet (fs : FS) (path : String) : Option JVal :=
  (fs.files.find? (fun kv => kv.1 = path)).map (fun kv => kv.2)

/-- `ensure_dir` / `os.makedirs(..., exist_ok=True)`. -/
def fsMkdir (fs : FS) (path : String) : FS :=
  ⟨path :: fs.folders, fs.files⟩

/-! ### `build_cfm_weekly.py`: `scrape_week` and `main` (claims C5, C7) -/

/-- `BASE` of `build_cfm_weekly.py`. -/
def CFM_BASE : String := "https://www.churchofjesuschrist.org"

/-- `OUT_JSON`. -/
def OUT_JSON : String := "data/come_follow_me_this_week.json"

/-- `"{week:02d}"`. -/
def pad2 (n : Nat) : String := if n < 10 then "0" ++ toString n else toString n

/-- `BASE + MANUAL_PATH.format(week=week)`. -/
def weekUrl (week : Nat) : String :=
  CFM_BASE ++ "/study/manual/come-follow-me-for-home-and-church-old-testament-2026/" ++
    pad2 week ++ "?lang=eng"

/-- An `<img>` tag as used by the pickers: its `srcset` and `src` attributes. -/
structure ImgTag where
  srcset : String
  src : String

/-- The DOM queries `scrape_week` makes of the fetched page, as oracles:
`select_one("img#img1")`, `select_one("figure img")`, `find("img")`,
`select_one("p.title-number")` text, `select_one("h1")` text. -/
structure Soup where
  img1 : Option ImgTag
  figImg : Option ImgTag
  anyImg : Option ImgTag
  titleNumberText : Option String
  h1Text : Option String

/-- `get_text_or_empty`. -/
def get_text_or_empty : Option String → String
  | some t => t
  | none => ""

/-- `absolute_url`, with `urljoin(BASE, ·)` abstracted as `join`. -/
def absolute_url (join : String → String) (u : String) : String :=
  if u = "" then "" else join u

/-- `pick_best_image_from_tag`. -/
def pick_best_image_from_tag (join : String → String) : Option ImgTag → String
  | none => ""
  | some tag =>
    let best := largest_from_srcset tag.srcset
    if best ≠ "" then absolute_url join best
    else if tag.src ≠ "" then absolute_url join tag.src
    else ""

/-- `pick_first_image`. -/
def pick_first_image (join : String → String) (soup : Soup) : String :=
  let b1 := pick_best_image_from_tag join soup.img1
  if b1 ≠ "" then b1
  else
    let b2 := pick_best_image_from_tag join soup.figImg
    if b2 ≠ "" then b2
    else
      let b3 := pick_best_image_from_tag join soup.anyImg
      if b3 ≠ "" then b3 else ""

/-- The dict literal returned by `scrape_week`. -/
def weeklyPayload (now : String) (week : Nat) (url imageUrl small big : String) : JVal :=
  .jobj [("generated_at_utc", .jstr now), ("week_number", .jnum week),
    ("source_url", .jstr url), ("image_url", .jstr imageUrl),
    ("small_heading", .jstr small), ("big_heading", .jstr big)]

/-- `scrape_week`: `none` for a network error raised by `requests.get`;
`raise_for_status()` raises for `400 ≤ status < 600`. -/
def scrape_week (week : Nat) (now : String) (join : String → String)
    (resp : Option (Nat × Soup)) : Except Unit JVal :=
  match resp with
  | none => .error ()
  | some (status, soup) =>
    if 400 ≤ status ∧ status < 600 then .error ()
    else .ok (weeklyPayload now week (weekUrl week) (pick_first_image join soup)
      (get_text_or_empty soup.titleNumberText) (get_text_or_empty soup.h1Text))

/-- `main` of `build_cfm_weekly.py`: the `try/except` around `scrape_week`
re-raises, so a scrape failure propagates and nothing is written; on
success `data/` is created and `OUT_JSON` is written. -/
def cfm_main (fs : FS) (week : Nat) (now : String) (join : String → String)
    (resp : Option (Nat × Soup)) : Except Unit Unit × FS :=
  match scrape_week week now join resp with
  | .error e => (.error e, fs)
  | .ok payload => (.ok (), fsWrite (fsMkdir fs "data") OUT_JSON payload)

/-! ### `unit_history_sync.py`: downloads, selector misses, manifest
(claims C2, C4, C6, C7) -/

/-- One entry of `meta["images"]` (the `file` path field is not modelled). -/
structure ImgRec where
  index : Nat
  url : String
  downloaded : Bool
deriving Repr, DecidableEq

/-- `download_file_via_context`: the n-th HTTP request of the run succeeds
iff `att n`; each call consumes one request. Returns the outcome and the
next request counter. -/
def download_file_via_context (att : Nat → Bool) (k : Nat) : Bool × Nat :=
  (att k, k + 1)

/-- The image loop of `download_current_story`: one attempt, and on failure
a wait and exactly one retry; the result is recorded either way. -/
def story_images_loop (att : Nat → Bool) :
    List String → Nat → Nat → List ImgRec × Nat
  | [], _, k => ([], k)
  | u :: us, idx, k =>
    let r1 := download_file_via_context att k
    let r2 := if r1.1 then r1 else download_file_via_context att r1.2
    let rest := story_images_loop att us (idx + 1) r2.2
    (⟨idx, u, r2.1⟩ :: rest.1, rest.2)

/-- The request counter before image `i` is attempted: each image consumes
one request if its first attempt succeeds and two otherwise. -/
def attemptStart (att : Nat → Bool) (k : Nat) : Nat → Nat
  | 0 => k
  | i + 1 =>
    if att (attemptStart att k i) then attemptStart att k i + 1
    else attemptStart att k i + 2

/-- The folder name `download_current_story` derives from the story title
and date text. -/
def storyFolderOf (outRoot title dateText : String) : String :=
  outRoot ++ "/" ++
    (if dateText ≠ "" then safe_name (safe_name title ++ " - " ++ dateText)
     else safe_name title)

/-- `meta` as written to `story.json` for a processed story. -/
def storyJson (finalUrl title dateText folder : String) (recs : List ImgRec) : JVal :=
  .jobj [("final_url", .jstr finalUrl), ("title", .jstr title),
    ("date_text", .jstr dateText), ("folder", .jstr folder),
    ("image_count_found", .jnum recs.length),
    ("images", .jarr (recs.map (fun r =>
      .jobj [("index", .jnum r.index), ("url", .jstr r.url),
        ("downloaded", .jbool r.downloaded)])))]

/-- `download_current_story`: a missing `h1` saves a debug artifact but the
function continues; existing folders are skipped (returning early without
writing `story.json`) when `skipExisting`; otherwise images are downloaded
with one retry each and `story.json` is written. Returns the story record,
the filesystem, the debug tags saved, and the request counter. -/
def download_current_story (skipExisting : Bool) (att : Nat → Bool)
    (outRoot : String) (hasH1 : Bool) (finalUrl title dateText : String)
    (imageUrls : List String) (fs : FS) (k : Nat) :
    JVal × FS × List String × Nat :=
  let dbg : List String := if hasH1 then [] else ["story_no_h1"]
  let folder := storyFolderOf outRoot title dateText
  if skipExisting = true ∧ folder ∈ fs.folders then
    (.jobj [("final_url", .jstr finalUrl), ("title", .jstr title),
      ("date_text", .jstr dateText), ("skipped_existing_folder", .jbool true),
      ("folder", .jstr folder), ("image_count_found", .jnum 0),
      ("images", .jarr [])], fs, dbg, k)
  else
    let res := story_images_loop att imageUrls 1 k
    let meta := storyJson finalUrl title dateText folder res.1
    (meta, fsWrite (fsMkdir fs folder) (folder ++ "/story.json") meta, dbg, res.2)

/-- The login-page DOM and URL oracles used by `attempt_headless_login`:
whether `is_login_page(page.url)` holds after the initial `goto`, whether
any username / password selector matches, and whether
`is_login_page(page.url)` still holds after submitting. -/
structure LoginPage where
  urlIsLogin : Bool
  hasUser : Bool
  hasPass : Bool
  stillLoginAfter : Bool

/-- `attempt_headless_login` (the outcome and the debug tags saved):
missing credentials raise; a page that is not a login page returns; a
missing username or password input saves debug artifacts and raises; still
being on a login page after submit saves debug artifacts and raises. -/
def attempt_headless_login (hasCreds : Bool) (pg : LoginPage) :
    Except Unit Unit × List String :=
  if hasCreds = false then (.error (), [])
  else if pg.urlIsLogin = false then (.ok (), [])
  else if pg.hasUser = false then (.error (), ["login_no_username_field"])
  else if pg.hasPass = false then (.error (), ["login_no_password_field"])
  else if pg.stillLoginAfter = true then (.error (), ["login_still_on_login_page"])
  else (.ok (), [])

/-- The oracles of `open_story_grid`: whether the grid URL redirects to a
login page, and whether `wait_for_selector(STORY_CARD_SELECTOR)` finds the
story cards in time. -/
structure GridPage where
  redirectedToLogin : Bool
  cardsFound : Bool

/-- `open_story_grid` (the outcome and the debug tags saved). -/
def open_story_grid (pg : GridPage) : Except Unit Unit × List String :=
  if pg.redirectedToLogin = true then (.error (), ["redirected_to_login"])
  else if pg.cardsFound = false then (.error (), ["story_cards_not_found"])
  else (.ok (), [])

/-- `BASE` of `unit_history_sync.py`. -/
def UNIT_BASE : String := "https://unithistory.churchofjesuschrist.org"

/-- `START_URL`. -/
def START_URL : String := "https://unithistory.churchofjesuschrist.org/"

/-- `MANIFEST_PATH` (default). -/
def MANIFEST_PATH : String := "unit-history/manifest.json"

/-- The manifest dict built at the end of `main`. -/
def manifestJson (exportedAt : String) (headless skip : Bool)
    (total processed skipped : Nat) (stories : List JVal) : JVal :=
  .jobj [("exported_at_utc", .jstr exportedAt), ("base", .jstr UNIT_BASE),
    ("start_url", .jstr START_URL), ("headless", .jbool headless),
    ("skip_existing_folders", .jbool skip),
    ("story_count_found_on_grid", .jnum total),
    ("story_count_downloaded_new", .jnum processed),
    ("story_count_skipped_existing", .jnum skipped),
    ("stories", .jarr stories)]

/-- The manifest write at the end of `main` (`ensure_dir` then `json.dump`). -/
def write_manifest (fs : FS) (m : JVal) : FS := fsWrite fs MANIFEST_PATH m

theorem fsGet_fsWrite (fs : FS) (p : String) (v : JVal) :
    fsGet (fsWrite fs p v) p = some v := by
  unfold fsGet fsWrite
  rw [List.find?_cons_of_pos _ (by simp)]
  rfl

/-- C5: when the HTTP fetch of the week's page fails — a network error or a
status in 400..599 rejected by `raise_for_status` — the error propagates
out of `main` and the output file is not written: the filesystem is
returned unchanged. -/
theorem claim_C5 (fs : FS) (week : Nat) (now : String) (join : String → String)
    (resp : Option (Nat × Soup))
    (hfail : resp = none ∨
      ∃ status soup, resp = some (status, soup) ∧ 400 ≤ status ∧ status < 600) :
    cfm_main fs week now join resp = (.error (), fs) := by
  rcases hfail with rfl | ⟨status, soup, rfl, h4, h6⟩
  · rfl
  · unfold cfm_main scrape_week
    dsimp only
    rw [if_pos ⟨h4, h6⟩]

/-- C5 witness: a 404 status at a concrete filesystem. -/
theorem claim_C5_witness :
    cfm_main ⟨[], [(OUT_JSON, .jstr "old")]⟩ 7 "t" (fun s => s)
      (some (404, ⟨none, none, none, none, none⟩)) =
      (.error (), ⟨[], [(OUT_JSON, .jstr "old")]⟩) :=
  claim_C5 ⟨[], [(OUT_JSON, .jstr "old")]⟩ 7 "t" (fun s => s)
    (some (404, ⟨none, none, none, none, none⟩))
    (Or.inr ⟨404, ⟨none, none, none, none, none⟩, rfl, by decide, by decide⟩)

/-- C7 (amended): every top-level field of the weekly summary JSON is a
scalar, and every top-level field of the unit-history manifest except
`stories` is a scalar; the `stories` field is an array of the per-story
records. -/
theorem claim_C7 :
    (∀ (now : String) (week : Nat) (url imageUrl small big : String),
      ∀ kv ∈ jobjFields (weeklyPayload now week url imageUrl small big),
        isScalar kv.2 = true) ∧
    (∀ (e : String) (hl sk : Bool) (t p s : Nat) (stories : List JVal),
      (∀ kv ∈ jobjFields (manifestJson e hl sk t p s stories),
        kv.1 ≠ "stories" → isScalar kv.2 = true) ∧
      ("stories", JVal.jarr stories) ∈ jobjFields (manifestJson e hl sk t p s stories)) := by
  constructor
  · intro now week url imageUrl small big kv hkv
    simp only [weeklyPayload, jobjFields, List.mem_cons, List.not_mem_nil,
      or_false] at hkv
    rcases hkv with rfl | rfl | rfl | rfl | rfl | rfl <;> rfl
  · intro e hl sk t p s stories
    constructor
    · intro kv hkv
      simp only [manifestJson, jobjFields, List.mem_cons, List.not_mem_nil,
        or_false] at hkv
      rcases hkv with rfl | rfl | rfl | rfl | rfl | rfl | rfl | rfl | rfl <;>
        intro hne <;> first | rfl | exact absurd rfl hne
    · exact List.Mem.tail _ (List.Mem.tail _ (List.Mem.tail _ (List.Mem.tail _
        (List.Mem.tail _ (List.Mem.tail _ (List.Mem.tail _ (List.Mem.tail _
          (List.Mem.head _))))))))

/-- C7 counterexample: the manifest's top-level `stories` field is an
array, not a scalar, so the manifest is not a flat record. -/
theorem claim_C7_counterexample :
    ("stories", JVal.jarr []) ∈
      jobjFields (manifestJson "2026-01-01 00:00:00" true true 0 0 0 []) ∧
    isScalar (JVal.jarr []) = false :=
  ⟨List.Mem.tail _ (List.Mem.tail _ (List.Mem.tail _ (List.Mem.tail _
    (List.Mem.tail _ (List.Mem.tail _ (List.Mem.tail _ (List.Mem.tail _
      (List.Mem.head _)))))))), rfl⟩

/-- C7 witness: the weekly payload's `week_number` field at concrete
arguments is a scalar. -/
theorem claim_C7_witness :
    isScalar (JVal.jnum 7) = true :=
  claim_C7.1 "t" 7 "u" "i" "s" "b" ("week_number", JVal.jnum 7)
    (List.Mem.tail _ (List.Mem.head _))

theorem story_images_loop_cons (att : Nat → Bool) (u : String) (us : List String)
    (idx k : Nat) :
    story_images_loop att (u :: us) idx k =
      ((⟨idx, u, att k || att (k + 1)⟩ : ImgRec) ::
        (story_images_loop att us (idx + 1) (if att k then k + 1 else k + 2)).1,
       (story_images_loop att us (idx + 1) (if att k then k + 1 else k + 2)).2) := by
  conv_lhs => unfold story_images_loop
  unfold download_file_via_context
  by_cases hk : att k = true
  · simp [hk]
  · simp only [Bool.not_eq_true] at hk
    simp [hk, show k + 1 + 1 = k + 2 from rfl]

theorem attemptStart_shift (att : Nat → Bool) (k : Nat) :
    ∀ i, attemptStart att (if att k then k + 1 else k + 2) i =
      attemptStart att k (i + 1) := by
  intro i
  induction i with
  | zero => rfl
  | succ i ih =>
    show (if att (attemptStart att (if att k then k + 1 else k + 2) i) then _ else _) = _
    rw [ih]
    rfl

/-- C2: the image loop of `download_current_story` records one entry per
image URL (a failed download never aborts the loop); image `i`'s first
attempt is request `attemptStart att k i`, the next image starts one
request later on success and exactly two later otherwise (exactly one
retry); the recorded `downloaded` flag is true iff one of the at most two
attempts succeeded. -/
theorem claim_C2 (att : Nat → Bool) (urls : List String) (idx k : Nat) :
    (story_images_loop att urls idx k).1.length = urls.length ∧
    (story_images_loop att urls idx k).2 = attemptStart att k urls.length ∧
    (∀ i u, urls[i]? = some u →
      (story_images_loop att urls idx k).1[i]? =
        some ⟨idx + i, u,
          att (attemptStart att k i) || att (attemptStart att k i + 1)⟩ ∧
      attemptStart att k (i + 1) =
        (if att (attemptStart att k i) then attemptStart att k i + 1
         else attemptStart att k i + 2)) := by
  induction urls generalizing idx k with
  | nil =>
    refine ⟨rfl, rfl, ?_⟩
    intro i u hu
    simp at hu
  | cons v us ih =>
    rw [story_images_loop_cons]
    obtain ⟨ihlen, ihcnt, ihel⟩ := ih (idx + 1) (if att k then k + 1 else k + 2)
    refine ⟨?_, ?_, ?_⟩
    · simp [ihlen]
    · show (story_images_loop att us (idx + 1) (if att k then k + 1 else k + 2)).2 = _
      rw [ihcnt, attemptStart_shift]
      rfl
    · intro i u hu
      cases i with
      | zero =>
        rw [List.getElem?_cons_zero] at hu
        injection hu with hu
        subst hu
        constructor
        · show (((⟨idx, v, att k || att (k + 1)⟩ : ImgRec) ::
            (story_images_loop att us (idx + 1)
              (if att k then k + 1 else k + 2)).1))[0]? = _
          rw [List.getElem?_cons_zero, Nat.add_zero]
          rfl
        · rfl
      | succ i =>
        rw [List.getElem?_cons_succ] at hu
        obtain ⟨hel, hcons⟩ := ihel i u hu
        constructor
        · show (((⟨idx, v, att k || att (k + 1)⟩ : ImgRec) ::
            (story_images_loop att us (idx + 1)
              (if att k then k + 1 else k + 2)).1))[i + 1]? = _
          rw [List.getElem?_cons_succ, hel, attemptStart_shift]
          rw [show idx + 1 + i = idx + (i + 1) from by omega]
        · rfl

/-- C2 witness: one image whose first attempt fails and whose retry
succeeds. -/
theorem claim_C2_witness :
    (story_images_loop (fun n => decide (n = 1)) ["a"] 1 0).1[0]? =
      some ⟨1 + 0, "a",
        (fun n => decide (n = 1)) (attemptStart (fun n => decide (n = 1)) 0 0) ||
        (fun n => decide (n = 1))
          (attemptStart (fun n => decide (n = 1)) 0 0 + 1)⟩ ∧
    (story_images_loop (fun n => decide (n = 1)) ["a"] 1 0).1.length = 1 :=
  ⟨((claim_C2 (fun n => decide (n = 1)) ["a"] 1 0).2.2 0 "a" rfl).1,
   (claim_C2 (fun n => decide (n = 1)) ["a"] 1 0).1⟩

/-- C4 (amended): a missed story-card selector and a missed username or
password input save debug artifacts and raise a failure; a missed `h1` on a
story page only saves a debug artifact — the function continues (see the
counterexample). -/
theorem claim_C4 :
    (∀ pg : GridPage, pg.redirectedToLogin = false → pg.cardsFound = false →
      open_story_grid pg = (.error (), ["story_cards_not_found"])) ∧
    (∀ pg : LoginPage, pg.urlIsLogin = true → pg.hasUser = false →
      attempt_headless_login true pg = (.error (), ["login_no_username_field"])) ∧
    (∀ pg : LoginPage, pg.urlIsLogin = true → pg.hasUser = true →
      pg.hasPass = false →
      attempt_headless_login true pg = (.error (), ["login_no_password_field"])) ∧
    (∀ (skip : Bool) (att : Nat → Bool) (outRoot : String)
        (finalUrl title dateText : String) (imageUrls : List String)
        (fs : FS) (k : Nat),
      (download_current_story skip att outRoot false finalUrl title dateText
        imageUrls fs k).2.2.1 = ["story_no_h1"]) := by
  refine ⟨?_, ?_, ?_, ?_⟩
  · intro pg h1 h2
    unfold open_story_grid
    rw [if_neg (by rw [h1]; decide), if_pos h2]
  · intro pg h1 h2
    unfold attempt_headless_login
    rw [if_neg (by decide : ¬(true = false)),
      if_neg (by rw [h1]; decide), if_pos h2]
  · intro pg h1 h2 h3
    unfold attempt_headless_login
    rw [if_neg (by decide : ¬(true = false)),
      if_neg (by rw [h1]; decide),
      if_neg (by rw [h2]; decide), if_pos h3]
  · intro skip att outRoot finalUrl title dateText imageUrls fs k
    unfold download_current_story
    dsimp only
    split <;> rfl

/-- C4 counterexample: with the story page's `h1` missing, the debug tag is
saved but the run is not aborted — the story is still processed and its
`story.json` is written. -/
theorem claim_C4_counterexample :
    (download_current_story true (fun _ => false) "out" false "u" "T" "" []
      ⟨[], []⟩ 0).2.2.1 = ["story_no_h1"] ∧
    fsGet (download_current_story true (fun _ => false) "out" false "u" "T" "" []
      ⟨[], []⟩ 0).2.1 "out/T/story.json" =
      some (storyJson "u" "T" "" "out/T" []) := by
  constructor
  · rfl
  · rfl

/-- C4 witness: the story-card selector missing on the grid page. -/
theorem claim_C4_witness :
    open_story_grid ⟨false, false⟩ = (.error (), ["story_cards_not_found"]) :=
  claim_C4.1 ⟨false, false⟩ rfl rfl

/-- C6 (amended): a run that completes rewrites the weekly summary and the
manifest, and rewrites a story's `story.json` whenever the story is not
skipped; with `SKIP_EXISTING_FOLDERS` set, a story whose folder already
exists is skipped and its `story.json` is left as the previous run wrote it
(see the counterexample). -/
theorem claim_C6 :
    (∀ (fs : FS) (week : Nat) (now : String) (join : String → String)
        (status : Nat) (soup : Soup), ¬(400 ≤ status ∧ status < 600) →
      fsGet (cfm_main fs week now join (some (status, soup))).2 OUT_JSON =
        some (weeklyPayload now week (weekUrl week) (pick_first_image join soup)
          (get_text_or_empty soup.titleNumberText)
          (get_text_or_empty soup.h1Text))) ∧
    (∀ (fs : FS) (m : JVal), fsGet (write_manifest fs m) MANIFEST_PATH = some m) ∧
    (∀ (skip : Bool) (att : Nat → Bool)
        (outRoot finalUrl title dateText : String) (imageUrls : List String)
        (fs : FS) (k : Nat),
      ¬(skip = true ∧ storyFolderOf outRoot title dateText ∈ fs.folders) →
      fsGet (download_current_story skip att outRoot true finalUrl title dateText
          imageUrls fs k).2.1
        (storyFolderOf outRoot title dateText ++ "/story.json") =
        some (storyJson finalUrl title dateText
          (storyFolderOf outRoot title dateText)
          (story_images_loop att imageUrls 1 k).1)) := by
  refine ⟨?_, ?_, ?_⟩
  · intro fs week now join status soup h
    unfold cfm_main scrape_week
    dsimp only
    rw [if_neg h]
    exact fsGet_fsWrite _ _ _
  · intro fs m
    exact fsGet_fsWrite _ _ _
  · intro skip att outRoot finalUrl title dateText imageUrls fs k h
    unfold download_current_story
    dsimp only
    rw [if_neg h]
    exact fsGet_fsWrite _ _ _

/-- C6 counterexample: with `SKIP_EXISTING_FOLDERS`, a story whose folder
already exists is skipped; the run completes but the previous run's
`story.json` is left in place, not rewritten. -/
theorem claim_C6_counterexample :
    (download_current_story true (fun _ => false) "out" true "u" "T" "" []
      ⟨["out/T"], [("out/T/story.json", .jstr "old")]⟩ 0).2.1 =
      ⟨["out/T"], [("out/T/story.json", .jstr "old")]⟩ ∧
    fsGet ⟨["out/T"], [("out/T/story.json", .jstr "old")]⟩ "out/T/story.json" =
      some (.jstr "old") ∧
    JVal.jstr "old" ≠ storyJson "u" "T" "" "out/T" [] := by
  refine ⟨rfl, rfl, ?_⟩
  intro h
  exact JVal.noConfusion h

/-- C6 witness: a fresh story folder gets its `story.json` written. -/
theorem claim_C6_witness :
    fsGet (download_current_story false (fun _ => false) "out" true "u" "T" "" []
        ⟨[], []⟩ 0).2.1
      (storyFolderOf "out" "T" "" ++ "/story.json") =
      some (storyJson "u" "T" "" (storyFolderOf "out" "T" "")
        (story_images_loop (fun _ => false) [] 1 0).1) :=
  claim_C6.2.2 false (fun _ => false) "out" "u" "T" "" [] ⟨[], []⟩ 0 (by decide)
